import Mathlib

/-!
Verification of the spreadsheet core (`common.cpp`, `ast.h`/`ast.cpp`,
`formula.cpp`) against its natural-language specification.

Shallow embedding conventions:
* `std::string` is modelled as `CppString := List Nat` (character codes);
  `strOf` converts a Lean string literal to this form for readability.
* C++ `int` is modelled as `Int`; container sizes are `Nat`.
* C++ `double` is modelled as an exact rational `Rat`.  Overflow to
  infinity is modelled by comparison with `DBL_MAX` (the largest finite
  binary64 value, `(2^53 - 1) * 2^971`); IEEE rounding is not modelled
  (all values exercised by the claims are exactly representable).
* Functions that can throw return `Except Exc _` or pair their result
  with an `Option Exc`; C++ loops are modelled by structural recursion,
  with an explicit fuel parameter where the C++ termination argument is
  extrinsic.
-/

set_option maxRecDepth 10000

namespace Spreadsheet

/-- A C++ `std::string`: a list of character codes. -/
abbrev CppString := List Nat

/-- Conversion from a Lean string literal to the `CppString` model. -/
def strOf (s : String) : CppString := s.data.map Char.toNat

/-- The exception kinds surfaced by the program (`common.h` taxonomy plus
the standard-library exceptions that can escape `std::stod`). -/
inductive Exc where
  | formulaException
  | invalidPosition
  | circularDependency
  | tableTooBig
  | stdOutOfRange
  | stdInvalidArgument
  deriving DecidableEq

/-- `FormulaError::Category` from `common.h` / `common.cpp`. -/
inductive FormulaError where
  | Ref
  | Value
  | Div0
  deriving DecidableEq

/-- `Position` from `common.h`: 0-based `(row, col)` with `int` fields. -/
structure Position where
  row : Int
  col : Int
  deriving DecidableEq

namespace Position

/-- `Position::kMaxRows`. -/
def kMaxRows : Int := 16384
/-- `Position::kMaxCols`. -/
def kMaxCols : Int := 16384

/-- `Position::IsValid` (`common.cpp`). -/
def IsValid (p : Position) : Prop :=
  0 ≤ p.row ∧ p.row < kMaxRows ∧ 0 ≤ p.col ∧ p.col < kMaxCols

instance (p : Position) : Decidable p.IsValid := by
  unfold IsValid; infer_instance

/-- `Position::IsValid` as a boolean, for use inside executable code. -/
def isValidB (p : Position) : Bool := decide p.IsValid

/-- The column-letter loop of `Position::ToString`, written with explicit
fuel (the C++ `while` loop strictly decreases `current_col`, so any fuel
above the initial column suffices; see `colLettersAux_fuel_irrel`).
Produces the letters most-significant first, matching the stack pops. -/
def colLettersAux : Nat → Nat → List Nat
  | 0, col => [col % 26 + 65]
  | fuel + 1, col =>
    if col < 26 then [col + 65]
    else colLettersAux fuel (col / 26 - 1) ++ [col % 26 + 65]

/-- Column letters of a (non-negative) column index, per
`Position::ToString`. -/
def colLetters (col : Nat) : List Nat := colLettersAux (col + 1) col

/-- Little-endian base-10 digits, written with explicit fuel so the
kernel can evaluate it (any fuel at or above `n` gives `Nat.digits 10 n`;
see `natDigitsAux_eq_digits`). -/
def natDigitsAux : Nat → Nat → List Nat
  | 0, _ => []
  | fuel + 1, n => if n = 0 then [] else n % 10 :: natDigitsAux fuel (n / 10)

/-- Decimal digit characters of a natural number, most significant first:
the model of `std::to_string` on non-negative values. -/
def natDecimal (n : Nat) : List Nat :=
  if n = 0 then [48] else (natDigitsAux n n).reverse.map (· + 48)

/-- `Position::ToString` (`common.cpp`): empty on a negative coordinate,
otherwise bijective base-26 column letters followed by the 1-based row. -/
def ToString (p : Position) : CppString :=
  if p.row < 0 ∨ p.col < 0 then []
  else colLetters p.col.toNat ++ natDecimal (p.row.toNat + 1)

/-- The higher-letter accumulation loop of `Position::FromString`:
`col += (*it - 'A' + 1) * multiplier; multiplier *= 26`, over the column
letters least significant first (already excluding the last letter). -/
def decodeHigh : List Nat → Int → Int
  | [], _ => 0
  | c :: cs, m => ((c : Int) - 64) * m + decodeHigh cs (m * 26)

/-- The full column decoding of `Position::FromString`: the last letter
contributes `c - 'A'`, the rest via `decodeHigh`. -/
def decodeLetters (l : List Nat) : Int :=
  match l.reverse with
  | [] => 0
  | c :: rest => ((c : Int) - 65) + decodeHigh rest 26

/-- Decimal value of a digit string (the model of `std::stoi` on a string
the regex has already confirmed to be 1–5 decimal digits). -/
def digitsVal (l : List Nat) : Nat :=
  l.foldl (fun a c => a * 10 + (c - 48)) 0

/-- Is this character code an uppercase letter `A`–`Z`? -/
def isUpperCode (c : Nat) : Bool := decide (65 ≤ c ∧ c ≤ 90)

/-- Is this character code a decimal digit `0`–`9`? -/
def isDigitCode (c : Nat) : Bool := decide (48 ≤ c ∧ c ≤ 57)

/-- First character is a non-zero digit `1`–`9` (the regex's `[1-9]`). -/
def headNonzeroDigit (l : CppString) : Bool :=
  match l.head? with
  | some c => decide (49 ≤ c ∧ c ≤ 57)
  | none => false

/-- `Position::FromString` (`common.cpp`).  The regex
`([A-Z]{1,3})([1-9]\d{0,4})` full-match is modelled by splitting the
string at the maximal uppercase prefix (digits are not uppercase, so the
split is exact) and checking the length and character-class constraints
of both groups. -/
def FromString (s : CppString) : Position :=
  let letters := s.takeWhile isUpperCode
  let digits := s.drop letters.length
  if 1 ≤ letters.length ∧ letters.length ≤ 3 ∧
      digits.length ≥ 1 ∧ digits.length ≤ 5 ∧
      (∀ c ∈ digits, isDigitCode c = true) ∧
      headNonzeroDigit digits = true then
    let col : Int := decodeLetters letters
    let row : Int := (digitsVal digits : Int) - 1
    if row < kMaxRows ∧ col < kMaxCols then ⟨row, col⟩
    else ⟨-1, -1⟩
  else ⟨-1, -1⟩

end Position

/-! ## Sorted association maps (the model of `std::map<int, _>`)

`std::map` keeps its entries sorted by key.  It is modelled as an
association list sorted strictly ascending by key; the reverse iteration
`rbegin()..rend()` of the C++ therefore corresponds to `filter` plus
`reverse` on the key list. -/

/-- Ordered-map lookup (`std::map::find` / `at`). -/
def lookupKey {α : Type} (k : Int) : List (Int × α) → Option α
  | [] => none
  | (k', v) :: rest => if k = k' then some v else lookupKey k rest

/-- Ordered-map erase (`std::map::erase(key)`). -/
def eraseKey {α : Type} (k : Int) : List (Int × α) → List (Int × α)
  | [] => []
  | (k', v) :: rest => if k = k' then rest else (k', v) :: eraseKey k rest

/-- Ordered-map insert that keeps an existing entry (`std::map::insert`,
including node-handle reinsert after `extract`: on a key collision the
insertion fails and the inserted node is discarded). -/
def insertSorted {α : Type} (k : Int) (v : α) : List (Int × α) → List (Int × α)
  | [] => [(k, v)]
  | (k', v') :: rest =>
    if k < k' then (k, v) :: (k', v') :: rest
    else if k = k' then (k', v') :: rest
    else (k', v') :: insertSorted k v rest

/-- Ordered-map write (`std::map::operator[] = v`): replaces an existing
entry or inserts a fresh one. -/
def setKey {α : Type} (k : Int) (v : α) : List (Int × α) → List (Int × α)
  | [] => [(k, v)]
  | (k', v') :: rest =>
    if k < k' then (k, v) :: (k', v') :: rest
    else if k = k' then (k, v) :: rest
    else (k', v') :: setKey k v rest

/-- The keys of an ordered map, ascending. -/
def keysOf {α : Type} (m : List (Int × α)) : List Int := m.map Prod.fst

namespace Ast

/-- A store of `CellParam = std::optional<Position>` cells.  A
`CellParamPtr` (`shared_ptr` aliased between the cache and the AST
leaves) is modelled as an index into this store; `none` is the deleted
marker. -/
abbrev SlotStore := List (Option Position)

/-- Dereference a slot: the `std::optional<Position>` it holds.
Out-of-range indices (which cannot arise from the constructors) read as
deleted. -/
def slotGet (slots : SlotStore) (i : Nat) : Option Position :=
  slots[i]?.join

/-- Overwrite a slot in the store. -/
def slotSet (slots : SlotStore) (i : Nat) (v : Option Position) : SlotStore :=
  slots.set i v

/-- The inner `std::map<int, CellParamPtr>` of the cache: column key to
slot id. -/
abbrev InnerMap := List (Int × Nat)

/-- The outer `std::map<int, std::map<int, CellParamPtr>>`: row key to
inner map. -/
abbrev ParamMap := List (Int × InnerMap)

/-- `Ast::CellParamCache`: the two-level ordered map plus the store of
slots it owns. -/
structure CellParamCache where
  map : ParamMap
  slots : SlotStore
  deriving DecidableEq

/-- `CellParamCache::GetOrInsert`: return the existing slot for the
position, or create one initialized to `some position`
(`cell_params_[position.row]` default-creates the inner map). -/
def getOrInsert (c : CellParamCache) (pos : Position) : Nat × CellParamCache :=
  let inner := (lookupKey pos.row c.map).getD []
  match lookupKey pos.col inner with
  | some id => (id, c)
  | none =>
    let id := c.slots.length
    (id, ⟨setKey pos.row (insertSorted pos.col id inner) c.map,
          c.slots ++ [some pos]⟩)

/-- The slot-nulling loop of `HandleDeletedRows`'s delete phase:
`ptr->reset(); deleted_cell_params_count++` for every entry of a deleted
row — the count is unconditional. -/
def nullifyInnerAll (slots : SlotStore) (cnt : Nat) : InnerMap → SlotStore × Nat
  | [] => (slots, cnt)
  | (_, id) :: rest => nullifyInnerAll (slotSet slots id none) (cnt + 1) rest

/-- The delete phase of `CellParamCache::HandleDeletedRows`: null every
slot of each deleted row key, then erase the row from the outer map. -/
def rowsDelPhase : List Int → ParamMap → SlotStore → Nat → ParamMap × SlotStore × Nat
  | [], m, s, d => (m, s, d)
  | k :: ks, m, s, d =>
    let inner := (lookupKey k m).getD []
    let (s', d') := nullifyInnerAll s d inner
    rowsDelPhase ks (eraseKey k m) s' d'

/-- The slot-renaming loop of the row update phases:
`if (cell_param != std::nullopt) { cell_param->row = updated_row; ... }`. -/
def renameInnerRows (updRow : Int) : InnerMap → SlotStore → Nat → SlotStore × Nat
  | [], s, u => (s, u)
  | (_, id) :: rest, s, u =>
    match slotGet s id with
    | some p => renameInnerRows updRow rest (slotSet s id (some ⟨updRow, p.col⟩)) (u + 1)
    | none => renameInnerRows updRow rest s u

/-- The re-keying phase shared by `HandleInsertedRows` (`shift = count`)
and `HandleDeletedRows` (`shift = -count`): for each key, rename the
non-null slots of its inner map to `key + shift` and move the entry to
key `key + shift` via `extract`/`insert` (a collision drops the entry). -/
def rowsUpdPhase (shift : Int) : List Int → ParamMap → SlotStore → Nat → ParamMap × SlotStore × Nat
  | [], m, s, u => (m, s, u)
  | k :: ks, m, s, u =>
    let inner := (lookupKey k m).getD []
    let (s', u') := renameInnerRows (k + shift) inner s u
    rowsUpdPhase shift ks (insertSorted (k + shift) inner (eraseKey k m)) s' u'

/-- `CellParamCache::HandleDeletedRows(start, count)`: rows in
`[start, start+count)` have their slots cleared and are erased; rows
`≥ start+count` are shifted down by `count`; returns
`(deleted_count, renamed_count)`.  Both key lists are collected from one
reverse scan of the sorted map, i.e. in descending order. -/
def handleDeletedRows (c : CellParamCache) (start count : Int) :
    CellParamCache × Nat × Nat :=
  let keysUpd := ((keysOf c.map).filter (fun k => start + count ≤ k)).reverse
  let keysDel := ((keysOf c.map).filter (fun k => start ≤ k ∧ k < start + count)).reverse
  let (m₁, s₁, d) := rowsDelPhase keysDel c.map c.slots 0
  let (m₂, s₂, u) := rowsUpdPhase (-count) keysUpd m₁ s₁ 0
  (⟨m₂, s₂⟩, d, u)

/-- `CellParamCache::HandleInsertedRows(before, count)`: rows `≥ before`
are shifted up by `count`; returns `renamed_count`. -/
def handleInsertedRows (c : CellParamCache) (before count : Int) :
    CellParamCache × Nat :=
  if c.map.isEmpty then (c, 0)
  else
    let keysUpd := ((keysOf c.map).filter (fun k => before ≤ k)).reverse
    let (m, s, u) := rowsUpdPhase count keysUpd c.map c.slots 0
    (⟨m, s⟩, u)

/-- The delete phase of `HandleDeletedCols` on one inner map: here the
count and the `reset()` are guarded by `param != std::nullopt`, and the
key is erased unconditionally. -/
def colsDelPhase : List Int → InnerMap → SlotStore → Nat → InnerMap × SlotStore × Nat
  | [], inner, s, d => (inner, s, d)
  | k :: ks, inner, s, d =>
    match lookupKey k inner with
    | some id =>
      match slotGet s id with
      | some _ => colsDelPhase ks (eraseKey k inner) (slotSet s id none) (d + 1)
      | none => colsDelPhase ks (eraseKey k inner) s d
    | none => colsDelPhase ks inner s d

/-- The update phase of `HandleInsertedCols` (`shift = count`) and
`HandleDeletedCols` (`shift = -count`) on one inner map. -/
def colsUpdPhase (shift : Int) : List Int → InnerMap → SlotStore → Nat → InnerMap × SlotStore × Nat
  | [], inner, s, u => (inner, s, u)
  | k :: ks, inner, s, u =>
    match lookupKey k inner with
    | some id =>
      match slotGet s id with
      | some p =>
        colsUpdPhase shift ks (insertSorted (k + shift) id (eraseKey k inner))
          (slotSet s id (some ⟨p.row, k + shift⟩)) (u + 1)
      | none =>
        colsUpdPhase shift ks (insertSorted (k + shift) id (eraseKey k inner)) s u
    | none => colsUpdPhase shift ks inner s u

/-- One row of `CellParamCache::HandleDeletedCols`. -/
def handleDeletedColsRow (start count : Int) (inner : InnerMap) (s : SlotStore)
    (d u : Nat) : InnerMap × SlotStore × Nat × Nat :=
  let keysUpd := ((keysOf inner).filter (fun k => start + count ≤ k)).reverse
  let keysDel := ((keysOf inner).filter (fun k => start ≤ k ∧ k < start + count)).reverse
  let (in₁, s₁, d₁) := colsDelPhase keysDel inner s d
  let (in₂, s₂, u₁) := colsUpdPhase (-count) keysUpd in₁ s₁ u
  (in₂, s₂, d₁, u₁)

/-- The outer loop of `HandleDeletedCols`: each row's inner map is edited
in place; rows stay in the outer map even when their inner map becomes
empty. -/
def handleDeletedColsGo (start count : Int) :
    ParamMap → SlotStore → Nat → Nat → ParamMap × SlotStore × Nat × Nat
  | [], s, d, u => ([], s, d, u)
  | (rk, inner) :: rest, s, d, u =>
    let (inner', s', d', u') := handleDeletedColsRow start count inner s d u
    let (rest', s'', d'', u'') := handleDeletedColsGo start count rest s' d' u'
    ((rk, inner') :: rest', s'', d'', u'')

/-- `CellParamCache::HandleDeletedCols(start, count)`: the column-wise
mirror of `handleDeletedRows`, applied to each row's inner map. -/
def handleDeletedCols (c : CellParamCache) (start count : Int) :
    CellParamCache × Nat × Nat :=
  let (m, s, d, u) := handleDeletedColsGo start count c.map c.slots 0 0
  (⟨m, s⟩, d, u)

/-- The outer loop of `HandleInsertedCols`. -/
def handleInsertedColsGo (before count : Int) :
    ParamMap → SlotStore → Nat → ParamMap × SlotStore × Nat
  | [], s, u => ([], s, u)
  | (rk, inner) :: rest, s, u =>
    let keysUpd := ((keysOf inner).filter (fun k => before ≤ k)).reverse
    let (inner', s', u') := colsUpdPhase count keysUpd inner s u
    let (rest', s'', u'') := handleInsertedColsGo before count rest s' u'
    ((rk, inner') :: rest', s'', u'')

/-- `CellParamCache::HandleInsertedCols(before, count)`. -/
def handleInsertedCols (c : CellParamCache) (before count : Int) :
    CellParamCache × Nat :=
  let (m, s, u) := handleInsertedColsGo before count c.map c.slots 0
  (⟨m, s⟩, u)

/-- `CellParamCache::GetReferencedCells`: all key pairs of the two-level
map, rows then columns ascending. -/
def getReferencedCells (c : CellParamCache) : List Position :=
  c.map.foldr (fun ri acc => ri.2.foldr (fun ci acc2 => ⟨ri.1, ci.1⟩ :: acc2) acc) []

/-- `Ast::UnaryOperator`. -/
inductive UnaryOperator where
  | PLUS
  | MINUS
  deriving DecidableEq

/-- `Ast::BinaryOperator`. -/
inductive BinaryOperator where
  | ADD
  | SUB
  | MUL
  | DIV
  deriving DecidableEq

/-- `Ast::ToString(UnaryOperator)`. -/
def unaryOpChar : UnaryOperator → Nat
  | .PLUS => 43
  | .MINUS => 45

/-- `Ast::ToString(BinaryOperator)`. -/
def binaryOpChar : BinaryOperator → Nat
  | .ADD => 43
  | .SUB => 45
  | .MUL => 42
  | .DIV => 47

/-- `Ast::Node`: the tagged sum over `Literal`, `CellParamPtr`,
`Parentheses`, `UnaryOp`, `BinaryOp` (`ast.h`).  The `CellParamPtr` is a
slot id into the owning tree's `SlotStore`. -/
inductive Node where
  | lit (value : CppString)
  | cell (slot : Nat)
  | parens (content : Node)
  | unary (op : UnaryOperator) (token : Node)
  | binary (op : BinaryOperator) (lhs rhs : Node)
  deriving DecidableEq

/-- `Node::ParenthesesRestrictions`. -/
inductive ParenthesesRestrictions where
  | ALL
  | LEFT
  | RIGHT
  | NONE
  deriving DecidableEq

/-- `Node::UNARY_RESTRICTIONS`, indexed by the child's binary operator:
`{ ALL, ALL, NONE, NONE }`. -/
def UNARY_RESTRICTIONS : BinaryOperator → ParenthesesRestrictions
  | .ADD => .ALL
  | .SUB => .ALL
  | .MUL => .NONE
  | .DIV => .NONE

/-- `Node::BINARY_RESTRICTIONS[parent_op][child_op]` (`ast.h`). -/
def BINARY_RESTRICTIONS : BinaryOperator → BinaryOperator → ParenthesesRestrictions
  | .ADD, _ => .NONE
  | .SUB, .ADD => .RIGHT
  | .SUB, .SUB => .RIGHT
  | .SUB, .MUL => .NONE
  | .SUB, .DIV => .NONE
  | .MUL, .ADD => .ALL
  | .MUL, .SUB => .ALL
  | .MUL, .MUL => .NONE
  | .MUL, .DIV => .NONE
  | .DIV, .ADD => .ALL
  | .DIV, .SUB => .ALL
  | .DIV, .MUL => .RIGHT
  | .DIV, .DIV => .RIGHT

/-- `Node::SimplifyUnaryParentheses` (`ast.cpp`). -/
def SimplifyUnaryParentheses (child : Node) : Node :=
  match child with
  | .parens content =>
    match content with
    | .binary op l r =>
      if UNARY_RESTRICTIONS op = .ALL then .parens (.binary op l r)
      else .binary op l r
    | c => c
  | c => c

/-- `Node::SimplifyBinaryParentheses` (`ast.cpp`). -/
def SimplifyBinaryParentheses (parentOp : BinaryOperator) (child : Node) (left : Bool) : Node :=
  match child with
  | .parens content =>
    match content with
    | .binary op l r =>
      let restrictions := BINARY_RESTRICTIONS parentOp op
      if restrictions = .ALL ∨ (restrictions = .LEFT ∧ left = true) ∨
          (restrictions = .RIGHT ∧ left = false) then .parens (.binary op l r)
      else .binary op l r
    | c => c
  | c => c

/-- `Node::OfLiteral`. -/
def OfLiteral (l : CppString) : Node := .lit l

/-- `Node::OfCellParamPtr`: rejects a slot holding an invalid position
with `FormulaException("invalid position")`. -/
def OfCellParamPtr (slots : SlotStore) (id : Nat) : Except Exc Node :=
  match slotGet slots id with
  | some p => if p.isValidB then .ok (.cell id) else .error .formulaException
  | none => .error .formulaException

/-- `Node::OfParentheses`: wrapping a cell, literal or parentheses
returns the child unchanged. -/
def OfParentheses (token : Node) : Node :=
  match token with
  | .cell i => .cell i
  | .lit v => .lit v
  | .parens c => .parens c
  | t => .parens t

/-- `Node::Unary`. -/
def Unary (token : Node) (op : UnaryOperator) : Node :=
  .unary op (SimplifyUnaryParentheses token)

/-- `Node::Binary`. -/
def Binary (lhs rhs : Node) (op : BinaryOperator) : Node :=
  .binary op (SimplifyBinaryParentheses op lhs true) (SimplifyBinaryParentheses op rhs false)

/-- The exact rational value of a C++ `double`, as a normalized
numerator/denominator pair (kept in lowest terms with a positive
denominator, so structural equality is value equality). -/
structure Dbl where
  num : Int
  den : Nat
  deriving DecidableEq

namespace Dbl

/-- Normalize an integer/natural fraction to lowest terms.  All divisions
are exact. -/
def norm (n : Int) (d : Nat) : Dbl :=
  let g := Nat.gcd n.natAbs d
  if g = 0 then ⟨0, 1⟩ else ⟨Int.ediv n (g : Int), d / g⟩

/-- Embed a natural number. -/
def ofNat (n : Nat) : Dbl := ⟨(n : Int), 1⟩

/-- Embed an integer. -/
def ofInt (n : Int) : Dbl := ⟨n, 1⟩

/-- Addition. -/
def add (a b : Dbl) : Dbl :=
  norm (a.num * (b.den : Int) + b.num * (a.den : Int)) (a.den * b.den)

/-- Subtraction. -/
def sub (a b : Dbl) : Dbl :=
  norm (a.num * (b.den : Int) - b.num * (a.den : Int)) (a.den * b.den)

/-- Multiplication. -/
def mul (a b : Dbl) : Dbl := norm (a.num * b.num) (a.den * b.den)

/-- Division; the result at a zero divisor is immaterial (the evaluator
maps that case to `Error(Div0)`). -/
def div (a b : Dbl) : Dbl :=
  if b.num = 0 then ⟨0, 1⟩
  else norm (a.num * (b.den : Int) * Int.sign b.num) (a.den * b.num.natAbs)

/-- Negation. -/
def neg (a : Dbl) : Dbl := ⟨-a.num, a.den⟩

/-- Strict comparison by cross multiplication. -/
def blt (a b : Dbl) : Bool := decide (a.num * (b.den : Int) < b.num * (a.den : Int))

/-- Absolute value. -/
def abs (a : Dbl) : Dbl := ⟨(a.num.natAbs : Int), a.den⟩

end Dbl

/-- `DBL_MAX`, the largest finite binary64 value, `(2^53 - 1) * 2^971`. -/
def DBL_MAX : Dbl := ⟨(((2 ^ 53 - 1) * 2 ^ 971 : Nat) : Int), 1⟩

/-- Powers of ten with an integer exponent. -/
def powTen (e : Int) : Dbl :=
  if 0 ≤ e then ⟨((10 ^ e.toNat : Nat) : Int), 1⟩ else ⟨1, 10 ^ (-e).toNat⟩

/-- Whitespace per `isspace` in the "C" locale. -/
def isSpaceCode (c : Nat) : Bool :=
  decide (c = 32 ∨ c = 9 ∨ c = 10 ∨ c = 11 ∨ c = 12 ∨ c = 13)

/-- Decimal value of a digit-code list (most significant first). -/
def digitsToNat (l : CppString) : Nat :=
  l.foldl (fun a c => a * 10 + (c - 48)) 0

/-- The model of `std::stod`, restricted to decimal inputs (the hex,
`inf` and `nan` forms of `strtod` are not exercised by this program's
claims): skip whitespace, optional sign, digits with optional fraction
and optional well-formed exponent (a dangling `e` is not consumed, as in
`strtod`'s longest-valid-prefix rule).  Throws `std::invalid_argument`
when no digits are found and `std::out_of_range` when the value exceeds
the finite double range.  The value itself is exact (no IEEE rounding),
a `Dbl`. -/
def stod (s : CppString) : Except Exc Dbl :=
  let s1 := s.dropWhile isSpaceCode
  let signAndRest : Int × CppString :=
    match s1 with
    | 43 :: rest => (1, rest)
    | 45 :: rest => (-1, rest)
    | _ => (1, s1)
  let s2 := signAndRest.2
  let intPart := s2.takeWhile Position.isDigitCode
  let s3 := s2.drop intPart.length
  let fracAndRest : CppString × CppString :=
    match s3 with
    | 46 :: rest =>
      let fd := rest.takeWhile Position.isDigitCode
      (fd, rest.drop fd.length)
    | _ => ([], s3)
  let fracPart := fracAndRest.1
  if intPart.length = 0 ∧ fracPart.length = 0 then .error .stdInvalidArgument
  else
    let s4 := fracAndRest.2
    let expVal : Int :=
      match s4 with
      | c :: rest =>
        if c = 101 ∨ c = 69 then
          match rest with
          | sc :: rest2 =>
            if sc = 43 ∨ sc = 45 then
              let ed := rest2.takeWhile Position.isDigitCode
              if ed.length = 0 then 0
              else (if sc = 45 then -1 else 1) * (digitsToNat ed : Int)
            else
              let ed := rest.takeWhile Position.isDigitCode
              if ed.length = 0 then 0 else (digitsToNat ed : Int)
          | [] => 0
        else 0
      | [] => 0
    let mantissa : Dbl :=
      Dbl.add (Dbl.ofNat (digitsToNat intPart))
        (Dbl.norm (digitsToNat fracPart : Int) (10 ^ fracPart.length))
    let value : Dbl := Dbl.mul (Dbl.mul (Dbl.ofInt signAndRest.1) mantissa) (powTen expVal)
    if Dbl.blt DBL_MAX (Dbl.abs value) then .error .stdOutOfRange else .ok value

/-- `ICell::Value = std::variant<std::string, double, FormulaError>`. -/
inductive CellVal where
  | str (s : CppString)
  | num (d : Dbl)
  | err (e : FormulaError)
  deriving DecidableEq

/-- `IFormula::Value = std::variant<double, FormulaError>`. -/
inductive FormulaVal where
  | num (d : Dbl)
  | err (e : FormulaError)
  deriving DecidableEq

/-- An evaluation-level failure: a thrown C++ exception, or exhaustion of
the model's explicit recursion fuel (never reached with enough fuel). -/
inductive EErr where
  | exc (e : Exc)
  | noFuel
  deriving DecidableEq

/-- The arithmetic of `Node::Evaluate`'s binary case: compute in IEEE
doubles and map any non-finite result to `Error(Div0)`.  In the rational
model a result is non-finite exactly when dividing by zero or when its
magnitude overflows the double range. -/
def applyBinary (op : BinaryOperator) (l r : Dbl) : FormulaVal :=
  let result : Dbl :=
    match op with
    | .ADD => Dbl.add l r
    | .SUB => Dbl.sub l r
    | .MUL => Dbl.mul l r
    | .DIV => Dbl.div l r
  if (op = BinaryOperator.DIV ∧ r.num = 0) ∨ Dbl.blt DBL_MAX (Dbl.abs result) then
    .err .Div0
  else .num result

/-- `Node::Evaluate(const ISheet&)` (`ast.cpp`), parameterized by the
sheet-access operation `getCellVal` which combines `sheet.GetCell(pos)`
(throwing on an invalid position, yielding `none` when no cell is
present) with `cell->GetValue()`; both read and update the sheet's
caches, so the sheet state `σ` is threaded through evaluation. -/
def evalNodeWith {σ : Type} (getCellVal : σ → Position → (Except EErr (Option CellVal)) × σ)
    (slots : SlotStore) : Node → σ → (Except EErr FormulaVal) × σ
  | .lit v, sh =>
    (match stod v with
     | .ok d => .ok (.num d)
     | .error e => .error (.exc e), sh)
  | .cell id, sh =>
    match slotGet slots id with
    | none => (.ok (.err .Ref), sh)
    | some pos =>
      match getCellVal sh pos with
      | (.error e, sh') => (.error e, sh')
      | (.ok none, sh') => (.ok (.num (Dbl.ofNat 0)), sh')
      | (.ok (some (.str t)), sh') =>
        if t.isEmpty then (.ok (.num (Dbl.ofNat 0)), sh')
        else
          match stod t with
          | .ok d => (.ok (.num d), sh')
          | .error .stdInvalidArgument => (.ok (.err .Value), sh')
          | .error e => (.error (.exc e), sh')
      | (.ok (some (.num d)), sh') => (.ok (.num d), sh')
      | (.ok (some (.err e)), sh') => (.ok (.err e), sh')
  | .parens content, sh => evalNodeWith getCellVal slots content sh
  | .unary op t, sh =>
    match evalNodeWith getCellVal slots t sh with
    | (.ok (.num v), sh') =>
      (.ok (.num (if op = UnaryOperator.PLUS then v else Dbl.neg v)), sh')
    | (.ok (.err e), sh') => (.ok (.err e), sh')
    | (.error e, sh') => (.error e, sh')
  | .binary op l r, sh =>
    match evalNodeWith getCellVal slots l sh with
    | (.error e, sh') => (.error e, sh')
    | (.ok (.err e), sh') => (.ok (.err e), sh')
    | (.ok (.num lv), sh₁) =>
      match evalNodeWith getCellVal slots r sh₁ with
      | (.error e, sh') => (.error e, sh')
      | (.ok (.err e), sh') => (.ok (.err e), sh')
      | (.ok (.num rv), sh₂) => (.ok (applyBinary op lv rv), sh₂)

/-- `Node::BuildExpression` (`ast.cpp`). -/
def BuildExpression (slots : SlotStore) : Node → CppString
  | .lit v => v
  | .cell id =>
    match slotGet slots id with
    | some p => p.ToString
    | none => strOf (r"#REF!")
  | .parens content => 40 :: (BuildExpression slots content ++ [41])
  | .unary op t => unaryOpChar op :: BuildExpression slots t
  | .binary op l r =>
    BuildExpression slots l ++ (binaryOpChar op :: BuildExpression slots r)

/-- `Ast::Tree`: the built root plus the cache that owns the slots. -/
structure Tree where
  root : Node
  cell_cache : CellParamCache
  deriving DecidableEq

/-- `Tree::BuildExpression` / `Formula::GetExpression`. -/
def Tree.GetExpression (t : Tree) : CppString :=
  BuildExpression t.cell_cache.slots t.root

/-- `Tree::GetReferencedCells`. -/
def Tree.GetReferencedCells (t : Tree) : List Position :=
  getReferencedCells t.cell_cache

/-- `IFormula::HandlingResult`. -/
inductive HandlingResult where
  | NothingChanged
  | ReferencesRenamedOnly
  | ReferencesChanged
  deriving DecidableEq

/-- `Formula::HandleInsertedRows` (`formula.cpp`): renamed slots upgrade
the result to `ReferencesRenamedOnly`. -/
def Tree.HandleInsertedRows (t : Tree) (before count : Int) : Tree × HandlingResult :=
  let res := handleInsertedRows t.cell_cache before count
  (⟨t.root, res.1⟩,
   if res.2 > 0 then .ReferencesRenamedOnly else .NothingChanged)

/-- `Formula::HandleInsertedCols`. -/
def Tree.HandleInsertedCols (t : Tree) (before count : Int) : Tree × HandlingResult :=
  let res := handleInsertedCols t.cell_cache before count
  (⟨t.root, res.1⟩,
   if res.2 > 0 then .ReferencesRenamedOnly else .NothingChanged)

/-- `Formula::HandleDeletedRows`: cleared slots give `ReferencesChanged`,
otherwise renames give `ReferencesRenamedOnly`. -/
def Tree.HandleDeletedRows (t : Tree) (first count : Int) : Tree × HandlingResult :=
  let res := handleDeletedRows t.cell_cache first count
  (⟨t.root, res.1⟩,
   if res.2.1 > 0 then .ReferencesChanged
   else if res.2.2 > 0 then .ReferencesRenamedOnly
   else .NothingChanged)

/-- `Formula::HandleDeletedCols`. -/
def Tree.HandleDeletedCols (t : Tree) (first count : Int) : Tree × HandlingResult :=
  let res := handleDeletedCols t.cell_cache first count
  (⟨t.root, res.1⟩,
   if res.2.1 > 0 then .ReferencesChanged
   else if res.2.2 > 0 then .ReferencesRenamedOnly
   else .NothingChanged)

/-- Formula tokens per spec §6. -/
inductive Token where
  | lit (s : CppString)
  | cellName (s : CppString)
  | add
  | sub
  | mul
  | div
  | lparen
  | rparen
  deriving DecidableEq

/-- Modelled from the spec: the longest-match `LITERAL` token
`[0-9]+ ('.' [0-9]+)? ([eE] [+-]? [0-9]+)?` (spec §6); a dot or exponent
marker not followed by digits is left unconsumed.  Returns the token
text and the rest of the input. -/
def lexLiteral (s : CppString) : CppString × CppString :=
  let d1 := s.takeWhile Position.isDigitCode
  let r1 := s.drop d1.length
  let fracAndRest : CppString × CppString :=
    match r1 with
    | 46 :: rest =>
      let fd := rest.takeWhile Position.isDigitCode
      if fd.length = 0 then ([], r1)
      else (46 :: fd, rest.drop fd.length)
    | _ => ([], r1)
  let r2 := fracAndRest.2
  let expAndRest : CppString × CppString :=
    match r2 with
    | c :: rest =>
      if c = 101 ∨ c = 69 then
        match rest with
        | sc :: rest2 =>
          if sc = 43 ∨ sc = 45 then
            let ed := rest2.takeWhile Position.isDigitCode
            if ed.length = 0 then ([], r2)
            else (c :: sc :: ed, rest2.drop ed.length)
          else
            let ed := rest.takeWhile Position.isDigitCode
            if ed.length = 0 then ([], r2) else (c :: ed, rest.drop ed.length)
        | [] => ([], r2)
      else ([], r2)
    | [] => ([], r2)
  (d1 ++ fracAndRest.1 ++ expAndRest.1, expAndRest.2)

/-- Modelled from the spec: the `CELL` token `[A-Z]{1,3} [1-9][0-9]{0,4}`
(spec §6), longest match on the letter and digit groups. -/
def lexCell (s : CppString) : Option (CppString × CppString) :=
  let letters := s.takeWhile Position.isUpperCode
  let r1 := s.drop letters.length
  let digits := r1.takeWhile Position.isDigitCode
  if 1 ≤ letters.length ∧ letters.length ≤ 3 ∧
      1 ≤ digits.length ∧ digits.length ≤ 5 ∧
      Position.headNonzeroDigit digits = true then
    some (letters ++ digits, r1.drop digits.length)
  else none

/-- Modelled from the spec: the token stream of the formula
mini-language, with whitespace insignificant between tokens (spec §6).
The ANTLR-generated `FormulaLexer` is not part of the repository
sources.  Fuel-driven; `s.length + 1` fuel always suffices since every
step consumes at least one character. -/
def tokenize : Nat → CppString → Except Exc (List Token)
  | 0, _ => .error .formulaException
  | _, [] => .ok []
  | fuel + 1, c :: rest =>
    if isSpaceCode c then tokenize fuel rest
    else if c = 43 then (tokenize fuel rest).map (Token.add :: ·)
    else if c = 45 then (tokenize fuel rest).map (Token.sub :: ·)
    else if c = 42 then (tokenize fuel rest).map (Token.mul :: ·)
    else if c = 47 then (tokenize fuel rest).map (Token.div :: ·)
    else if c = 40 then (tokenize fuel rest).map (Token.lparen :: ·)
    else if c = 41 then (tokenize fuel rest).map (Token.rparen :: ·)
    else if Position.isDigitCode c then
      let lr := lexLiteral (c :: rest)
      match lr.2 with
      | r => (tokenize fuel r).map (Token.lit lr.1 :: ·)
    else if Position.isUpperCode c then
      match lexCell (c :: rest) with
      | some (tok, r) => (tokenize fuel r).map (Token.cellName tok :: ·)
      | none => .error .formulaException
    else .error .formulaException

/-- The grammar level being parsed; `exprRest`/`termRest` carry the left
operand of the left-associative binary chains. -/
inductive ParseLevel where
  | expr
  | term
  | unary
  | atom
  | exprRest (acc : Node)
  | termRest (acc : Node)

/-- Modelled from the spec: a recursive-descent parser for the §6 grammar
(`expr` / `term` left-associative, `unary ← (ADD|SUB)? atom`,
`atom ← LITERAL | CELL | '(' expr ')'`), feeding the `TreeBuilder` smart
constructors (`Node::Binary`, `Node::Unary`, `Node::OfParentheses`,
`Node::OfLiteral`, `Node::OfCellParamPtr` and
`CellParamCache::GetOrInsert` — these are the repository's own
`ast.cpp` code) in the same post-order as the ANTLR listener walk.
Fuel-driven; each recursive call strictly decreases the fuel and
`4 * tokens + 8` suffices. -/
def parseGo : Nat → ParseLevel → List Token → CellParamCache →
    Except Exc (Node × CellParamCache × List Token)
  | 0, _, _, _ => .error .formulaException
  | fuel + 1, .expr, toks, c => do
    let r ← parseGo fuel .term toks c
    parseGo fuel (.exprRest r.1) r.2.2 r.2.1
  | fuel + 1, .exprRest acc, toks, c =>
    match toks with
    | .add :: rest => do
      let r ← parseGo fuel .term rest c
      parseGo fuel (.exprRest (Binary acc r.1 .ADD)) r.2.2 r.2.1
    | .sub :: rest => do
      let r ← parseGo fuel .term rest c
      parseGo fuel (.exprRest (Binary acc r.1 .SUB)) r.2.2 r.2.1
    | _ => .ok (acc, c, toks)
  | fuel + 1, .term, toks, c => do
    let r ← parseGo fuel .unary toks c
    parseGo fuel (.termRest r.1) r.2.2 r.2.1
  | fuel + 1, .termRest acc, toks, c =>
    match toks with
    | .mul :: rest => do
      let r ← parseGo fuel .unary rest c
      parseGo fuel (.termRest (Binary acc r.1 .MUL)) r.2.2 r.2.1
    | .div :: rest => do
      let r ← parseGo fuel .unary rest c
      parseGo fuel (.termRest (Binary acc r.1 .DIV)) r.2.2 r.2.1
    | _ => .ok (acc, c, toks)
  | fuel + 1, .unary, toks, c =>
    match toks with
    | .add :: rest => do
      let r ← parseGo fuel .atom rest c
      .ok (Unary r.1 .PLUS, r.2.1, r.2.2)
    | .sub :: rest => do
      let r ← parseGo fuel .atom rest c
      .ok (Unary r.1 .MINUS, r.2.1, r.2.2)
    | _ => parseGo fuel .atom toks c
  | _fuel + 1, .atom, .lit s :: rest, c => .ok (OfLiteral s, c, rest)
  | _fuel + 1, .atom, .cellName s :: rest, c =>
    let pos := Position.FromString s
    let r := getOrInsert c pos
    match OfCellParamPtr r.2.slots r.1 with
    | .ok n => .ok (n, r.2, rest)
    | .error e => .error e
  | fuel + 1, .atom, .lparen :: rest, c => do
    let r ← parseGo fuel .expr rest c
    match r.2.2 with
    | .rparen :: rest2 => .ok (OfParentheses r.1, r.2.1, rest2)
    | _ => .error .formulaException
  | _fuel + 1, .atom, _, _ => .error .formulaException

/-- `ParseFormula` (`formula.cpp`): lex and parse `expression`; every
failure (lexer error, parse error, invalid cell position) surfaces as
`FormulaException`.  The trailing `main ← expr EOF` requires the whole
token stream to be consumed. -/
def parseFormula (s : CppString) : Except Exc Tree :=
  match tokenize (s.length + 1) s with
  | .error _ => .error .formulaException
  | .ok toks =>
    match parseGo (4 * toks.length + 8) .expr toks ⟨[], []⟩ with
    | .ok (n, c, []) => .ok ⟨n, c⟩
    | _ => .error .formulaException

end Ast

/-! ## The Sheet (`common.cpp`)

Cell identity (`Cell*` / `unique_ptr<Cell>`) is modelled by an id into a
store; a destroyed cell leaves `none` in its store entry, so dangling
edge handles are observable exactly like raw pointers.  The grid holds
the `unique_ptr`s: `some id` for a live cell, `none` for an empty slot.
`unordered_set<Cell*>` is modelled as a duplicate-free list of ids
(iteration order does not affect any observable result below). -/

/-- `Cell` (`common.cpp`): text, optional formula tree, memoized value,
and the in/out dependency edges. -/
structure Cell where
  text : CppString
  formula : Option Ast.Tree
  cache : Option Ast.CellVal
  in_cells : List Nat
  out_cells : List Nat
  deriving DecidableEq

/-- A freshly constructed `Cell(sheet)`. -/
def Cell.empty : Cell := ⟨[], none, none, [], []⟩

/-- `unordered_set::insert`. -/
def insertId (l : List Nat) (x : Nat) : List Nat := if x ∈ l then l else l ++ [x]

/-- `unordered_set::erase`. -/
def eraseId (l : List Nat) (x : Nat) : List Nat := l.filter (fun y => y != x)

/-- `Sheet` (`common.cpp`): the rectangular grid of cell pointers plus
the store of cell objects. -/
structure Sheet where
  grid : List (List (Option Nat))
  store : List (Option Cell)
  deriving DecidableEq

namespace Sheet

/-- `Sheet::Rows`. -/
def Rows (s : Sheet) : Int := (s.grid.length : Int)

/-- `Sheet::Cols` (the length of the first row). -/
def Cols (s : Sheet) : Int :=
  match s.grid with
  | [] => 0
  | r :: _ => (r.length : Int)

/-- `Sheet::OutOfRange`: `pos.row >= Rows() || pos.col >= Cols()`. -/
def OutOfRange (s : Sheet) (pos : Position) : Bool :=
  decide (s.Rows ≤ pos.row ∨ s.Cols ≤ pos.col)

/-- Read the grid pointer at a position (in-range, non-negative
coordinates; out-of-model accesses read as empty). -/
def gridGet (s : Sheet) (pos : Position) : Option Nat :=
  ((s.grid[pos.row.toNat]?.getD [])[pos.col.toNat]?).join

/-- Write the grid pointer at a position. -/
def gridSet (s : Sheet) (pos : Position) (v : Option Nat) : Sheet :=
  { s with grid := (s.grid.set pos.row.toNat
      ((s.grid[pos.row.toNat]?.getD []).set pos.col.toNat v)) }

/-- Dereference a cell id (`none` = the object was destroyed). -/
def storeGet (s : Sheet) (id : Nat) : Option Cell := s.store[id]?.join

/-- Overwrite a store entry. -/
def storeSet (s : Sheet) (id : Nat) (c : Option Cell) : Sheet :=
  { s with store := s.store.set id c }

/-- Mutate a live cell in place. -/
def updateCell (s : Sheet) (id : Nat) (f : Cell → Cell) : Sheet :=
  match storeGet s id with
  | some c => storeSet s id (some (f c))
  | none => s

/-- `Sheet::ResizeRows`: grow to `row_index + 1` rows, new rows sized to
the current `Cols()`. -/
def resizeRows (s : Sheet) (rowIndex : Nat) : Sheet :=
  if s.grid.length ≤ rowIndex then
    { s with grid := (s.grid ++ List.replicate (rowIndex + 1 - s.grid.length)
        (List.replicate s.Cols.toNat none)) }
  else s

/-- `Sheet::ResizeCols`: grow every row to `col_index + 1` columns. -/
def resizeCols (s : Sheet) (colIndex : Nat) : Sheet :=
  if s.Cols ≤ (colIndex : Int) then
    { s with grid := s.grid.map (fun r => r ++ List.replicate (colIndex + 1 - r.length) none) }
  else s

/-- `Sheet::Resize`. -/
def resize (s : Sheet) (pos : Position) : Sheet :=
  (s.resizeRows pos.row.toNat).resizeCols pos.col.toNat

/-- `Sheet::GetOrCreateCell`: validate, resize on demand, create an empty
placeholder cell if the slot is empty. -/
def getOrCreateCell (s : Sheet) (pos : Position) : Except Exc (Nat × Sheet) :=
  if ¬pos.IsValid then .error .invalidPosition
  else
    let s1 := if s.OutOfRange pos then s.resize pos else s
    match s1.gridGet pos with
    | some id => .ok (id, s1)
    | none =>
      let id := s1.store.length
      let s2 := { s1 with store := s1.store ++ [some Cell.empty] }
      .ok (id, s2.gridSet pos (some id))

/-- `Sheet::GetCell` (`const`): `nullptr` is `none`. -/
def getCellId (s : Sheet) (pos : Position) : Except Exc (Option Nat) :=
  if ¬pos.IsValid then .error .invalidPosition
  else if s.OutOfRange pos then .ok none
  else .ok (s.gridGet pos)

/-- `Cell::ClearData`: clear text/formula/cache, remove this cell from
each out-neighbour's in-set, clear the out-set.  (The in-set is kept, as
in the source.) -/
def clearDataOf (s : Sheet) (id : Nat) : Sheet :=
  match s.storeGet id with
  | none => s
  | some c =>
    let s1 := c.out_cells.foldl
      (fun acc o => acc.updateCell o
        (fun cc => { cc with in_cells := eraseId cc.in_cells id })) s
    s1.updateCell id
      (fun cc => { cc with text := [], formula := none, cache := none, out_cells := [] })

/-- `Cell::SetFormula` (first `common.cpp` version): after `ClearData`,
install the formula, derive `text = '=' + GetExpression()`, install the
out-edges and add this cell to each target's in-set. -/
def setFormulaOf (s : Sheet) (id : Nat) (t : Ast.Tree) (outs : List Nat) : Sheet :=
  let s1 := s.clearDataOf id
  let s2 := s1.updateCell id
    (fun c => { c with formula := some t, text := 61 :: t.GetExpression, out_cells := outs })
  outs.foldl
    (fun acc o => acc.updateCell o
      (fun cc => { cc with in_cells := insertId cc.in_cells id })) s2

/-- `Cell::SetPlainText`. -/
def setPlainTextOf (s : Sheet) (id : Nat) (text : CppString) : Sheet :=
  (s.clearDataOf id).updateCell id (fun c => { c with text := text })

/-- `Sheet::TransitiveReferencedCells`: iterative DFS over out-edges with
an explicit stack and result set.  The loop terminates because every id
is pushed at most once per edge; the fuel passed by
`transitiveReferencedCells` is far above that bound, and only the result
set (not the traversal order) is ever observed. -/
def transitiveDFS (s : Sheet) : Nat → List Nat → List Nat → List Nat
  | 0, _, result => result
  | _fuel + 1, [], result => result
  | fuel + 1, cur :: stack, result =>
    if cur ∈ result then s.transitiveDFS fuel stack result
    else
      let outs := match s.storeGet cur with
        | some c => c.out_cells
        | none => []
      s.transitiveDFS fuel
        (((outs.filter (fun o => decide (o ∉ result))).reverse) ++ stack)
        (cur :: result)

/-- `Sheet::TransitiveReferencedCells` entry point. -/
def transitiveReferencedCells (s : Sheet) (outs : List Nat) : List Nat :=
  s.transitiveDFS
    ((s.store.length + 2) * (s.store.length + 2) * (s.store.length + 2) + outs.length)
    outs []

/-- `Sheet::InvalidateCache`: reverse DFS over in-edges; descent stops at
cells without a cache.  A dangling in-edge (possible after `ClearCell`,
which does not unlink) would be a dangling-pointer dereference in the
C++; the model marks it visited and moves on — no claim exercises that
path. -/
def invalidateDFS : Nat → Sheet → List Nat → List Nat → Sheet
  | 0, s, _, _ => s
  | _fuel + 1, s, [], _ => s
  | fuel + 1, s, cur :: stack, visited =>
    if cur ∈ visited then invalidateDFS fuel s stack visited
    else
      match s.storeGet cur with
      | none => invalidateDFS fuel s stack (cur :: visited)
      | some c =>
        if c.cache.isSome then
          invalidateDFS fuel (s.updateCell cur (fun cc => { cc with cache := none }))
            (((c.in_cells.filter (fun i => decide (i ∉ cur :: visited))).reverse) ++ stack)
            (cur :: visited)
        else invalidateDFS fuel s stack (cur :: visited)

/-- `Sheet::InvalidateCache` entry point (fuel far above the
1-push-per-edge bound of the loop). -/
def invalidateCacheFrom (s : Sheet) (id : Nat) : Sheet :=
  invalidateDFS ((s.store.length + 2) * (s.store.length + 2) * (s.store.length + 2) + 1)
    s [id] []

/-- `Sheet::SetCell` (first `common.cpp` version). -/
def setCell (s : Sheet) (pos : Position) (text : CppString) : Sheet × Option Exc :=
  match s.getOrCreateCell pos with
  | .error e => (s, some e)
  | .ok (cid, s1) =>
    if text.head? = some 61 then
      match Ast.parseFormula (text.drop 1) with
      | .error _ => (s1, some .formulaException)
      | .ok f =>
        match f.GetReferencedCells.foldl
          (fun (acc : (List Nat × Sheet) × Option Exc) p =>
            match acc with
            | ((outs, sh), none) =>
              match sh.getOrCreateCell p with
              | .ok r => ((insertId outs r.1, r.2), none)
              | .error e => ((outs, sh), some e)
            | x => x) (([], s1), none) with
        | ((outs, s2), none) =>
          if cid ∈ s2.transitiveReferencedCells outs then (s2, some .circularDependency)
          else
            let s3 := s2.invalidateCacheFrom cid
            (s3.setFormulaOf cid f outs, none)
        | ((_, s2), some e) => (s2, some e)
    else
      let s3 := s1.invalidateCacheFrom cid
      (s3.setPlainTextOf cid text, none)

/-- `Sheet::ClearCell`: just `cells_[row][col].reset()` — the cell object
is destroyed and the grid slot nulled, with no unlinking of graph
edges. -/
def clearCell (s : Sheet) (pos : Position) : Sheet :=
  if s.OutOfRange pos then s
  else
    match s.gridGet pos with
    | some id => (s.storeSet id none).gridSet pos none
    | none => s

/-- `Cell::GetValue` (memoized) together with `Cell::CalculateCache`,
fuel-indexed: each nested cell evaluation strictly decreases the fuel.
The embedded callback is `Sheet::GetCell` + `ICell::GetValue` as used by
`Ast::Node::Evaluate`'s cell case. -/
def getValueAux : Nat → Sheet → Nat → (Except Ast.EErr Ast.CellVal) × Sheet
  | 0, s, _ => (.error .noFuel, s)
  | fuel + 1, s, cid =>
    match s.storeGet cid with
    | none => (.error .noFuel, s)
    | some c =>
      match c.cache with
      | some v => (.ok v, s)
      | none =>
        match c.formula with
        | some f =>
          match Ast.evalNodeWith
            (fun sh p =>
              match sh.getCellId p with
              | .error e => (.error (.exc e), sh)
              | .ok none => (.ok none, sh)
              | .ok (some id2) =>
                match getValueAux fuel sh id2 with
                | (.ok v, sh') => (.ok (some v), sh')
                | (.error e, sh') => (.error e, sh'))
            f.cell_cache.slots f.root s with
          | (.ok fv, s1) =>
            let v : Ast.CellVal :=
              match fv with
              | .num d => .num d
              | .err e => .err e
            (.ok v, s1.updateCell cid (fun cc => { cc with cache := some v }))
          | (.error e, s1) => (.error e, s1)
        | none =>
          let v : Ast.CellVal :=
            if c.text.head? = some 39 then .str c.text.tail else .str c.text
          (.ok v, s.updateCell cid (fun cc => { cc with cache := some v }))

/-- The sheet-access callback of `Node::Evaluate`: `GetCell(pos)` plus
`GetValue()` on the found cell (this is the lambda inlined in
`getValueAux`). -/
def getCellVal (fuel : Nat) (s : Sheet) (pos : Position) :
    (Except Ast.EErr (Option Ast.CellVal)) × Sheet :=
  match s.getCellId pos with
  | .error e => (.error (.exc e), s)
  | .ok none => (.ok none, s)
  | .ok (some id2) =>
    match getValueAux fuel s id2 with
    | (.ok v, sh') => (.ok (some v), sh')
    | (.error e, sh') => (.error e, sh')

/-- Enough fuel to fully evaluate any cell of the sheet: one unit per
cell on the deepest acyclic dependency chain, plus slack. -/
def evalFuel (s : Sheet) : Nat := s.store.length + 2

/-- `Cell::GetValue` through the public `Sheet::GetCell`, as the tests
read values: the result visible at a position. -/
def getValueAt (s : Sheet) (pos : Position) : Option (Except Ast.EErr Ast.CellVal) :=
  match s.getCellId pos with
  | .ok (some id) => some (getValueAux (evalFuel s) s id).1
  | _ => none

/-- `Cell::GetText` through the public `Sheet::GetCell`: `none` when
there is no cell at the position (calling `GetText` would dereference a
null pointer). -/
def getTextAt (s : Sheet) (pos : Position) : Option CppString :=
  match s.getCellId pos with
  | .ok (some id) =>
    match s.storeGet id with
    | some c => some c.text
    | none => none
  | _ => none

/-- `Cell::HandleDeletedRows` (the cell-level switch in `common.cpp`):
re-derives the text on renames/changes; returns whether the cache must
be invalidated. -/
def cellHandleDeletedRows (s : Sheet) (id : Nat) (first count : Int) : Sheet × Bool :=
  match s.storeGet id with
  | none => (s, false)
  | some c =>
    match c.formula with
    | none => (s, false)
    | some f =>
      let r := f.HandleDeletedRows first count
      match r.2 with
      | .NothingChanged => (s.updateCell id (fun cc => { cc with formula := some r.1 }), false)
      | .ReferencesRenamedOnly =>
        (s.updateCell id
          (fun cc => { cc with formula := some r.1, text := 61 :: r.1.GetExpression }), false)
      | .ReferencesChanged =>
        (s.updateCell id
          (fun cc => { cc with formula := some r.1, text := 61 :: r.1.GetExpression }), true)

/-- `Cell::HandleDeletedCols`. -/
def cellHandleDeletedCols (s : Sheet) (id : Nat) (first count : Int) : Sheet × Bool :=
  match s.storeGet id with
  | none => (s, false)
  | some c =>
    match c.formula with
    | none => (s, false)
    | some f =>
      let r := f.HandleDeletedCols first count
      match r.2 with
      | .NothingChanged => (s.updateCell id (fun cc => { cc with formula := some r.1 }), false)
      | .ReferencesRenamedOnly =>
        (s.updateCell id
          (fun cc => { cc with formula := some r.1, text := 61 :: r.1.GetExpression }), false)
      | .ReferencesChanged =>
        (s.updateCell id
          (fun cc => { cc with formula := some r.1, text := 61 :: r.1.GetExpression }), true)

/-- `Cell::HandleInsertedRows`: text is re-derived only on
`ReferencesRenamedOnly`. -/
def cellHandleInsertedRows (s : Sheet) (id : Nat) (before count : Int) : Sheet :=
  match s.storeGet id with
  | none => s
  | some c =>
    match c.formula with
    | none => s
    | some f =>
      let r := f.HandleInsertedRows before count
      match r.2 with
      | .ReferencesRenamedOnly =>
        s.updateCell id
          (fun cc => { cc with formula := some r.1, text := 61 :: r.1.GetExpression })
      | _ => s.updateCell id (fun cc => { cc with formula := some r.1 })

/-- `Cell::HandleInsertedCols`. -/
def cellHandleInsertedCols (s : Sheet) (id : Nat) (before count : Int) : Sheet :=
  match s.storeGet id with
  | none => s
  | some c =>
    match c.formula with
    | none => s
    | some f =>
      let r := f.HandleInsertedCols before count
      match r.2 with
      | .ReferencesRenamedOnly =>
        s.updateCell id
          (fun cc => { cc with formula := some r.1, text := 61 :: r.1.GetExpression })
      | _ => s.updateCell id (fun cc => { cc with formula := some r.1 })

/-- `Sheet::DeleteCell` (private helper of the structural edits): unlink
the cell from both sides of the graph and destroy it. -/
def deleteCell (s : Sheet) (pos : Position) : Sheet × Option Exc :=
  if ¬pos.IsValid then (s, some .invalidPosition)
  else if s.OutOfRange pos then (s, none)
  else
    match s.gridGet pos with
    | none => (s, none)
    | some id =>
      match s.storeGet id with
      | none => (s, none)
      | some c =>
        let s1 := c.in_cells.foldl
          (fun acc i => acc.updateCell i
            (fun cc => { cc with out_cells := eraseId cc.out_cells id })) s
        let s2 := c.out_cells.foldl
          (fun acc o => acc.updateCell o
            (fun cc => { cc with in_cells := eraseId cc.in_cells id })) s1
        ((s2.storeSet id none).gridSet pos none, none)

/-- `Sheet::HandleDeletedRowsForCell`. -/
def handleDeletedRowsAt (s : Sheet) (pos : Position) (first count : Int) : Sheet × Option Exc :=
  if ¬pos.IsValid then (s, some .invalidPosition)
  else if s.OutOfRange pos then (s, none)
  else
    match s.gridGet pos with
    | none => (s, none)
    | some id =>
      let r := s.cellHandleDeletedRows id first count
      if r.2 then (r.1.invalidateCacheFrom id, none) else (r.1, none)

/-- `Sheet::HandleDeletedColsForCell`. -/
def handleDeletedColsAt (s : Sheet) (pos : Position) (first count : Int) : Sheet × Option Exc :=
  if ¬pos.IsValid then (s, some .invalidPosition)
  else if s.OutOfRange pos then (s, none)
  else
    match s.gridGet pos with
    | none => (s, none)
    | some id =>
      let r := s.cellHandleDeletedCols id first count
      if r.2 then (r.1.invalidateCacheFrom id, none) else (r.1, none)

/-- `Sheet::HandleInsertedRows(pos, …)`. -/
def handleInsertedRowsAt (s : Sheet) (pos : Position) (before count : Int) : Sheet × Option Exc :=
  if ¬pos.IsValid then (s, some .invalidPosition)
  else if s.OutOfRange pos then (s, none)
  else
    match s.gridGet pos with
    | none => (s, none)
    | some id => (s.cellHandleInsertedRows id before count, none)

/-- `Sheet::HandleInsertedCols(pos, …)`. -/
def handleInsertedColsAt (s : Sheet) (pos : Position) (before count : Int) : Sheet × Option Exc :=
  if ¬pos.IsValid then (s, some .invalidPosition)
  else if s.OutOfRange pos then (s, none)
  else
    match s.gridGet pos with
    | none => (s, none)
    | some id => (s.cellHandleInsertedCols id before count, none)

end Sheet

/-- Run a loop body over a list, stopping at the first thrown
exception. -/
def foldSteps {α : Type} (f : Sheet → α → Sheet × Option Exc) :
    Sheet → List α → Sheet × Option Exc
  | s, [] => (s, none)
  | s, a :: rest =>
    match f s a with
    | (s', none) => foldSteps f s' rest
    | (s', some e) => (s', some e)

/-- The integer range `[a, b)` ascending. -/
def intRange (a b : Int) : List Int :=
  (List.range (b - a).toNat).map (fun k => a + (k : Int))

namespace Sheet

/-- The row-major position list `{i ∈ rows} × {j ∈ cols}` of the nested
`for` loops. -/
def posGrid (rows cols : List Int) : List Position :=
  rows.flatMap (fun i => cols.map (fun j => Position.mk i j))

/-- `Sheet::InsertRows` (first `common.cpp` version). -/
def insertRows (s : Sheet) (before count : Int) : Sheet × Option Exc :=
  if Position.kMaxRows < s.Rows + count then (s, some .tableTooBig)
  else if s.Rows ≤ before then (s, none)
  else
    match foldSteps (fun sh p => sh.handleInsertedRowsAt p before count) s
      (posGrid (intRange 0 s.Rows) (intRange 0 s.Cols)) with
    | (s1, some e) => (s1, some e)
    | (s1, none) =>
      ({ s1 with grid := (s1.grid.take before.toNat
          ++ List.replicate count.toNat (List.replicate s1.Cols.toNat none)
          ++ s1.grid.drop before.toNat) }, none)

/-- `Sheet::InsertCols`. -/
def insertCols (s : Sheet) (before count : Int) : Sheet × Option Exc :=
  if Position.kMaxCols < s.Cols + count then (s, some .tableTooBig)
  else if s.Cols ≤ before then (s, none)
  else
    match foldSteps (fun sh p => sh.handleInsertedColsAt p before count) s
      (posGrid (intRange 0 s.Rows) (intRange 0 s.Cols)) with
    | (s1, some e) => (s1, some e)
    | (s1, none) =>
      ({ s1 with grid := (s1.grid.map
          (fun r => r.take before.toNat ++ List.replicate count.toNat none
            ++ r.drop before.toNat)) }, none)

/-- `Sheet::DeleteRows` (first `common.cpp` version): delete the cells of
rows `[first, last)`, run the per-cell handlers on the remaining rows,
then erase the grid rows. -/
def deleteRows (s : Sheet) (first count : Int) : Sheet × Option Exc :=
  if s.Rows ≤ first ∨ count ≤ 0 then (s, none)
  else
    let last : Int := min s.Rows (first + count)
    match foldSteps (fun sh p => sh.deleteCell p) s
      (posGrid (intRange first last) (intRange 0 s.Cols)) with
    | (s1, some e) => (s1, some e)
    | (s1, none) =>
      match foldSteps (fun sh p => sh.handleDeletedRowsAt p first count) s1
        (posGrid (intRange 0 first ++ intRange last s.Rows) (intRange 0 s.Cols)) with
      | (s2, some e) => (s2, some e)
      | (s2, none) =>
        ({ s2 with grid := (s2.grid.take first.toNat ++ s2.grid.drop last.toNat) }, none)

/-- `Sheet::DeleteCols`. -/
def deleteCols (s : Sheet) (first count : Int) : Sheet × Option Exc :=
  if s.Cols ≤ first ∨ count ≤ 0 then (s, none)
  else
    let last : Int := min s.Cols (first + count)
    match foldSteps (fun sh p => sh.deleteCell p) s
      (posGrid (intRange 0 s.Rows) (intRange first last)) with
    | (s1, some e) => (s1, some e)
    | (s1, none) =>
      match foldSteps (fun sh p => sh.handleDeletedColsAt p first count) s1
        (posGrid (intRange 0 s.Rows) (intRange 0 first)) with
      | (s2, some e) => (s2, some e)
      | (s2, none) =>
        match foldSteps (fun sh p => sh.handleDeletedColsAt p first count) s2
          (posGrid (intRange 0 s.Rows) (intRange last s.Cols)) with
        | (s3, some e) => (s3, some e)
        | (s3, none) =>
          ({ s3 with grid := (s3.grid.map
              (fun r => r.take first.toNat ++ r.drop last.toNat)) }, none)

end Sheet

/-- The empty sheet `CreateSheet()`. -/
def emptySheet : Sheet := ⟨[], []⟩

/-- The states reachable from a fresh sheet by the public `ISheet`
operations (value reads included, since `GetValue` materializes
caches). -/
inductive Reachable : Sheet → Prop where
  | init : Reachable emptySheet
  | setCell {s : Sheet} (pos : Position) (text : CppString) :
      Reachable s → Reachable (s.setCell pos text).1
  | clearCell {s : Sheet} (pos : Position) :
      Reachable s → Reachable (s.clearCell pos)
  | insertRows {s : Sheet} (before count : Int) :
      Reachable s → Reachable (s.insertRows before count).1
  | insertCols {s : Sheet} (before count : Int) :
      Reachable s → Reachable (s.insertCols before count).1
  | deleteRows {s : Sheet} (first count : Int) :
      Reachable s → Reachable (s.deleteRows first count).1
  | deleteCols {s : Sheet} (first count : Int) :
      Reachable s → Reachable (s.deleteCols first count).1
  | getValue {s : Sheet} (fuel : Nat) (cid : Nat) :
      Reachable s → Reachable (Sheet.getValueAux fuel s cid).2

namespace Sheet

/-- Clear every cell's memoized value (the "clear every cache and
re-evaluate from scratch" reading of claim C10). -/
def clearAllCaches (s : Sheet) : Sheet :=
  { s with store := s.store.map (Option.map (fun c => { c with cache := none })) }

end Sheet

namespace Ast

/-- Insert a key into a sorted duplicate-free key list. -/
def insertKeySorted (k : Int) : List Int → List Int
  | [] => [k]
  | k' :: rest =>
    if k < k' then k :: k' :: rest
    else if k = k' then k' :: rest
    else k' :: insertKeySorted k rest

/-- All column keys of a two-level cache map, sorted ascending without
duplicates. -/
def colKeysSorted (m : ParamMap) : List Int :=
  m.foldl (fun acc ri => ri.2.foldl (fun a ci => insertKeySorted ci.1 a) acc) []

/-- The transpose of the two-level map: column key to row key to slot id,
both levels sorted. -/
def transposeMap (m : ParamMap) : ParamMap :=
  (colKeysSorted m).map
    (fun ck => (ck, m.filterMap (fun ri => (lookupKey ck ri.2).map (fun id => (ri.1, id)))))

/-- Claim C9's transposition of a cache state: the map with row and
column keys swapped, and every stored position's coordinates swapped.
(This definition follows the claim's words, for comparison with the
source-derived `handleDeletedRows`/`handleDeletedCols`.) -/
def transposeCache (c : CellParamCache) : CellParamCache :=
  ⟨transposeMap c.map, c.slots.map (Option.map (fun p => ⟨p.col, p.row⟩))⟩

/-- A well-formed cache with two live slots whose shifted column keys
collide: rows 0 and 1 referencing columns 6 and 5 respectively. -/
def c9cache : CellParamCache :=
  ⟨[(0, [(6, 0)]), (1, [(5, 1)])], [some ⟨0, 6⟩, some ⟨1, 5⟩]⟩

/-- A cache whose single map entry holds an already-deleted slot. -/
def c9nullCache : CellParamCache := ⟨[(0, [(0, 0)])], [none]⟩

end Ast

/-! ## Concrete scenario states used by the claims -/

/-- C3 scenario: `A1 = "x"`, `B1 = "=A1"`. -/
def c3state : Sheet :=
  ((Sheet.setCell emptySheet ⟨0, 0⟩ (strOf (r"x"))).1.setCell ⟨0, 1⟩ (strOf (r"=A1"))).1

/-- C3 scenario after `ClearCell(B1)`. -/
def c3cleared : Sheet := c3state.clearCell ⟨0, 1⟩

/-- C5 scenario exactly as claimed: `B1 = "=A1+A2"`, then
`DeleteRows(0, 1)` — which deletes row 0 and with it B1 itself. -/
def c5state : Sheet :=
  ((Sheet.setCell emptySheet ⟨0, 1⟩ (strOf (r"=A1+A2"))).1.deleteRows 0 1).1

/-- C5 amended scenario: the formula in `B2`, which survives the
deletion and shifts to `B1`. -/
def c5bstate : Sheet :=
  ((Sheet.setCell emptySheet ⟨1, 1⟩ (strOf (r"=A1+A2"))).1.deleteRows 0 1).1

/-- C6 scenario: `A1 = "=(1+2)*3"`. -/
def c6first : Sheet := (Sheet.setCell emptySheet ⟨0, 0⟩ (strOf (r"=(1+2)*3"))).1

/-- C6 scenario continued: `A1 = "=(1*2)+3"`. -/
def c6second : Sheet := (c6first.setCell ⟨0, 0⟩ (strOf (r"=(1*2)+3"))).1

/-- C8 scenario: `A1 = "=1e999"` (grammar-valid literal whose value
overflows the double range). -/
def c8state : Sheet := (Sheet.setCell emptySheet ⟨0, 0⟩ (strOf (r"=1e999"))).1

/-- C10 scenario, step 1: `A3 = "1"`, `A4 = "2"`, `B5 = "=A3+A4"` (cell
ids 0, 1, 2). -/
def c10base : Sheet :=
  (((Sheet.setCell emptySheet ⟨2, 0⟩ (strOf (r"1"))).1.setCell
      ⟨3, 0⟩ (strOf (r"2"))).1.setCell ⟨4, 1⟩ (strOf (r"=A3+A4"))).1

/-- C10 scenario, step 2: read `B5` so its value `3` is cached. -/
def c10cached : Sheet := (Sheet.getValueAux (Sheet.evalFuel c10base) c10base 2).2

/-- C10 scenario, step 3: delete the (empty) top row twice.  The first
deletion renames both references but loses the shifted-to-colliding map
entry of `A4`'s slot; the second renames only the surviving entry, so the
stale slot keeps pointing at the now-wrong row with no invalidation. -/
def c10state : Sheet := ((c10cached.deleteRows 0 1).1.deleteRows 0 1).1

/-- Decidable equality for `Except` results. -/
instance {ε α : Type} [DecidableEq ε] [DecidableEq α] : DecidableEq (Except ε α) := fun a b =>
  match a, b with
  | .ok x, .ok y =>
    if h : x = y then .isTrue (by rw [h]) else .isFalse (fun hh => by cases hh; exact h rfl)
  | .error x, .error y =>
    if h : x = y then .isTrue (by rw [h]) else .isFalse (fun hh => by cases hh; exact h rfl)
  | .ok _, .error _ => .isFalse (fun hh => by cases hh)
  | .error _, .ok _ => .isFalse (fun hh => by cases hh)

/-- C4 counterexample slot store: one slot holding the out-of-range
position `(16384, 0)`. -/
def c4slots : Ast.SlotStore := [some ⟨16384, 0⟩]

/-- C4 witness scenario: `A1 = "2.5"`, and a slot referencing `A1`. -/
def c4sheet : Sheet := (Sheet.setCell emptySheet ⟨0, 0⟩ (strOf (r"2.5"))).1

/-- The state relation of claim C1: `new` agrees with `old` on every
pre-existing cell object (text, formula, cached value and both edge sets
are fields of the stored `Cell`), any newly created cell objects are
empty placeholders, and the grid keeps every existing pointer, filling
empty slots at most with pointers to new placeholders. -/
def PlaceholderExtension (old new : Sheet) : Prop :=
  old.store.length ≤ new.store.length ∧
  (∀ id, id < old.store.length → new.store[id]? = old.store[id]?) ∧
  (∀ id, old.store.length ≤ id → id < new.store.length →
    new.store[id]? = some (some Cell.empty)) ∧
  (∀ p : Position, ∀ id, old.gridGet p = some id → new.gridGet p = some id) ∧
  (∀ p : Position, old.gridGet p = none →
    new.gridGet p = none ∨ ∃ id, new.gridGet p = some id ∧ old.store.length ≤ id)

namespace Sheet

/-- The text and formula fields of the cell stored at an id — exactly the
data constrained by claim C2's invariant (`none` when no live cell). -/
def tfAt (s : Sheet) (id : Nat) : Option (CppString × Option Ast.Tree) :=
  (s.storeGet id).map (fun c => (c.text, c.formula))

/-- Claim C2's invariant: every live cell holding a formula tree has its
text equal to `'='` followed by the tree's rebuilt expression. -/
def textInv (s : Sheet) : Prop :=
  ∀ id c t, s.storeGet id = some c → c.formula = some t →
    c.text = 61 :: t.GetExpression

end Sheet

namespace Ast

/-- All slot ids referenced by a two-level cache map, row by row. -/
def allIds : ParamMap → List Nat
  | [] => []
  | e :: rest => e.2.map Prod.snd ++ allIds rest

/-- Well-formedness of a cache state as maintained by `GetOrInsert`:
strictly ascending keys at both levels (the `std::map` invariant), no
aliased slot pointers, and no already-deleted slot. -/
def CacheWF (c : CellParamCache) : Prop :=
  List.Pairwise (· < ·) (keysOf c.map) ∧
  (∀ e ∈ c.map, List.Pairwise (· < ·) (keysOf e.2)) ∧
  (allIds c.map).Nodup ∧
  (∀ i ∈ allIds c.map, (slotGet c.slots i).isSome = true)

instance (c : CellParamCache) : Decidable (CacheWF c) := by
  unfold CacheWF
  infer_instance

/-- The number of entries of an inner map whose column key satisfies a
predicate. -/
def innerCountP (P : Int → Bool) (inner : InnerMap) : Nat :=
  (inner.filter (fun e => P e.1)).length

/-- The number of entries of the whole two-level map whose column key
satisfies a predicate. -/
def totalCount (P : Int → Bool) (m : ParamMap) : Nat :=
  (m.map (fun e => innerCountP P e.2)).sum

end Ast

/-! ## Theorems -/

namespace Position

/-! Lemmas for the `FromString ∘ ToString` round trip. -/

theorem natDigitsAux_eq_digits (fuel n : Nat) (h : n ≤ fuel) :
    natDigitsAux fuel n = Nat.digits 10 n := by
  induction fuel generalizing n with
  | zero =>
    have : n = 0 := by omega
    simp [natDigitsAux, this]
  | succ f ih =>
    by_cases hn : n = 0
    · simp [natDigitsAux, hn]
    · rw [Nat.digits_def' (by norm_num : (1 : Nat) < 10) (by omega)]
      simp only [natDigitsAux, hn, if_false]
      rw [ih (n / 10) (by omega)]

theorem natDecimal_eq_digits (n : Nat) (hn : n ≠ 0) :
    natDecimal n = (Nat.digits 10 n).reverse.map (· + 48) := by
  unfold natDecimal
  rw [if_neg hn, natDigitsAux_eq_digits n n (by omega)]

theorem colLettersAux_fuel_irrel (fuel₁ fuel₂ col : Nat)
    (h₁ : col < fuel₁) (h₂ : col < fuel₂) :
    colLettersAux fuel₁ col = colLettersAux fuel₂ col := by
  induction fuel₁ generalizing fuel₂ col with
  | zero => omega
  | succ f ih =>
    cases fuel₂ with
    | zero => omega
    | succ g =>
      simp only [colLettersAux]
      by_cases h : col < 26
      · simp [h]
      · have hd : col / 26 - 1 < col := by omega
        simp only [h, if_false]
        rw [ih g (col / 26 - 1) (by omega) (by omega)]

theorem colLetters_ge26 (col : Nat) (h : 26 ≤ col) :
    colLetters col = colLetters (col / 26 - 1) ++ [col % 26 + 65] := by
  have hd : col / 26 - 1 < col := by omega
  show colLettersAux (col + 1) col = _
  simp only [colLettersAux, Nat.not_lt.mpr h, if_false]
  rw [colLettersAux_fuel_irrel col (col / 26 - 1 + 1) (col / 26 - 1) (by omega) (by omega)]
  rfl

theorem colLetters_lt26 (col : Nat) (h : col < 26) :
    colLetters col = [col + 65] := by
  show colLettersAux (col + 1) col = _
  simp [colLettersAux, h]

theorem decodeHigh_append (xs : List Nat) (y : Nat) (m : Int) :
    decodeHigh (xs ++ [y]) m
      = decodeHigh xs m + ((y : Int) - 64) * (m * 26 ^ xs.length) := by
  induction xs generalizing m with
  | nil => simp [decodeHigh]
  | cons c cs ih =>
    show ((c : Int) - 64) * m + decodeHigh (cs ++ [y]) (m * 26) = _
    rw [ih]
    simp only [decodeHigh, List.length_cons]
    ring

/-- Key round-trip identity: reading back the higher letters recovers the
successor of the encoded value, scaled by the running multiplier. -/
theorem decodeHigh_colLetters (col : Nat) (m : Int) :
    decodeHigh (colLetters col).reverse m = ((col : Int) + 1) * m := by
  induction col using Nat.strong_induction_on generalizing m with
  | _ col ih =>
    by_cases h : col < 26
    · rw [colLetters_lt26 col h, List.reverse_singleton]
      show (((col + 65 : Nat) : Int) - 64) * m + 0 = _
      push_cast
      ring
    · rw [colLetters_ge26 col (by omega)]
      have hd : col / 26 - 1 < col := by omega
      rw [List.reverse_append, List.reverse_singleton, List.singleton_append]
      show (((col % 26 + 65 : Nat) : Int) - 64) * m
          + decodeHigh (colLetters (col / 26 - 1)).reverse (m * 26) = _
      rw [ih (col / 26 - 1) hd (m * 26)]
      have hdiv : ((col / 26 - 1 : Nat) : Int) + 1 = ((col / 26 : Nat) : Int) := by omega
      have hrec : ((col / 26 : Nat) : Int) * 26 + ((col % 26 : Nat) : Int) = (col : Int) := by
        omega
      push_cast at hdiv hrec ⊢
      linear_combination (26 * m) * hdiv + m * hrec

theorem decodeLetters_colLetters (col : Nat) :
    decodeLetters (colLetters col) = (col : Int) := by
  by_cases h : col < 26
  · rw [colLetters_lt26 col h]
    unfold decodeLetters
    rw [List.reverse_singleton]
    show ((col + 65 : Nat) : Int) - 65 + decodeHigh [] 26 = _
    simp only [decodeHigh, add_zero]
    push_cast
    ring
  · rw [colLetters_ge26 col (by omega)]
    unfold decodeLetters
    rw [List.reverse_append, List.reverse_singleton, List.singleton_append]
    show (((col % 26 + 65 : Nat) : Int) - 65)
        + decodeHigh (colLetters (col / 26 - 1)).reverse 26 = _
    rw [decodeHigh_colLetters]
    have hdiv : ((col / 26 - 1 : Nat) : Int) + 1 = ((col / 26 : Nat) : Int) := by omega
    have hrec : ((col / 26 : Nat) : Int) * 26 + ((col % 26 : Nat) : Int) = (col : Int) := by
      omega
    push_cast at hdiv hrec ⊢
    linear_combination 26 * hdiv + hrec

theorem colLetters_upper (col : Nat) :
    ∀ c ∈ colLetters col, 65 ≤ c ∧ c ≤ 90 := by
  induction col using Nat.strong_induction_on with
  | _ col ih =>
    by_cases h : col < 26
    · rw [colLetters_lt26 col h]
      intro c hc
      simp at hc
      omega
    · rw [colLetters_ge26 col (by omega)]
      have hd : col / 26 - 1 < col := by omega
      intro c hc
      rcases List.mem_append.mp hc with h1 | h2
      · exact ih _ hd c h1
      · simp at h2
        have : col % 26 < 26 := Nat.mod_lt _ (by norm_num)
        omega

theorem colLetters_length_le (col : Nat) (h : col < 18278) :
    (colLetters col).length ≤ 3 := by
  by_cases h1 : col < 26
  · rw [colLetters_lt26 col h1]; simp
  · rw [colLetters_ge26 col (by omega)]
    rw [List.length_append]
    by_cases h2 : col < 702
    · have : col / 26 - 1 < 26 := by
        have : col / 26 ≤ 701 / 26 := Nat.div_le_div_right (by omega)
        norm_num at this
        omega
      rw [colLetters_lt26 _ this]
      simp
    · have h26 : 26 ≤ col / 26 - 1 := by
        have : 702 / 26 ≤ col / 26 := Nat.div_le_div_right (by omega)
        norm_num at this
        omega
      have hlt : col / 26 - 1 < 702 := by
        have : col / 26 ≤ 18277 / 26 := Nat.div_le_div_right (by omega)
        norm_num at this
        omega
      rw [colLetters_ge26 _ h26]
      rw [List.length_append]
      have : col / 26 - 1 < 26 * 27 := by omega
      have hinner : (col / 26 - 1) / 26 - 1 < 26 := by
        have : (col / 26 - 1) / 26 ≤ 701 / 26 := Nat.div_le_div_right (by omega)
        norm_num at this
        omega
      rw [colLetters_lt26 _ hinner]
      simp

theorem colLetters_length_pos (col : Nat) : 1 ≤ (colLetters col).length := by
  by_cases h : col < 26
  · rw [colLetters_lt26 col h]; simp
  · rw [colLetters_ge26 col (by omega)]; simp

/-- A fold computing a decimal value from big-endian digits, related to
`Nat.ofDigits` over the little-endian digit list. -/
theorem foldl_decimal (L : List Nat) (acc : Nat) :
    List.foldl (fun a d => a * 10 + d) acc L.reverse
      = acc * 10 ^ L.length + Nat.ofDigits 10 L := by
  induction L generalizing acc with
  | nil => simp [Nat.ofDigits]
  | cons d ds ih =>
    simp only [List.reverse_cons, List.foldl_append, List.foldl_cons, List.foldl_nil,
      List.length_cons, Nat.ofDigits_cons]
    rw [ih]
    ring

theorem digitsVal_natDecimal (n : Nat) (hn : n ≠ 0) :
    digitsVal (natDecimal n) = n := by
  rw [natDecimal_eq_digits n hn]
  unfold digitsVal
  have hmap : ∀ (L : List Nat) (acc : Nat),
      List.foldl (fun a c => a * 10 + (c - 48)) acc (L.map (· + 48))
        = List.foldl (fun a d => a * 10 + d) acc L := by
    intro L
    induction L with
    | nil => intro acc; rfl
    | cons d ds ih =>
      intro acc
      simp only [List.map_cons, List.foldl_cons, Nat.add_sub_cancel]
      exact ih _
  rw [hmap, foldl_decimal]
  simp [Nat.ofDigits_digits]

theorem natDecimal_digits (n : Nat) :
    ∀ c ∈ natDecimal n, 48 ≤ c ∧ c ≤ 57 := by
  by_cases hn : n = 0
  · simp [natDecimal, hn]
  · rw [natDecimal_eq_digits n hn]
    intro c hc
    rcases List.mem_map.mp hc with ⟨d, hd, rfl⟩
    have := Nat.digits_lt_base (by norm_num) (List.mem_reverse.mp hd)
    omega

theorem natDecimal_length (n : Nat) (h1 : 1 ≤ n) (h2 : n < 100000) :
    1 ≤ (natDecimal n).length ∧ (natDecimal n).length ≤ 5 := by
  rw [natDecimal_eq_digits n (by omega)]
  simp only [List.length_map, List.length_reverse]
  constructor
  · have := Nat.digits_ne_nil_iff_ne_zero (b := 10) (n := n) |>.mpr (by omega)
    have := List.length_pos.mpr this
    omega
  · by_contra hlen
    have h6 : 6 ≤ (Nat.digits 10 n).length := by omega
    have hle := Nat.base_pow_length_digits_le 10 n (by norm_num) (by omega)
    have : (10 : Nat) ^ 6 ≤ 10 ^ (Nat.digits 10 n).length :=
      Nat.pow_le_pow_right (by norm_num) h6
    omega

theorem natDecimal_head (n : Nat) (h1 : 1 ≤ n) :
    headNonzeroDigit (natDecimal n) = true := by
  rw [natDecimal_eq_digits n (by omega)]
  unfold headNonzeroDigit
  have hne : Nat.digits 10 n ≠ [] :=
    Nat.digits_ne_nil_iff_ne_zero.mpr (by omega)
  have hrevne : (Nat.digits 10 n).reverse ≠ [] := by
    simpa using hne
  rcases List.exists_cons_of_ne_nil hrevne with ⟨d, ds, hds⟩
  rw [hds]
  simp only [List.map_cons, List.head?_cons]
  have hdmem : d ∈ Nat.digits 10 n := by
    have : d ∈ (Nat.digits 10 n).reverse := by rw [hds]; simp
    exact List.mem_reverse.mp this
  have hlt : d < 10 := Nat.digits_lt_base (by norm_num) hdmem
  have hdne : d ≠ 0 := by
    have hlast := Nat.getLast_digit_ne_zero 10 (show n ≠ 0 by omega)
    have heq : Nat.digits 10 n = ds.reverse ++ [d] := by
      have := congrArg List.reverse hds
      simpa using this
    have hg : (Nat.digits 10 n).getLast hne = d := by
      rw [List.getLast_congr _ _ heq, List.getLast_append_singleton]
    rw [hg] at hlast
    exact hlast
  simp only [decide_eq_true_eq]
  omega

/-- A `takeWhile` over a concatenation where the first part satisfies the
predicate everywhere and the second part starts with a failing element. -/
theorem takeWhile_append_exact (p : Nat → Bool) (l₁ l₂ : List Nat)
    (h₁ : ∀ c ∈ l₁, p c = true)
    (h₂ : match l₂.head? with
          | some c => p c = false
          | none => True) :
    (l₁ ++ l₂).takeWhile p = l₁ := by
  induction l₁ with
  | nil =>
    cases l₂ with
    | nil => rfl
    | cons c cs =>
      simp only [List.head?_cons] at h₂
      simp [List.takeWhile, h₂]
  | cons c cs ih =>
    have hc : p c = true := h₁ c (by simp)
    simp only [List.cons_append, List.takeWhile_cons, hc, if_true]
    rw [ih (fun x hx => h₁ x (by simp [hx]))]

/-- Claim C7: for every valid position `p` (0 ≤ row < 16384, 0 ≤ col < 16384),
`Position.FromString (p.ToString()) == p`: the bijective base-26 column
letters plus 1-based row number printed by `ToString` are parsed back by
`FromString` to exactly `p`. -/
theorem C7_fromString_toString (p : Position) (h : p.IsValid) :
    FromString (ToString p) = p := by
  obtain ⟨hr0, hr1, hc0, hc1⟩ := h
  have hkr : kMaxRows = 16384 := rfl
  have hkc : kMaxCols = 16384 := rfl
  have hcolNv : (p.col.toNat : Int) = p.col := Int.toNat_of_nonneg hc0
  have hrowNv : (p.row.toNat : Int) = p.row := Int.toNat_of_nonneg hr0
  have hcolLt : p.col.toNat < 16384 := by omega
  have hrowLt : p.row.toNat < 16384 := by omega
  have hts : ToString p = colLetters p.col.toNat ++ natDecimal (p.row.toNat + 1) := by
    unfold ToString
    rw [if_neg (by omega)]
  rw [hts]
  have hup : ∀ c ∈ colLetters p.col.toNat, isUpperCode c = true := by
    intro c hc
    have := colLetters_upper p.col.toNat c hc
    simp only [isUpperCode, decide_eq_true_eq]
    omega
  have hdig1 := natDecimal_length (p.row.toNat + 1) (by omega) (by omega)
  have hdigall := natDecimal_digits (p.row.toNat + 1)
  have hhead := natDecimal_head (p.row.toNat + 1) (by omega)
  have hheadFail : match (natDecimal (p.row.toNat + 1)).head? with
      | some c => isUpperCode c = false
      | none => True := by
    unfold headNonzeroDigit at hhead
    cases hh : (natDecimal (p.row.toNat + 1)).head? with
    | none => trivial
    | some c =>
      rw [hh] at hhead
      simp only [decide_eq_true_eq] at hhead
      simp only [isUpperCode, decide_eq_false_iff_not]
      omega
  have htake : (colLetters p.col.toNat ++ natDecimal (p.row.toNat + 1)).takeWhile isUpperCode
      = colLetters p.col.toNat :=
    takeWhile_append_exact _ _ _ hup hheadFail
  have hdrop : (colLetters p.col.toNat ++ natDecimal (p.row.toNat + 1)).drop
      (colLetters p.col.toNat).length = natDecimal (p.row.toNat + 1) :=
    List.drop_left _ _
  simp only [FromString, htake, hdrop]
  rw [if_pos ?cond]
  case cond =>
    refine ⟨colLetters_length_pos _, colLetters_length_le _ (by omega), ?_, ?_, ?_, hhead⟩
    · exact hdig1.1
    · exact hdig1.2
    · intro c hc
      have := hdigall c hc
      simp only [isDigitCode, decide_eq_true_eq]
      omega
  rw [decodeLetters_colLetters, digitsVal_natDecimal _ (by omega)]
  rw [if_pos ?bnd]
  case bnd =>
    constructor
    · rw [hkr]; push_cast; omega
    · rw [hkc]; omega
  have : ((p.row.toNat + 1 : Nat) : Int) - 1 = p.row := by push_cast; omega
  rw [this, hcolNv]

/-- Witness for C7 at the concrete valid position `(row 3, col 27)`,
whose text form is `AB4`. -/
theorem C7_fromString_toString_witness :
    Position.IsValid ⟨3, 27⟩ ∧ FromString (ToString ⟨3, 27⟩) = ⟨3, 27⟩ :=
  ⟨by decide, C7_fromString_toString ⟨3, 27⟩ (by decide)⟩

end Position

/-! ### Concrete claims on the Sheet -/

/-- Claim C3 (code bug): the dependency graph is NOT kept consistent by
`ClearCell` — after `A1 = "x"`, `B1 = "=A1"`, `ClearCell(B1)` destroys
B1 (cell id 1) without removing it from its neighbours' edge sets: A1's
in-edge set still contains the destroyed cell, a dangling `Cell*`. -/
theorem C3_clearCell_leaves_dangling_edge :
    Reachable c3cleared ∧
    c3cleared.gridGet ⟨0, 1⟩ = none ∧
    c3cleared.storeGet 1 = none ∧
    (c3cleared.storeGet 0).map Cell.in_cells = some [1] :=
  ⟨Reachable.clearCell _ (Reachable.setCell _ _ (Reachable.setCell _ _ Reachable.init)),
   rfl, rfl, rfl⟩

/-- Counterexample to claim C5 as stated: after `SetCell(B1, "=A1+A2")`
and `DeleteRows(0, 1)`, B1 lies in the deleted row, so `GetCell(B1)`
returns `nullptr` — there is no cell whose `GetText()` could return
`"=#REF!+A1"` (calling it would dereference a null pointer). -/
theorem C5_counterexample :
    Reachable c5state ∧
    c5state.getCellId ⟨0, 1⟩ = .ok none ∧
    c5state.getTextAt ⟨0, 1⟩ ≠ some (strOf (r"=#REF!+A1")) :=
  ⟨Reachable.deleteRows _ _ (Reachable.setCell _ _ Reachable.init),
   rfl, by decide⟩

/-- Claim C5 amended: with the formula in a cell that survives the
deletion — `SetCell(B2, "=A1+A2")` then `DeleteRows(0, 1)` — the cell
(now at B1) has `GetText() == "=#REF!+A1"` and
`GetValue() == Error(Ref)`. -/
theorem C5_deleted_row_ref :
    c5bstate.getTextAt ⟨0, 1⟩ = some (strOf (r"=#REF!+A1")) ∧
    c5bstate.getValueAt ⟨0, 1⟩ = some (.ok (.err .Ref)) :=
  ⟨rfl, rfl⟩

/-- Claim C6: parentheses are kept exactly where precedence demands:
`SetCell(A1, "=(1+2)*3")` stores text `"=(1+2)*3"` (parens around `+`
retained under `*`), and a following `SetCell(A1, "=(1*2)+3")` stores
`"=1*2+3"` (parens erased under `+`); both calls succeed. -/
theorem C6_parenthesis_simplification :
    (Sheet.setCell emptySheet ⟨0, 0⟩ (strOf (r"=(1+2)*3"))).2 = none ∧
    c6first.getTextAt ⟨0, 0⟩ = some (strOf (r"=(1+2)*3")) ∧
    (c6first.setCell ⟨0, 0⟩ (strOf (r"=(1*2)+3"))).2 = none ∧
    c6second.getTextAt ⟨0, 0⟩ = some (strOf (r"=1*2+3")) :=
  ⟨rfl, rfl, rfl, rfl⟩

/-- Claim C8 (code bug): the §6 grammar accepts the literal `1e999`
(`SetCell(A1, "=1e999")` parses and installs the formula without any
exception) but evaluating it makes `std::stod` throw `std::out_of_range`,
which escapes `Evaluate`/`GetValue` — evaluation neither returns a
`Double` nor one of the three `FormulaError` values. -/
theorem C8_literal_overflow_throws :
    (Sheet.setCell emptySheet ⟨0, 0⟩ (strOf (r"=1e999"))).2 = none ∧
    c8state.getValueAt ⟨0, 0⟩ = some (.error (.exc .stdOutOfRange)) :=
  ⟨rfl, rfl⟩

/-- Claim C10 (code bug): memoization is not transparent.  In the
reachable state of the scenario (`A3 = "1"`, `A4 = "2"`,
`B5 = "=A3+A4"` read once, then two `DeleteRows(0, 1)` of empty rows),
the surviving formula cell's `GetValue` returns the stale cached
`Double(3)` while clearing every cache and evaluating from scratch
yields `Double(1)` — the colliding `std::map::insert` in
`HandleDeletedRows` silently dropped one slot's cache entry, so the
second deletion left that slot un-renamed and nothing was
invalidated. -/
theorem C10_memoization_not_transparent :
    Reachable c10state ∧
    c10state.getTextAt ⟨2, 1⟩ = some (strOf (r"=A1+A3")) ∧
    c10state.getValueAt ⟨2, 1⟩ = some (.ok (.num ⟨3, 1⟩)) ∧
    c10state.clearAllCaches.getValueAt ⟨2, 1⟩ = some (.ok (.num ⟨1, 1⟩)) :=
  ⟨Reachable.deleteRows _ _ (Reachable.deleteRows _ _ (Reachable.getValue _ _
      (Reachable.setCell _ _ (Reachable.setCell _ _
        (Reachable.setCell _ _ Reachable.init))))),
   rfl, rfl, rfl⟩

/-- Counterexample to claim C9 as stated: `HandleDeletedCols` does not
equal transpose-conjugated `HandleDeletedRows` on every cache state.
On `c9cache` (rows 0, 1 referencing columns 6, 5) the resulting maps
differ (the rows version loses the shifted entry to a key collision that
the column-wise run does not encounter), and on `c9nullCache` (one
already-deleted slot) even the returned `(deleted, renamed)` counts
differ (the rows version counts cleared slots unconditionally, the cols
version only live ones). -/
theorem C9_counterexample :
    Ast.transposeCache (Ast.handleDeletedRows (Ast.transposeCache Ast.c9cache) 0 1).1
        ≠ (Ast.handleDeletedCols Ast.c9cache 0 1).1 ∧
    (Ast.handleDeletedRows (Ast.transposeCache Ast.c9nullCache) 0 1).2
        ≠ (Ast.handleDeletedCols Ast.c9nullCache 0 1).2 := by
  constructor
  · decide
  · decide

/-! ### Claim C4: evaluation of a cell-reference node -/

/-- Counterexample to claim C4 as stated: a slot can hold a stored
position outside the valid range (e.g. row 16384, reachable by inserting
rows below a far reference), and such a position "holds no cell"; the
claim then demands `Double(0)`, but `sheet.GetCell` throws
`InvalidPositionException`, which propagates out of `Evaluate`. -/
theorem C4_counterexample :
    emptySheet.gridGet ⟨16384, 0⟩ = none ∧
    Ast.evalNodeWith (Sheet.getCellVal 1) c4slots (.cell 0) emptySheet
      = (.error (.exc .invalidPosition), emptySheet) ∧
    Ast.evalNodeWith (Sheet.getCellVal 1) c4slots (.cell 0) emptySheet
      ≠ (.ok (.num (Ast.Dbl.ofNat 0)), emptySheet) :=
  ⟨rfl, rfl, by decide⟩

/-- Claim C4 amended: evaluation of a cell-reference AST node over any
sheet satisfies: a deleted slot returns `Error(Ref)`; a stored position
at which `GetCell` finds no cell returns `Double(0)` (when the stored
position is invalid, `GetCell`'s `InvalidPositionException` propagates
instead); when a cell is present, a `Double` value is returned as is, a
`Text` value yields `Double(0)` if empty, the parsed `Double` if
`std::stod` succeeds, and, when non-empty, `Error(Value)` if `stod`
rejects it (`std::invalid_argument`); an `Error` value propagates
unchanged. -/
theorem C4_cellref_eval (fuel : Nat) (sh : Sheet) (slots : Ast.SlotStore) (i : Nat) :
    (Ast.slotGet slots i = none →
      Ast.evalNodeWith (Sheet.getCellVal fuel) slots (.cell i) sh
        = (.ok (.err .Ref), sh)) ∧
    (∀ pos, Ast.slotGet slots i = some pos → sh.getCellId pos = .ok none →
      Ast.evalNodeWith (Sheet.getCellVal fuel) slots (.cell i) sh
        = (.ok (.num (Ast.Dbl.ofNat 0)), sh)) ∧
    (∀ pos, Ast.slotGet slots i = some pos → ¬pos.IsValid →
      Ast.evalNodeWith (Sheet.getCellVal fuel) slots (.cell i) sh
        = (.error (.exc .invalidPosition), sh)) ∧
    (∀ pos id2, Ast.slotGet slots i = some pos → sh.getCellId pos = .ok (some id2) →
      (∀ d sh', Sheet.getValueAux fuel sh id2 = (.ok (.num d), sh') →
        Ast.evalNodeWith (Sheet.getCellVal fuel) slots (.cell i) sh
          = (.ok (.num d), sh')) ∧
      (∀ e sh', Sheet.getValueAux fuel sh id2 = (.ok (.err e), sh') →
        Ast.evalNodeWith (Sheet.getCellVal fuel) slots (.cell i) sh
          = (.ok (.err e), sh')) ∧
      (∀ t sh', Sheet.getValueAux fuel sh id2 = (.ok (.str t), sh') →
        (t = [] →
          Ast.evalNodeWith (Sheet.getCellVal fuel) slots (.cell i) sh
            = (.ok (.num (Ast.Dbl.ofNat 0)), sh')) ∧
        (∀ d, Ast.stod t = .ok d →
          Ast.evalNodeWith (Sheet.getCellVal fuel) slots (.cell i) sh
            = (.ok (.num d), sh')) ∧
        (t ≠ [] → Ast.stod t = .error .stdInvalidArgument →
          Ast.evalNodeWith (Sheet.getCellVal fuel) slots (.cell i) sh
            = (.ok (.err .Value), sh')))) := by
  refine ⟨?_, ?_, ?_, ?_⟩
  · intro h
    simp only [Ast.evalNodeWith, h]
  · intro pos hs h2
    simp only [Ast.evalNodeWith, hs, Sheet.getCellVal, h2]
  · intro pos hs hinv
    have h2 : sh.getCellId pos = .error .invalidPosition := by
      simp [Sheet.getCellId, hinv]
    simp only [Ast.evalNodeWith, hs, Sheet.getCellVal, h2]
  · intro pos id2 hs h2
    refine ⟨?_, ?_, ?_⟩
    · intro d sh' hval
      simp only [Ast.evalNodeWith, hs, Sheet.getCellVal, h2, hval]
    · intro e sh' hval
      simp only [Ast.evalNodeWith, hs, Sheet.getCellVal, h2, hval]
    · intro t sh' hval
      refine ⟨?_, ?_, ?_⟩
      · intro ht
        subst ht
        simp only [Ast.evalNodeWith, hs, Sheet.getCellVal, h2, hval, List.isEmpty_nil,
          if_true]
      · intro d hstod
        cases t with
        | nil =>
          rw [show Ast.stod [] = Except.error Exc.stdInvalidArgument from rfl] at hstod
          simp at hstod
        | cons c cs =>
          simp only [Ast.evalNodeWith, hs, Sheet.getCellVal, h2, hval, List.isEmpty_cons,
            Bool.false_eq_true, if_false, hstod]
      · intro ht hstod
        cases t with
        | nil => exact absurd rfl ht
        | cons c cs =>
          simp only [Ast.evalNodeWith, hs, Sheet.getCellVal, h2, hval, List.isEmpty_cons,
            Bool.false_eq_true, if_false, hstod]

/-- Witness for C4: on the sheet with `A1 = "2.5"`, a slot referencing
`A1` evaluates to `Double(5/2)`, by the text-parses case of
`C4_cellref_eval`. -/
theorem C4_cellref_eval_witness :
    Ast.evalNodeWith (Sheet.getCellVal 2) [some ⟨0, 0⟩] (.cell 0) c4sheet
      = (.ok (.num ⟨5, 2⟩), (Sheet.getValueAux 2 c4sheet 0).2) :=
  (((C4_cellref_eval 2 c4sheet [some ⟨0, 0⟩] 0).2.2.2 ⟨0, 0⟩ 0 rfl rfl).2.2
    (strOf (r"2.5")) (Sheet.getValueAux 2 c4sheet 0).2 rfl).2.1 ⟨5, 2⟩ rfl

/-! ### Claim C1: a rejected SetCell leaves the sheet unchanged
(up to empty placeholder cells) -/

theorem placeholderExtension_refl (s : Sheet) : PlaceholderExtension s s :=
  ⟨Nat.le_refl _, fun _ _ => rfl, fun id h1 h2 => absurd h2 (by omega),
   fun _ _ h => h, fun _ h => Or.inl h⟩

theorem placeholderExtension_trans {a b c : Sheet}
    (hab : PlaceholderExtension a b) (hbc : PlaceholderExtension b c) :
    PlaceholderExtension a c := by
  obtain ⟨l1, s1, n1, g1, e1⟩ := hab
  obtain ⟨l2, s2, n2, g2, e2⟩ := hbc
  refine ⟨Nat.le_trans l1 l2, ?_, ?_, ?_, ?_⟩
  · intro id h
    rw [s2 id (by omega), s1 id h]
  · intro id h1 h2
    by_cases hb : id < b.store.length
    · rw [s2 id hb]
      exact n1 id h1 hb
    · exact n2 id (by omega) h2
  · intro p id h
    exact g2 p id (g1 p id h)
  · intro p h
    rcases e1 p h with h' | ⟨id, hid, hlen⟩
    · rcases e2 p h' with h'' | ⟨id, hid, hlen⟩
      · exact Or.inl h''
      · exact Or.inr ⟨id, hid, by omega⟩
    · exact Or.inr ⟨id, g2 p id hid, hlen⟩

/-- `gridGet` only reads the clamped coordinates. -/
theorem gridGet_congr (s : Sheet) {p q : Position}
    (hr : p.row.toNat = q.row.toNat) (hc : p.col.toNat = q.col.toNat) :
    s.gridGet p = s.gridGet q := by
  unfold Sheet.gridGet
  rw [hr, hc]

theorem rowJoin_append_replicate (row : List (Option Nat)) (k c : Nat) :
    ((row ++ List.replicate k none)[c]?).join = (row[c]?).join := by
  by_cases h : c < row.length
  · rw [List.getElem?_append_left h]
  · have hr : row[c]? = none := List.getElem?_eq_none (by omega)
    rw [List.getElem?_append_right (by omega), hr, List.getElem?_replicate]
    split <;> rfl

theorem gridGet_resizeRows (s : Sheet) (n : Nat) (p : Position) :
    (s.resizeRows n).gridGet p = s.gridGet p := by
  unfold Sheet.resizeRows
  split
  · show ((((s.grid ++ List.replicate (n + 1 - s.grid.length)
        (List.replicate s.Cols.toNat none))[p.row.toNat]?).getD [])[p.col.toNat]?).join
      = (((s.grid[p.row.toNat]?).getD [])[p.col.toNat]?).join
    by_cases hr : p.row.toNat < s.grid.length
    · rw [List.getElem?_append_left hr]
    · have h0 : s.grid[p.row.toNat]? = none := List.getElem?_eq_none (by omega)
      rw [h0, List.getElem?_append_right (by omega), List.getElem?_replicate]
      split
      · simp only [Option.getD_some, List.getElem?_replicate]
        split <;> rfl
      · rfl
  · rfl

theorem gridGet_resizeCols (s : Sheet) (n : Nat) (p : Position) :
    (s.resizeCols n).gridGet p = s.gridGet p := by
  unfold Sheet.resizeCols
  split
  · show (((List.map (fun r => r ++ List.replicate (n + 1 - r.length) none)
        s.grid)[p.row.toNat]?).getD [])[p.col.toNat]?.join
      = (((s.grid[p.row.toNat]?).getD [])[p.col.toNat]?).join
    rw [List.getElem?_map]
    cases hrow : s.grid[p.row.toNat]? with
    | none => rfl
    | some row =>
      simp only [Option.map_some', Option.getD_some]
      exact rowJoin_append_replicate row _ _
  · rfl

theorem gridGet_resize (s : Sheet) (q p : Position) :
    (s.resize q).gridGet p = s.gridGet p := by
  unfold Sheet.resize
  rw [gridGet_resizeCols, gridGet_resizeRows]

theorem store_resizeRows (s : Sheet) (n : Nat) : (s.resizeRows n).store = s.store := by
  unfold Sheet.resizeRows
  split <;> rfl

theorem store_resizeCols (s : Sheet) (n : Nat) : (s.resizeCols n).store = s.store := by
  unfold Sheet.resizeCols
  split <;> rfl

theorem store_resize (s : Sheet) (q : Position) : (s.resize q).store = s.store := by
  unfold Sheet.resize
  rw [store_resizeCols, store_resizeRows]

theorem gridGet_gridSet (s : Sheet) (q : Position) (v : Option Nat) (p : Position) :
    (s.gridSet q v).gridGet p = s.gridGet p ∨
    ((s.gridSet q v).gridGet p = v ∧ s.gridGet p = s.gridGet q) := by
  by_cases hr : p.row.toNat = q.row.toNat
  · by_cases hc : p.col.toNat = q.col.toNat
    · by_cases hrl : q.row.toNat < s.grid.length
      · by_cases hcl : q.col.toNat < ((s.grid[q.row.toNat]?).getD []).length
        · right
          refine ⟨?_, gridGet_congr s hr hc⟩
          show ((s.grid.set q.row.toNat (((s.grid[q.row.toNat]?).getD
              []).set q.col.toNat v))[p.row.toNat]?.getD [])[p.col.toNat]?.join = v
          rw [hr, hc, List.getElem?_set, if_pos rfl, if_pos hrl]
          simp only [Option.getD_some]
          rw [List.getElem?_set, if_pos rfl, if_pos hcl]
          rfl
        · left
          show ((s.grid.set q.row.toNat (((s.grid[q.row.toNat]?).getD
              []).set q.col.toNat v))[p.row.toNat]?.getD [])[p.col.toNat]?.join
            = ((s.grid[p.row.toNat]?).getD [])[p.col.toNat]?.join
          rw [hr, hc, List.getElem?_set, if_pos rfl, if_pos hrl]
          simp only [Option.getD_some]
          rw [List.set_eq_of_length_le (by omega)]
      · left
        show ((s.grid.set q.row.toNat (((s.grid[q.row.toNat]?).getD
            []).set q.col.toNat v))[p.row.toNat]?.getD [])[p.col.toNat]?.join
          = ((s.grid[p.row.toNat]?).getD [])[p.col.toNat]?.join
        rw [List.set_eq_of_length_le (by omega)]
    · left
      show ((s.grid.set q.row.toNat (((s.grid[q.row.toNat]?).getD
          []).set q.col.toNat v))[p.row.toNat]?.getD [])[p.col.toNat]?.join
        = ((s.grid[p.row.toNat]?).getD [])[p.col.toNat]?.join
      rw [hr, List.getElem?_set, if_pos rfl]
      split
      · simp only [Option.getD_some]
        rw [List.getElem?_set_ne (fun h => hc h.symm)]
      · have h0 : s.grid[q.row.toNat]? = none := List.getElem?_eq_none (by omega)
        rw [h0]
  · left
    show ((s.grid.set q.row.toNat (((s.grid[q.row.toNat]?).getD
        []).set q.col.toNat v))[p.row.toNat]?.getD [])[p.col.toNat]?.join
      = ((s.grid[p.row.toNat]?).getD [])[p.col.toNat]?.join
    rw [List.getElem?_set_ne (fun h => hr h.symm)]

/-- `GetOrCreateCell` only resizes and possibly creates one placeholder:
its successful result is a placeholder extension. -/
theorem getOrCreateCell_extension (s : Sheet) (pos : Position) (r : Nat × Sheet)
    (h : s.getOrCreateCell pos = .ok r) : PlaceholderExtension s r.2 := by
  unfold Sheet.getOrCreateCell at h
  by_cases hv : pos.IsValid
  case neg =>
    simp only [hv, not_false_iff, if_true] at h
    cases h
  case pos =>
    simp only [hv, not_true, if_false] at h
    set s1 := if s.OutOfRange pos then s.resize pos else s with hs1
    have hstore1 : s1.store = s.store := by
      rw [hs1]
      split
      · exact store_resize s pos
      · rfl
    have hgrid1 : ∀ p, s1.gridGet p = s.gridGet p := by
      intro p
      rw [hs1]
      split
      · exact gridGet_resize s pos p
      · rfl
    have hext1 : PlaceholderExtension s s1 :=
      ⟨by rw [hstore1], fun id _ => by rw [hstore1], fun id h1 h2 => by rw [hstore1] at h2; omega,
       fun p id hp => by rw [hgrid1, hp], fun p hp => Or.inl (by rw [hgrid1, hp])⟩
    rcases hg : s1.gridGet pos with _ | id0
    · rw [hg] at h
      simp only [Except.ok.injEq] at h
      subst h
      refine placeholderExtension_trans hext1 ⟨?_, ?_, ?_, ?_, ?_⟩
      · show s1.store.length ≤ (s1.store ++ [some Cell.empty]).length
        simp
      · intro id hlt
        show (s1.store ++ [some Cell.empty])[id]? = s1.store[id]?
        rw [List.getElem?_append_left hlt]
      · intro id h1 h2
        have h2' : id < (s1.store ++ [some Cell.empty]).length := h2
        simp only [List.length_append, List.length_cons, List.length_nil] at h2'
        have hid : id = s1.store.length := by omega
        subst hid
        show (s1.store ++ [some Cell.empty])[s1.store.length]? = some (some Cell.empty)
        rw [List.getElem?_append_right (Nat.le_refl _)]
        simp
      · intro p id hp
        have hp' : Sheet.gridGet { s1 with store := s1.store ++ [some Cell.empty] } p
            = some id := hp
        rcases gridGet_gridSet { s1 with store := s1.store ++ [some Cell.empty] }
            pos (some s1.store.length) p with h' | ⟨h', heq⟩
        · rw [h']
          exact hp'
        · have hq : Sheet.gridGet { s1 with store := s1.store ++ [some Cell.empty] } pos
              = s1.gridGet pos := rfl
          rw [hq, hg] at heq
          rw [show Sheet.gridGet { s1 with store := s1.store ++ [some Cell.empty] } p
              = s1.gridGet p from rfl, hp] at heq
          cases heq
      · intro p hp
        rcases gridGet_gridSet { s1 with store := s1.store ++ [some Cell.empty] }
            pos (some s1.store.length) p with h' | ⟨h', _⟩
        · left
          rw [h']
          exact hp
        · right
          exact ⟨s1.store.length, h', Nat.le_refl _⟩
    · rw [hg] at h
      simp only [Except.ok.injEq] at h
      subst h
      exact hext1

/-- The out-cell collection loop of `SetCell` (a fold of
`GetOrCreateCell` over the referenced positions) is a placeholder
extension whatever it returns. -/
theorem setCell_fold_extension (l : List Position)
    (acc : (List Nat × Sheet) × Option Exc) (s : Sheet)
    (hacc : PlaceholderExtension s acc.1.2) :
    PlaceholderExtension s
      (l.foldl
        (fun (acc : (List Nat × Sheet) × Option Exc) p =>
          match acc with
          | ((outs, sh), none) =>
            match sh.getOrCreateCell p with
            | .ok r => ((insertId outs r.1, r.2), none)
            | .error e => ((outs, sh), some e)
          | x => x) acc).1.2 := by
  induction l generalizing acc with
  | nil => exact hacc
  | cons p rest ih =>
    simp only [List.foldl_cons]
    rcases acc with ⟨⟨outs, sh⟩, exc⟩
    cases exc with
    | some e => exact ih _ hacc
    | none =>
      rcases hg : sh.getOrCreateCell p with e | r
      · simp only [hg]
        exact ih _ hacc
      · simp only [hg]
        exact ih _ (placeholderExtension_trans hacc (getOrCreateCell_extension sh p r hg))

/-- Claim C1: whenever `SetCell(pos, text)` raises an exception
(`InvalidPositionException`, `FormulaException` or
`CircularDependencyException`), the sheet afterwards agrees with the
sheet before on every pre-existing cell — text, formula, cached value
and in/out edge sets — and any cells created by the call are empty
placeholders (empty text, no formula, no cache, no edges). -/
theorem C1_rejected_setCell_preserves_state (s : Sheet) (pos : Position)
    (text : CppString) (e : Exc) (h : (s.setCell pos text).2 = some e) :
    PlaceholderExtension s (s.setCell pos text).1 := by
  unfold Sheet.setCell at h ⊢
  rcases hg : s.getOrCreateCell pos with e0 | ⟨cid, s1⟩
  · simp only [hg]
    exact placeholderExtension_refl s
  · have hr := getOrCreateCell_extension s pos (cid, s1) hg
    simp only [hg] at h ⊢
    by_cases hf : List.head? text = some 61
    · rw [if_pos hf] at h ⊢
      rcases hp : Ast.parseFormula (List.drop 1 text) with e1 | f
      · simp only [hp]
        exact hr
      · simp only [hp] at h ⊢
        have hfold := setCell_fold_extension f.GetReferencedCells (([], s1), none) s1
          (placeholderExtension_refl s1)
        split at h
        · rename_i outs s2 heq
          rw [heq] at hfold
          have hsplit : cid ∈ s2.transitiveReferencedCells outs := by
            by_contra hc
            rw [if_neg hc] at h
            exact Option.noConfusion h
          rw [if_pos hsplit]
          exact placeholderExtension_trans hr hfold
        · rename_i x outs s2 e2 heq
          rw [heq] at hfold
          exact placeholderExtension_trans hr hfold
    · rw [if_neg hf] at h
      exact Option.noConfusion h

/-- Witness for C1 at the concrete input `SetCell(A1, "=A1")` on a fresh
sheet: the self-reference is rejected with
`CircularDependencyException`, and the resulting state is a placeholder
extension of the empty sheet. -/
theorem C1_rejected_setCell_preserves_state_witness :
    (Sheet.setCell emptySheet ⟨0, 0⟩ (strOf (r"=A1"))).2 = some .circularDependency ∧
    PlaceholderExtension emptySheet (Sheet.setCell emptySheet ⟨0, 0⟩ (strOf (r"=A1"))).1 :=
  ⟨rfl, C1_rejected_setCell_preserves_state emptySheet ⟨0, 0⟩ (strOf (r"=A1"))
    .circularDependency rfl⟩


/-! ### Claim C2: count monotonicity and zero-progress lemmas for the
cache handlers (a zero count means the slot store was not written). -/

namespace Ast

/-- The delete loop of `HandleDeletedRows` counts one per inner-map
entry, unconditionally. -/
theorem nullifyInnerAll_snd (inner : InnerMap) : ∀ (s : SlotStore) (c : Nat),
    (nullifyInnerAll s c inner).2 = c + inner.length := by
  induction inner with
  | nil => intro s c; simp [nullifyInnerAll]
  | cons e rest ih =>
    rcases e with ⟨a, id⟩
    intro s c
    show (nullifyInnerAll (slotSet s id none) (c + 1) rest).2 = _
    rw [ih]
    simp only [List.length_cons]
    omega

theorem rowsDelPhase_d_mono (ks : List Int) : ∀ (m : ParamMap) (s : SlotStore) (d : Nat),
    d ≤ (rowsDelPhase ks m s d).2.2 := by
  induction ks with
  | nil => intro m s d; exact Nat.le_refl d
  | cons k ks ih =>
    intro m s d
    show d ≤ (rowsDelPhase ks (eraseKey k m)
        (nullifyInnerAll s d ((lookupKey k m).getD [])).1
        (nullifyInnerAll s d ((lookupKey k m).getD [])).2).2.2
    have h1 := nullifyInnerAll_snd ((lookupKey k m).getD []) s d
    have h2 := ih (eraseKey k m) (nullifyInnerAll s d ((lookupKey k m).getD [])).1
        (nullifyInnerAll s d ((lookupKey k m).getD [])).2
    omega

theorem rowsDelPhase_store_of_eq (ks : List Int) : ∀ (m : ParamMap) (s : SlotStore) (d : Nat),
    (rowsDelPhase ks m s d).2.2 = d → (rowsDelPhase ks m s d).2.1 = s := by
  induction ks with
  | nil => intro m s d _; rfl
  | cons k ks ih =>
    intro m s d h
    rw [show rowsDelPhase (k :: ks) m s d = rowsDelPhase ks (eraseKey k m)
        (nullifyInnerAll s d ((lookupKey k m).getD [])).1
        (nullifyInnerAll s d ((lookupKey k m).getD [])).2 from rfl] at h ⊢
    have h1 := nullifyInnerAll_snd ((lookupKey k m).getD []) s d
    have h2 := rowsDelPhase_d_mono ks (eraseKey k m)
        (nullifyInnerAll s d ((lookupKey k m).getD [])).1
        (nullifyInnerAll s d ((lookupKey k m).getD [])).2
    have hnil : (lookupKey k m).getD [] = [] := by
      have : ((lookupKey k m).getD []).length = 0 := by omega
      exact List.length_eq_zero.mp this
    rw [hnil] at h ⊢
    exact ih _ _ _ h

theorem renameInnerRows_u_mono (r : Int) (inner : InnerMap) : ∀ (s : SlotStore) (u : Nat),
    u ≤ (renameInnerRows r inner s u).2 := by
  induction inner with
  | nil => intro s u; exact Nat.le_refl u
  | cons e rest ih =>
    rcases e with ⟨a, id⟩
    intro s u
    cases hg : slotGet s id with
    | none => simpa only [renameInnerRows, hg] using ih s u
    | some p =>
      simp only [renameInnerRows, hg]
      exact Nat.le_trans (by omega) (ih (slotSet s id (some ⟨r, p.col⟩)) (u + 1))

theorem renameInnerRows_store_of_eq (r : Int) (inner : InnerMap) : ∀ (s : SlotStore) (u : Nat),
    (renameInnerRows r inner s u).2 = u → (renameInnerRows r inner s u).1 = s := by
  induction inner with
  | nil => intro s u _; rfl
  | cons e rest ih =>
    rcases e with ⟨a, id⟩
    intro s u h
    cases hg : slotGet s id with
    | none =>
      simp only [renameInnerRows, hg] at h ⊢
      exact ih s u h
    | some p =>
      simp only [renameInnerRows, hg] at h ⊢
      have := renameInnerRows_u_mono r rest (slotSet s id (some ⟨r, p.col⟩)) (u + 1)
      omega

theorem rowsUpdPhase_u_mono (shift : Int) (ks : List Int) :
    ∀ (m : ParamMap) (s : SlotStore) (u : Nat),
    u ≤ (rowsUpdPhase shift ks m s u).2.2 := by
  induction ks with
  | nil => intro m s u; exact Nat.le_refl u
  | cons k ks ih =>
    intro m s u
    show u ≤ (rowsUpdPhase shift ks
        (insertSorted (k + shift) ((lookupKey k m).getD []) (eraseKey k m))
        (renameInnerRows (k + shift) ((lookupKey k m).getD []) s u).1
        (renameInnerRows (k + shift) ((lookupKey k m).getD []) s u).2).2.2
    have h1 := renameInnerRows_u_mono (k + shift) ((lookupKey k m).getD []) s u
    have h2 := ih (insertSorted (k + shift) ((lookupKey k m).getD []) (eraseKey k m))
        (renameInnerRows (k + shift) ((lookupKey k m).getD []) s u).1
        (renameInnerRows (k + shift) ((lookupKey k m).getD []) s u).2
    omega

theorem rowsUpdPhase_store_of_eq (shift : Int) (ks : List Int) :
    ∀ (m : ParamMap) (s : SlotStore) (u : Nat),
    (rowsUpdPhase shift ks m s u).2.2 = u → (rowsUpdPhase shift ks m s u).2.1 = s := by
  induction ks with
  | nil => intro m s u _; rfl
  | cons k ks ih =>
    intro m s u h
    rw [show rowsUpdPhase shift (k :: ks) m s u = rowsUpdPhase shift ks
        (insertSorted (k + shift) ((lookupKey k m).getD []) (eraseKey k m))
        (renameInnerRows (k + shift) ((lookupKey k m).getD []) s u).1
        (renameInnerRows (k + shift) ((lookupKey k m).getD []) s u).2 from rfl] at h ⊢
    have h1 := renameInnerRows_u_mono (k + shift) ((lookupKey k m).getD []) s u
    have h2 := rowsUpdPhase_u_mono shift ks
        (insertSorted (k + shift) ((lookupKey k m).getD []) (eraseKey k m))
        (renameInnerRows (k + shift) ((lookupKey k m).getD []) s u).1
        (renameInnerRows (k + shift) ((lookupKey k m).getD []) s u).2
    have hu : (renameInnerRows (k + shift) ((lookupKey k m).getD []) s u).2 = u := by omega
    have hs := renameInnerRows_store_of_eq (k + shift) ((lookupKey k m).getD []) s u hu
    rw [hu, hs] at h ⊢
    exact ih _ _ _ h

theorem colsDelPhase_d_mono (ks : List Int) : ∀ (inner : InnerMap) (s : SlotStore) (d : Nat),
    d ≤ (colsDelPhase ks inner s d).2.2 := by
  induction ks with
  | nil => intro inner s d; exact Nat.le_refl d
  | cons k ks ih =>
    intro inner s d
    cases hl : lookupKey k inner with
    | none => simpa only [colsDelPhase, hl] using ih inner s d
    | some id =>
      cases hg : slotGet s id with
      | none => simpa only [colsDelPhase, hl, hg] using ih (eraseKey k inner) s d
      | some p =>
        simp only [colsDelPhase, hl, hg]
        exact Nat.le_trans (by omega) (ih (eraseKey k inner) (slotSet s id none) (d + 1))

theorem colsDelPhase_store_of_eq (ks : List Int) : ∀ (inner : InnerMap) (s : SlotStore) (d : Nat),
    (colsDelPhase ks inner s d).2.2 = d → (colsDelPhase ks inner s d).2.1 = s := by
  induction ks with
  | nil => intro inner s d _; rfl
  | cons k ks ih =>
    intro inner s d h
    cases hl : lookupKey k inner with
    | none =>
      simp only [colsDelPhase, hl] at h ⊢
      exact ih inner s d h
    | some id =>
      cases hg : slotGet s id with
      | none =>
        simp only [colsDelPhase, hl, hg] at h ⊢
        exact ih (eraseKey k inner) s d h
      | some p =>
        simp only [colsDelPhase, hl, hg] at h ⊢
        have := colsDelPhase_d_mono ks (eraseKey k inner) (slotSet s id none) (d + 1)
        omega

theorem colsUpdPhase_u_mono (shift : Int) (ks : List Int) :
    ∀ (inner : InnerMap) (s : SlotStore) (u : Nat),
    u ≤ (colsUpdPhase shift ks inner s u).2.2 := by
  induction ks with
  | nil => intro inner s u; exact Nat.le_refl u
  | cons k ks ih =>
    intro inner s u
    cases hl : lookupKey k inner with
    | none => simpa only [colsUpdPhase, hl] using ih inner s u
    | some id =>
      cases hg : slotGet s id with
      | none =>
        simpa only [colsUpdPhase, hl, hg] using
          ih (insertSorted (k + shift) id (eraseKey k inner)) s u
      | some p =>
        simp only [colsUpdPhase, hl, hg]
        exact Nat.le_trans (by omega)
          (ih (insertSorted (k + shift) id (eraseKey k inner))
            (slotSet s id (some ⟨p.row, k + shift⟩)) (u + 1))

theorem colsUpdPhase_store_of_eq (shift : Int) (ks : List Int) :
    ∀ (inner : InnerMap) (s : SlotStore) (u : Nat),
    (colsUpdPhase shift ks inner s u).2.2 = u → (colsUpdPhase shift ks inner s u).2.1 = s := by
  induction ks with
  | nil => intro inner s u _; rfl
  | cons k ks ih =>
    intro inner s u h
    cases hl : lookupKey k inner with
    | none =>
      simp only [colsUpdPhase, hl] at h ⊢
      exact ih inner s u h
    | some id =>
      cases hg : slotGet s id with
      | none =>
        simp only [colsUpdPhase, hl, hg] at h ⊢
        exact ih (insertSorted (k + shift) id (eraseKey k inner)) s u h
      | some p =>
        simp only [colsUpdPhase, hl, hg] at h ⊢
        have := colsUpdPhase_u_mono shift ks (insertSorted (k + shift) id (eraseKey k inner))
            (slotSet s id (some ⟨p.row, k + shift⟩)) (u + 1)
        omega

theorem handleDeletedColsRow_d_mono (start count : Int) (inner : InnerMap) (s : SlotStore)
    (d u : Nat) : d ≤ (handleDeletedColsRow start count inner s d u).2.2.1 :=
  colsDelPhase_d_mono (((keysOf inner).filter
    (fun k => start ≤ k ∧ k < start + count)).reverse) inner s d

theorem handleDeletedColsRow_u_mono (start count : Int) (inner : InnerMap) (s : SlotStore)
    (d u : Nat) : u ≤ (handleDeletedColsRow start count inner s d u).2.2.2 :=
  colsUpdPhase_u_mono (-count) (((keysOf inner).filter (fun k => start + count ≤ k)).reverse)
    (colsDelPhase (((keysOf inner).filter
      (fun k => start ≤ k ∧ k < start + count)).reverse) inner s d).1
    (colsDelPhase (((keysOf inner).filter
      (fun k => start ≤ k ∧ k < start + count)).reverse) inner s d).2.1 u

theorem handleDeletedColsRow_store_of_eq (start count : Int) (inner : InnerMap) (s : SlotStore)
    (d u : Nat) (hd : (handleDeletedColsRow start count inner s d u).2.2.1 = d)
    (hu : (handleDeletedColsRow start count inner s d u).2.2.2 = u) :
    (handleDeletedColsRow start count inner s d u).2.1 = s := by
  have h1 := colsDelPhase_store_of_eq (((keysOf inner).filter
      (fun k => start ≤ k ∧ k < start + count)).reverse) inner s d hd
  have h2 := colsUpdPhase_store_of_eq (-count)
      (((keysOf inner).filter (fun k => start + count ≤ k)).reverse)
      (colsDelPhase (((keysOf inner).filter
        (fun k => start ≤ k ∧ k < start + count)).reverse) inner s d).1
      (colsDelPhase (((keysOf inner).filter
        (fun k => start ≤ k ∧ k < start + count)).reverse) inner s d).2.1 u hu
  exact h2.trans h1

theorem handleDeletedColsGo_d_mono (start count : Int) (m : ParamMap) :
    ∀ (s : SlotStore) (d u : Nat), d ≤ (handleDeletedColsGo start count m s d u).2.2.1 := by
  induction m with
  | nil => intro s d u; exact Nat.le_refl d
  | cons e rest ih =>
    rcases e with ⟨rk, inner⟩
    intro s d u
    show d ≤ (handleDeletedColsGo start count rest
        (handleDeletedColsRow start count inner s d u).2.1
        (handleDeletedColsRow start count inner s d u).2.2.1
        (handleDeletedColsRow start count inner s d u).2.2.2).2.2.1
    have h1 := handleDeletedColsRow_d_mono start count inner s d u
    have h2 := ih (handleDeletedColsRow start count inner s d u).2.1
        (handleDeletedColsRow start count inner s d u).2.2.1
        (handleDeletedColsRow start count inner s d u).2.2.2
    omega

theorem handleDeletedColsGo_u_mono (start count : Int) (m : ParamMap) :
    ∀ (s : SlotStore) (d u : Nat), u ≤ (handleDeletedColsGo start count m s d u).2.2.2 := by
  induction m with
  | nil => intro s d u; exact Nat.le_refl u
  | cons e rest ih =>
    rcases e with ⟨rk, inner⟩
    intro s d u
    show u ≤ (handleDeletedColsGo start count rest
        (handleDeletedColsRow start count inner s d u).2.1
        (handleDeletedColsRow start count inner s d u).2.2.1
        (handleDeletedColsRow start count inner s d u).2.2.2).2.2.2
    have h1 := handleDeletedColsRow_u_mono start count inner s d u
    have h2 := ih (handleDeletedColsRow start count inner s d u).2.1
        (handleDeletedColsRow start count inner s d u).2.2.1
        (handleDeletedColsRow start count inner s d u).2.2.2
    omega

theorem handleDeletedColsGo_store_of_eq (start count : Int) (m : ParamMap) :
    ∀ (s : SlotStore) (d u : Nat),
    (handleDeletedColsGo start count m s d u).2.2.1 = d →
    (handleDeletedColsGo start count m s d u).2.2.2 = u →
    (handleDeletedColsGo start count m s d u).2.1 = s := by
  induction m with
  | nil => intro s d u _ _; rfl
  | cons e rest ih =>
    rcases e with ⟨rk, inner⟩
    intro s d u hd hu
    have hd' : (handleDeletedColsGo start count rest
        (handleDeletedColsRow start count inner s d u).2.1
        (handleDeletedColsRow start count inner s d u).2.2.1
        (handleDeletedColsRow start count inner s d u).2.2.2).2.2.1 = d := hd
    have hu' : (handleDeletedColsGo start count rest
        (handleDeletedColsRow start count inner s d u).2.1
        (handleDeletedColsRow start count inner s d u).2.2.1
        (handleDeletedColsRow start count inner s d u).2.2.2).2.2.2 = u := hu
    have m1 := handleDeletedColsRow_d_mono start count inner s d u
    have m2 := handleDeletedColsGo_d_mono start count rest
        (handleDeletedColsRow start count inner s d u).2.1
        (handleDeletedColsRow start count inner s d u).2.2.1
        (handleDeletedColsRow start count inner s d u).2.2.2
    have m3 := handleDeletedColsRow_u_mono start count inner s d u
    have m4 := handleDeletedColsGo_u_mono start count rest
        (handleDeletedColsRow start count inner s d u).2.1
        (handleDeletedColsRow start count inner s d u).2.2.1
        (handleDeletedColsRow start count inner s d u).2.2.2
    have hrd : (handleDeletedColsRow start count inner s d u).2.2.1 = d := by omega
    have hru : (handleDeletedColsRow start count inner s d u).2.2.2 = u := by omega
    have hrow := handleDeletedColsRow_store_of_eq start count inner s d u hrd hru
    show (handleDeletedColsGo start count rest
        (handleDeletedColsRow start count inner s d u).2.1
        (handleDeletedColsRow start count inner s d u).2.2.1
        (handleDeletedColsRow start count inner s d u).2.2.2).2.1 = s
    exact (ih (handleDeletedColsRow start count inner s d u).2.1
        (handleDeletedColsRow start count inner s d u).2.2.1
        (handleDeletedColsRow start count inner s d u).2.2.2
        (hd'.trans hrd.symm) (hu'.trans hru.symm)).trans hrow

theorem handleInsertedColsGo_u_mono (before count : Int) (m : ParamMap) :
    ∀ (s : SlotStore) (u : Nat), u ≤ (handleInsertedColsGo before count m s u).2.2 := by
  induction m with
  | nil => intro s u; exact Nat.le_refl u
  | cons e rest ih =>
    rcases e with ⟨rk, inner⟩
    intro s u
    show u ≤ (handleInsertedColsGo before count rest
        (colsUpdPhase count (((keysOf inner).filter (fun k => before ≤ k)).reverse) inner s u).2.1
        (colsUpdPhase count (((keysOf inner).filter
          (fun k => before ≤ k)).reverse) inner s u).2.2).2.2
    have h1 := colsUpdPhase_u_mono count
        (((keysOf inner).filter (fun k => before ≤ k)).reverse) inner s u
    have h2 := ih (colsUpdPhase count
          (((keysOf inner).filter (fun k => before ≤ k)).reverse) inner s u).2.1
        (colsUpdPhase count (((keysOf inner).filter
          (fun k => before ≤ k)).reverse) inner s u).2.2
    omega

theorem handleInsertedColsGo_store_of_eq (before count : Int) (m : ParamMap) :
    ∀ (s : SlotStore) (u : Nat),
    (handleInsertedColsGo before count m s u).2.2 = u →
    (handleInsertedColsGo before count m s u).2.1 = s := by
  induction m with
  | nil => intro s u _; rfl
  | cons e rest ih =>
    rcases e with ⟨rk, inner⟩
    intro s u hu
    have hu' : (handleInsertedColsGo before count rest
        (colsUpdPhase count (((keysOf inner).filter (fun k => before ≤ k)).reverse) inner s u).2.1
        (colsUpdPhase count (((keysOf inner).filter
          (fun k => before ≤ k)).reverse) inner s u).2.2).2.2 = u := hu
    have m1 := colsUpdPhase_u_mono count
        (((keysOf inner).filter (fun k => before ≤ k)).reverse) inner s u
    have m2 := handleInsertedColsGo_u_mono before count rest
        (colsUpdPhase count (((keysOf inner).filter (fun k => before ≤ k)).reverse) inner s u).2.1
        (colsUpdPhase count (((keysOf inner).filter
          (fun k => before ≤ k)).reverse) inner s u).2.2
    have hpu : (colsUpdPhase count
        (((keysOf inner).filter (fun k => before ≤ k)).reverse) inner s u).2.2 = u := by omega
    have hps := colsUpdPhase_store_of_eq count
        (((keysOf inner).filter (fun k => before ≤ k)).reverse) inner s u hpu
    show (handleInsertedColsGo before count rest
        (colsUpdPhase count (((keysOf inner).filter (fun k => before ≤ k)).reverse) inner s u).2.1
        (colsUpdPhase count (((keysOf inner).filter
          (fun k => before ≤ k)).reverse) inner s u).2.2).2.1 = s
    exact (ih (colsUpdPhase count
          (((keysOf inner).filter (fun k => before ≤ k)).reverse) inner s u).2.1
        (colsUpdPhase count (((keysOf inner).filter
          (fun k => before ≤ k)).reverse) inner s u).2.2
        (hu'.trans hpu.symm)).trans hps

/-- A `(0, 0)` result from `HandleDeletedRows` means no slot was
written. -/
theorem handleDeletedRows_slots_of_zero (c : CellParamCache) (start count : Int)
    (h : (handleDeletedRows c start count).2 = (0, 0)) :
    (handleDeletedRows c start count).1.slots = c.slots := by
  have hd : (rowsDelPhase (((keysOf c.map).filter
      (fun k => start ≤ k ∧ k < start + count)).reverse) c.map c.slots 0).2.2 = 0 :=
    congrArg Prod.fst h
  have hu : (rowsUpdPhase (-count) (((keysOf c.map).filter
      (fun k => start + count ≤ k)).reverse)
      (rowsDelPhase (((keysOf c.map).filter
        (fun k => start ≤ k ∧ k < start + count)).reverse) c.map c.slots 0).1
      (rowsDelPhase (((keysOf c.map).filter
        (fun k => start ≤ k ∧ k < start + count)).reverse) c.map c.slots 0).2.1 0).2.2 = 0 :=
    congrArg Prod.snd h
  have hs1 := rowsDelPhase_store_of_eq (((keysOf c.map).filter
      (fun k => start ≤ k ∧ k < start + count)).reverse) c.map c.slots 0 hd
  have hs2 := rowsUpdPhase_store_of_eq (-count) (((keysOf c.map).filter
      (fun k => start + count ≤ k)).reverse)
      (rowsDelPhase (((keysOf c.map).filter
        (fun k => start ≤ k ∧ k < start + count)).reverse) c.map c.slots 0).1
      (rowsDelPhase (((keysOf c.map).filter
        (fun k => start ≤ k ∧ k < start + count)).reverse) c.map c.slots 0).2.1 0 hu
  exact hs2.trans hs1

/-- A `(0, 0)` result from `HandleDeletedCols` means no slot was
written. -/
theorem handleDeletedCols_slots_of_zero (c : CellParamCache) (start count : Int)
    (h : (handleDeletedCols c start count).2 = (0, 0)) :
    (handleDeletedCols c start count).1.slots = c.slots := by
  have hd : (handleDeletedColsGo start count c.map c.slots 0 0).2.2.1 = 0 :=
    congrArg Prod.fst h
  have hu : (handleDeletedColsGo start count c.map c.slots 0 0).2.2.2 = 0 :=
    congrArg Prod.snd h
  exact handleDeletedColsGo_store_of_eq start count c.map c.slots 0 0 hd hu

/-- A zero renamed count from `HandleInsertedRows` means no slot was
written. -/
theorem handleInsertedRows_slots_of_zero (c : CellParamCache) (before count : Int)
    (h : (handleInsertedRows c before count).2 = 0) :
    (handleInsertedRows c before count).1.slots = c.slots := by
  cases hm : c.map.isEmpty with
  | true =>
    simp only [handleInsertedRows, hm, if_true]
  | false =>
    simp only [handleInsertedRows, hm, if_false] at h ⊢
    exact rowsUpdPhase_store_of_eq count
      (((keysOf c.map).filter (fun k => before ≤ k)).reverse) c.map c.slots 0 h

/-- A zero renamed count from `HandleInsertedCols` means no slot was
written. -/
theorem handleInsertedCols_slots_of_zero (c : CellParamCache) (before count : Int)
    (h : (handleInsertedCols c before count).2 = 0) :
    (handleInsertedCols c before count).1.slots = c.slots := by
  have hu : (handleInsertedColsGo before count c.map c.slots 0).2.2 = 0 := h
  exact handleInsertedColsGo_store_of_eq before count c.map c.slots 0 hu

/-- A `NothingChanged` result from `Formula::HandleDeletedRows` leaves
the rebuilt expression unchanged. -/
theorem Tree.handleDeletedRows_expr (t : Tree) (first count : Int)
    (h : (t.HandleDeletedRows first count).2 = .NothingChanged) :
    (t.HandleDeletedRows first count).1.GetExpression = t.GetExpression := by
  have hz : (handleDeletedRows t.cell_cache first count).2 = (0, 0) := by
    have h' : (if (handleDeletedRows t.cell_cache first count).2.1 > 0 then
          HandlingResult.ReferencesChanged
        else if (handleDeletedRows t.cell_cache first count).2.2 > 0 then
          HandlingResult.ReferencesRenamedOnly
        else HandlingResult.NothingChanged) = HandlingResult.NothingChanged := h
    by_cases h1 : (handleDeletedRows t.cell_cache first count).2.1 > 0
    · rw [if_pos h1] at h'
      cases h'
    · rw [if_neg h1] at h'
      by_cases h2 : (handleDeletedRows t.cell_cache first count).2.2 > 0
      · rw [if_pos h2] at h'
        cases h'
      · have e1 : (handleDeletedRows t.cell_cache first count).2.1 = 0 := by omega
        have e2 : (handleDeletedRows t.cell_cache first count).2.2 = 0 := by omega
        calc (handleDeletedRows t.cell_cache first count).2
            = ((handleDeletedRows t.cell_cache first count).2.1,
               (handleDeletedRows t.cell_cache first count).2.2) := rfl
          _ = (0, 0) := by rw [e1, e2]
  have hs := handleDeletedRows_slots_of_zero t.cell_cache first count hz
  show BuildExpression (handleDeletedRows t.cell_cache first count).1.slots t.root
      = BuildExpression t.cell_cache.slots t.root
  rw [hs]

/-- A `NothingChanged` result from `Formula::HandleDeletedCols` leaves
the rebuilt expression unchanged. -/
theorem Tree.handleDeletedCols_expr (t : Tree) (first count : Int)
    (h : (t.HandleDeletedCols first count).2 = .NothingChanged) :
    (t.HandleDeletedCols first count).1.GetExpression = t.GetExpression := by
  have hz : (handleDeletedCols t.cell_cache first count).2 = (0, 0) := by
    have h' : (if (handleDeletedCols t.cell_cache first count).2.1 > 0 then
          HandlingResult.ReferencesChanged
        else if (handleDeletedCols t.cell_cache first count).2.2 > 0 then
          HandlingResult.ReferencesRenamedOnly
        else HandlingResult.NothingChanged) = HandlingResult.NothingChanged := h
    by_cases h1 : (handleDeletedCols t.cell_cache first count).2.1 > 0
    · rw [if_pos h1] at h'
      cases h'
    · rw [if_neg h1] at h'
      by_cases h2 : (handleDeletedCols t.cell_cache first count).2.2 > 0
      · rw [if_pos h2] at h'
        cases h'
      · have e1 : (handleDeletedCols t.cell_cache first count).2.1 = 0 := by omega
        have e2 : (handleDeletedCols t.cell_cache first count).2.2 = 0 := by omega
        calc (handleDeletedCols t.cell_cache first count).2
            = ((handleDeletedCols t.cell_cache first count).2.1,
               (handleDeletedCols t.cell_cache first count).2.2) := rfl
          _ = (0, 0) := by rw [e1, e2]
  have hs := handleDeletedCols_slots_of_zero t.cell_cache first count hz
  show BuildExpression (handleDeletedCols t.cell_cache first count).1.slots t.root
      = BuildExpression t.cell_cache.slots t.root
  rw [hs]

/-- When `Formula::HandleInsertedRows` does not report renames, the
rebuilt expression is unchanged. -/
theorem Tree.handleInsertedRows_expr (t : Tree) (before count : Int)
    (h : (t.HandleInsertedRows before count).2 ≠ .ReferencesRenamedOnly) :
    (t.HandleInsertedRows before count).1.GetExpression = t.GetExpression := by
  have hz : (handleInsertedRows t.cell_cache before count).2 = 0 := by
    have h' : (if (handleInsertedRows t.cell_cache before count).2 > 0 then
          HandlingResult.ReferencesRenamedOnly
        else HandlingResult.NothingChanged) ≠ HandlingResult.ReferencesRenamedOnly := h
    by_cases h1 : (handleInsertedRows t.cell_cache before count).2 > 0
    · rw [if_pos h1] at h'
      exact absurd rfl h'
    · omega
  have hs := handleInsertedRows_slots_of_zero t.cell_cache before count hz
  show BuildExpression (handleInsertedRows t.cell_cache before count).1.slots t.root
      = BuildExpression t.cell_cache.slots t.root
  rw [hs]

/-- When `Formula::HandleInsertedCols` does not report renames, the
rebuilt expression is unchanged. -/
theorem Tree.handleInsertedCols_expr (t : Tree) (before count : Int)
    (h : (t.HandleInsertedCols before count).2 ≠ .ReferencesRenamedOnly) :
    (t.HandleInsertedCols before count).1.GetExpression = t.GetExpression := by
  have hz : (handleInsertedCols t.cell_cache before count).2 = 0 := by
    have h' : (if (handleInsertedCols t.cell_cache before count).2 > 0 then
          HandlingResult.ReferencesRenamedOnly
        else HandlingResult.NothingChanged) ≠ HandlingResult.ReferencesRenamedOnly := h
    by_cases h1 : (handleInsertedCols t.cell_cache before count).2 > 0
    · rw [if_pos h1] at h'
      exact absurd rfl h'
    · omega
  have hs := handleInsertedCols_slots_of_zero t.cell_cache before count hz
  show BuildExpression (handleInsertedCols t.cell_cache before count).1.slots t.root
      = BuildExpression t.cell_cache.slots t.root
  rw [hs]

end Ast

/-! ### Claim C2: the text of a formula cell is the rebuilt expression.
First the pointwise text/formula preservation lemmas for every store
mutation that does not rewrite a formula. -/

namespace Sheet

theorem storeGet_updateCell_ne (s : Sheet) (id j : Nat) (f : Cell → Cell) (h : j ≠ id) :
    (s.updateCell id f).storeGet j = s.storeGet j := by
  unfold updateCell
  cases hg : s.storeGet id with
  | none => rfl
  | some c =>
    show ((s.store.set id (some (f c)))[j]?).join = (s.store[j]?).join
    rw [List.getElem?_set_ne (fun hh => h hh.symm)]

theorem storeGet_updateCell_self (s : Sheet) (id : Nat) (f : Cell → Cell) :
    (s.updateCell id f).storeGet id = (s.storeGet id).map f := by
  unfold updateCell
  cases hg : s.storeGet id with
  | none => exact hg
  | some c =>
    show ((s.store.set id (some (f c)))[id]?).join = (some c).map f
    have hlt : id < s.store.length := by
      by_contra hh
      have hnone : s.store[id]? = none := List.getElem?_eq_none (by omega)
      have hg' : (s.store[id]?).join = some c := hg
      rw [hnone] at hg'
      cases hg'
    obtain ⟨x, hx⟩ : ∃ x, s.store[id]? = some x := ⟨_, List.getElem?_eq_getElem hlt⟩
    rw [List.getElem?_set_self', hx]
    rfl

theorem tfAt_updateCell_keep (s : Sheet) (id : Nat) (f : Cell → Cell)
    (hf : ∀ c, (f c).text = c.text ∧ (f c).formula = c.formula) (j : Nat) :
    (s.updateCell id f).tfAt j = s.tfAt j := by
  unfold tfAt
  by_cases h : j = id
  · subst h
    rw [storeGet_updateCell_self]
    cases s.storeGet j with
    | none => rfl
    | some c =>
      show some ((f c).text, (f c).formula) = some (c.text, c.formula)
      rw [(hf c).1, (hf c).2]
  · rw [storeGet_updateCell_ne s id j f h]

theorem tfAt_foldl_updateCell (g : Cell → Cell)
    (hg : ∀ c, (g c).text = c.text ∧ (g c).formula = c.formula) :
    ∀ (l : List Nat) (s : Sheet) (j : Nat),
    (l.foldl (fun acc o => acc.updateCell o g) s).tfAt j = s.tfAt j := by
  intro l
  induction l with
  | nil => intro s j; rfl
  | cons o rest ih =>
    intro s j
    show (rest.foldl (fun acc o => acc.updateCell o g) (s.updateCell o g)).tfAt j = _
    rw [ih (s.updateCell o g) j, tfAt_updateCell_keep s o g hg j]

theorem textInv_of_tf_agree {s s' : Sheet} (hagree : ∀ j, s'.tfAt j = s.tfAt j)
    (h : s.textInv) : s'.textInv := by
  intro id c t hs hf
  have h1 : s'.tfAt id = some (c.text, c.formula) := by
    unfold tfAt
    rw [hs]
    rfl
  rw [hagree id] at h1
  unfold tfAt at h1
  cases h0 : s.storeGet id with
  | none => rw [h0] at h1; cases h1
  | some c0 =>
    rw [h0] at h1
    simp only [Option.map_some', Option.some.injEq, Prod.mk.injEq] at h1
    obtain ⟨ht, hform⟩ := h1
    rw [← ht]
    exact h id c0 t h0 (by rw [hform, hf])

theorem tfAt_invalidateDFS (fuel : Nat) :
    ∀ (s : Sheet) (stack visited : List Nat) (j : Nat),
    (invalidateDFS fuel s stack visited).tfAt j = s.tfAt j := by
  induction fuel with
  | zero => intro s stack visited j; rfl
  | succ fuel ih =>
    intro s stack visited j
    cases stack with
    | nil => rfl
    | cons cur rest =>
      by_cases hv : cur ∈ visited
      · simp only [invalidateDFS, if_pos hv]
        exact ih s rest visited j
      · cases hg : s.storeGet cur with
        | none =>
          simp only [invalidateDFS, if_neg hv, hg]
          exact ih s rest (cur :: visited) j
        | some c =>
          by_cases hc : c.cache.isSome = true
          · simp only [invalidateDFS, if_neg hv, hg, if_pos hc]
            exact (ih _ _ _ j).trans
              (tfAt_updateCell_keep s cur (fun cc => { cc with cache := none })
                (fun cc => ⟨rfl, rfl⟩) j)
          · simp only [invalidateDFS, if_neg hv, hg, if_neg hc]
            exact ih s rest (cur :: visited) j

theorem tfAt_invalidateCacheFrom (s : Sheet) (id : Nat) (j : Nat) :
    (s.invalidateCacheFrom id).tfAt j = s.tfAt j :=
  tfAt_invalidateDFS _ s [id] [] j

/-- `Node::Evaluate` only touches the sheet through the sheet-access
callback: if the callback preserves every cell's text and formula, so
does evaluation. -/
theorem tfAt_evalNodeWith
    (cb : Sheet → Position → (Except Ast.EErr (Option Ast.CellVal)) × Sheet)
    (hcb : ∀ (sh : Sheet) (p : Position) (j : Nat), ((cb sh p).2).tfAt j = sh.tfAt j)
    (slots : Ast.SlotStore) (n : Ast.Node) :
    ∀ (sh : Sheet) (j : Nat), ((Ast.evalNodeWith cb slots n sh).2).tfAt j = sh.tfAt j := by
  induction n with
  | lit v => intro sh j; rfl
  | cell slot =>
    intro sh j
    cases hs : Ast.slotGet slots slot with
    | none => simp only [Ast.evalNodeWith, hs]
    | some pos =>
      cases hcv : cb sh pos with
      | mk res sh' =>
        have hh : sh'.tfAt j = sh.tfAt j := by
          have h0 := hcb sh pos j
          rw [hcv] at h0
          exact h0
        cases res with
        | error e => simp only [Ast.evalNodeWith, hs, hcv]; exact hh
        | ok v =>
          cases v with
          | none => simp only [Ast.evalNodeWith, hs, hcv]; exact hh
          | some cv =>
            cases cv with
            | num d => simp only [Ast.evalNodeWith, hs, hcv]; exact hh
            | err e => simp only [Ast.evalNodeWith, hs, hcv]; exact hh
            | str t =>
              simp only [Ast.evalNodeWith, hs, hcv]
              by_cases he : t.isEmpty = true
              · rw [if_pos he]
                exact hh
              · rw [if_neg he]
                cases hst : Ast.stod t with
                | ok d => exact hh
                | error e => cases e <;> exact hh
  | parens content ih => intro sh j; exact ih sh j
  | unary op t ih =>
    intro sh j
    cases he : Ast.evalNodeWith cb slots t sh with
    | mk res sh' =>
      have hh : sh'.tfAt j = sh.tfAt j := by
        have h0 := ih sh j
        rw [he] at h0
        exact h0
      cases res with
      | error e => simp only [Ast.evalNodeWith, he]; exact hh
      | ok fv =>
        cases fv with
        | num v => simp only [Ast.evalNodeWith, he]; exact hh
        | err e => simp only [Ast.evalNodeWith, he]; exact hh
  | binary op l r ihl ihr =>
    intro sh j
    cases hl : Ast.evalNodeWith cb slots l sh with
    | mk resl sh₁ =>
      have h1 : sh₁.tfAt j = sh.tfAt j := by
        have h0 := ihl sh j
        rw [hl] at h0
        exact h0
      cases resl with
      | error e => simp only [Ast.evalNodeWith, hl]; exact h1
      | ok fv =>
        cases fv with
        | err e => simp only [Ast.evalNodeWith, hl]; exact h1
        | num lv =>
          cases hr : Ast.evalNodeWith cb slots r sh₁ with
          | mk resr sh₂ =>
            have h2 : sh₂.tfAt j = sh₁.tfAt j := by
              have h0 := ihr sh₁ j
              rw [hr] at h0
              exact h0
            cases resr with
            | error e => simp only [Ast.evalNodeWith, hl, hr]; exact h2.trans h1
            | ok fv2 =>
              cases fv2 with
              | err e => simp only [Ast.evalNodeWith, hl, hr]; exact h2.trans h1
              | num rv => simp only [Ast.evalNodeWith, hl, hr]; exact h2.trans h1

/-- `Cell::GetValue` writes caches only: every cell's text and formula
are untouched. -/
theorem tfAt_getValueAux (fuel : Nat) :
    ∀ (s : Sheet) (cid : Nat) (j : Nat),
    ((getValueAux fuel s cid).2).tfAt j = s.tfAt j := by
  induction fuel with
  | zero => intro s cid j; rfl
  | succ fuel ih =>
    intro s cid j
    cases hg : s.storeGet cid with
    | none => simp only [getValueAux, hg]
    | some c =>
      cases hc : c.cache with
      | some v => simp only [getValueAux, hg, hc]
      | none =>
        cases hf : c.formula with
        | none =>
          simp only [getValueAux, hg, hc, hf]
          exact tfAt_updateCell_keep s cid _ (by intro cc; exact ⟨rfl, rfl⟩) j
        | some f =>
          have hall := tfAt_evalNodeWith
            (fun sh p =>
              match sh.getCellId p with
              | .error e => (.error (.exc e), sh)
              | .ok none => (.ok none, sh)
              | .ok (some id2) =>
                match getValueAux fuel sh id2 with
                | (.ok v, sh') => (.ok (some v), sh')
                | (.error e, sh') => (.error e, sh'))
            (by
              intro sh p j2
              show ((match sh.getCellId p with
                | .error e => ((.error (.exc e) : Except Ast.EErr (Option Ast.CellVal)), sh)
                | .ok none => (.ok none, sh)
                | .ok (some id2) =>
                  match getValueAux fuel sh id2 with
                  | (.ok v, sh') => (.ok (some v), sh')
                  | (.error e, sh') => (.error e, sh')).2).tfAt j2 = sh.tfAt j2
              cases hq : sh.getCellId p with
              | error e => rfl
              | ok oid =>
                cases oid with
                | none => rfl
                | some id2 =>
                  show ((match getValueAux fuel sh id2 with
                    | (.ok v, sh') => ((.ok (some v) : Except Ast.EErr (Option Ast.CellVal)), sh')
                    | (.error e, sh') => (.error e, sh')).2).tfAt j2 = sh.tfAt j2
                  cases hv : getValueAux fuel sh id2 with
                  | mk rr sh' =>
                    have hh : sh'.tfAt j2 = sh.tfAt j2 := by
                      have h0 := ih sh id2 j2
                      rw [hv] at h0
                      exact h0
                    cases rr with
                    | ok v => exact hh
                    | error e => exact hh)
            f.cell_cache.slots f.root
          cases hev : Ast.evalNodeWith
            (fun sh p =>
              match sh.getCellId p with
              | .error e => (.error (.exc e), sh)
              | .ok none => (.ok none, sh)
              | .ok (some id2) =>
                match getValueAux fuel sh id2 with
                | (.ok v, sh') => (.ok (some v), sh')
                | (.error e, sh') => (.error e, sh'))
            f.cell_cache.slots f.root s with
          | mk res s1 =>
            have h1 : s1.tfAt j = s.tfAt j := by
              have h0 := hall s j
              rw [hev] at h0
              exact h0
            simp only [getValueAux, hg, hc, hf, hev]
            cases res with
            | ok fv =>
              exact (tfAt_updateCell_keep s1 cid _ (by intro cc; exact ⟨rfl, rfl⟩) j).trans h1
            | error e => exact h1

theorem textInv_getValueAux (fuel : Nat) (s : Sheet) (cid : Nat) (h : s.textInv) :
    ((getValueAux fuel s cid).2).textInv :=
  textInv_of_tf_agree (fun j => tfAt_getValueAux fuel s cid j) h

end Sheet

namespace Sheet

/-- The target cell of `ClearData` ends with no formula. -/
theorem clearDataOf_formula_self (s : Sheet) (id : Nat) (c0 : Cell)
    (h0 : (s.clearDataOf id).storeGet id = some c0) : c0.formula = none := by
  unfold clearDataOf at h0
  cases hg : s.storeGet id with
  | none =>
    rw [hg] at h0
    cases hg.symm.trans h0
  | some c =>
    rw [hg] at h0
    rw [storeGet_updateCell_self] at h0
    cases h1 : (c.out_cells.foldl (fun acc o => acc.updateCell o
        (fun cc => { cc with in_cells := eraseId cc.in_cells id })) s).storeGet id with
    | none => rw [h1] at h0; cases h0
    | some c1 =>
      rw [h1] at h0
      simp only [Option.map_some', Option.some.injEq] at h0
      rw [← h0]

theorem textInv_clearDataOf (s : Sheet) (id : Nat) (h : s.textInv) :
    (s.clearDataOf id).textInv := by
  unfold clearDataOf
  cases hg : s.storeGet id with
  | none => exact h
  | some c =>
    intro id' c' t hs hf
    by_cases hid : id' = id
    · subst hid
      rw [storeGet_updateCell_self] at hs
      cases h1 : (c.out_cells.foldl (fun acc o => acc.updateCell o
          (fun cc => { cc with in_cells := eraseId cc.in_cells id' })) s).storeGet id' with
      | none => rw [h1] at hs; cases hs
      | some c1 =>
        rw [h1] at hs
        simp only [Option.map_some', Option.some.injEq] at hs
        have hform : c'.formula = none := by rw [← hs]
        rw [hform] at hf
        cases hf
    · rw [storeGet_updateCell_ne _ _ _ _ hid] at hs
      have htf := tfAt_foldl_updateCell (fun cc => { cc with in_cells := eraseId cc.in_cells id })
        (fun cc => ⟨rfl, rfl⟩) c.out_cells s id'
      have h1 : s.tfAt id' = some (c'.text, c'.formula) := by
        rw [← htf]
        unfold tfAt
        rw [hs]
        rfl
      unfold tfAt at h1
      cases h0 : s.storeGet id' with
      | none => rw [h0] at h1; cases h1
      | some c0 =>
        rw [h0] at h1
        simp only [Option.map_some', Option.some.injEq, Prod.mk.injEq] at h1
        obtain ⟨ht, hform⟩ := h1
        rw [← ht]
        exact h id' c0 t h0 (by rw [hform, hf])

/-- `Cell::SetFormula` establishes the text invariant for its target and
preserves it everywhere else. -/
theorem textInv_setFormulaOf (s : Sheet) (id : Nat) (t : Ast.Tree) (outs : List Nat)
    (h : s.textInv) : (s.setFormulaOf id t outs).textInv := by
  unfold setFormulaOf
  have h1 : (s.clearDataOf id).textInv := textInv_clearDataOf s id h
  have h2 : ((s.clearDataOf id).updateCell id
      (fun c => { c with formula := some t, text := 61 :: t.GetExpression, out_cells := outs })).textInv := by
    intro id' c' t' hs hf
    by_cases hid : id' = id
    · subst hid
      rw [storeGet_updateCell_self] at hs
      cases h0 : (s.clearDataOf id').storeGet id' with
      | none => rw [h0] at hs; cases hs
      | some c0 =>
        rw [h0] at hs
        simp only [Option.map_some', Option.some.injEq] at hs
        rw [← hs] at hf ⊢
        have hft : t = t' := by
          have hsome : some t = some t' := hf
          injection hsome
        rw [← hft]
    · rw [storeGet_updateCell_ne _ _ _ _ hid] at hs
      exact h1 id' c' t' hs hf
  exact textInv_of_tf_agree (fun j => tfAt_foldl_updateCell
    (fun cc => { cc with in_cells := insertId cc.in_cells id })
    (fun cc => ⟨rfl, rfl⟩) outs _ j) h2

/-- `Cell::SetPlainText` leaves its target without a formula. -/
theorem textInv_setPlainTextOf (s : Sheet) (id : Nat) (text : CppString)
    (h : s.textInv) : (s.setPlainTextOf id text).textInv := by
  unfold setPlainTextOf
  have h1 := textInv_clearDataOf s id h
  intro id' c' t' hs hf
  by_cases hid : id' = id
  · subst hid
    rw [storeGet_updateCell_self] at hs
    cases h0 : (s.clearDataOf id').storeGet id' with
    | none => rw [h0] at hs; cases hs
    | some c0 =>
      rw [h0] at hs
      simp only [Option.map_some', Option.some.injEq] at hs
      have hc0 : c0.formula = some t' := by
        rw [← hs] at hf
        exact hf
      rw [clearDataOf_formula_self s id' c0 h0] at hc0
      cases hc0
  · rw [storeGet_updateCell_ne _ _ _ _ hid] at hs
    exact h1 id' c' t' hs hf

/-- Destroying a store entry cannot break the invariant. -/
theorem textInv_storeSet_none (s : Sheet) (id : Nat) (h : s.textInv) :
    (s.storeSet id (none : Option Cell)).textInv := by
  intro id' c' t' hs hf
  by_cases hid : id' = id
  · subst hid
    have h2 : ((s.store.set id' (none : Option Cell))[id']?).join = some c' := hs
    rw [List.getElem?_set_self'] at h2
    cases hx : s.store[id']? with
    | none => rw [hx] at h2; cases h2
    | some x => rw [hx] at h2; cases h2
  · have h2 : ((s.store.set id (none : Option Cell))[id']?).join = some c' := hs
    rw [List.getElem?_set_ne (fun hh => hid hh.symm)] at h2
    exact h id' c' t' h2 hf

theorem textInv_clearCell (s : Sheet) (pos : Position) (h : s.textInv) :
    (s.clearCell pos).textInv := by
  unfold clearCell
  split
  · exact h
  · cases hgg : s.gridGet pos with
    | none => exact h
    | some id => exact textInv_storeSet_none s id h

theorem textInv_deleteCell (s : Sheet) (pos : Position) (h : s.textInv) :
    (s.deleteCell pos).1.textInv := by
  unfold deleteCell
  split
  · exact h
  · split
    · exact h
    · split
      · exact h
      · split
        · exact h
        · rename_i x1 id hgg x2 c hsg
          have htf1 := tfAt_foldl_updateCell
            (fun cc => { cc with out_cells := eraseId cc.out_cells id })
            (fun cc => ⟨rfl, rfl⟩) c.in_cells s
          have htf2 := tfAt_foldl_updateCell
            (fun cc => { cc with in_cells := eraseId cc.in_cells id })
            (fun cc => ⟨rfl, rfl⟩) c.out_cells
            (c.in_cells.foldl (fun acc i => acc.updateCell i
              (fun cc => { cc with out_cells := eraseId cc.out_cells id })) s)
          have h2 := textInv_of_tf_agree (fun j => (htf2 j).trans (htf1 j)) h
          exact textInv_storeSet_none _ id h2

/-- A placeholder extension preserves the text invariant: old cells are
unchanged and new cells are empty. -/
theorem textInv_of_extension {old new : Sheet} (hext : PlaceholderExtension old new)
    (h : old.textInv) : new.textInv := by
  intro id c t hs hf
  obtain ⟨hlen, hpre, hnew, _, _⟩ := hext
  by_cases hid : id < old.store.length
  · have he := hpre id hid
    have hs' : old.storeGet id = some c := by
      show (old.store[id]?).join = some c
      rw [← he]
      exact hs
    exact h id c t hs' hf
  · by_cases hid2 : id < new.store.length
    · have he := hnew id (by omega) hid2
      have hs' : new.storeGet id = some Cell.empty := by
        show (new.store[id]?).join = some Cell.empty
        rw [he]
        rfl
      have hce : c = Cell.empty := by
        have h3 : some c = some Cell.empty := hs.symm.trans hs'
        injection h3
      rw [hce] at hf
      cases hf
    · have he : new.store[id]? = none := List.getElem?_eq_none (by omega)
      have hs2 : new.storeGet id = none := by
        show (new.store[id]?).join = none
        rw [he]
        rfl
      cases hs.symm.trans hs2

theorem textInv_setCell (s : Sheet) (pos : Position) (text : CppString)
    (h : s.textInv) : (s.setCell pos text).1.textInv := by
  unfold setCell
  rcases hg : s.getOrCreateCell pos with e0 | ⟨cid, s1⟩
  · simp only [hg]
    exact h
  · have hx1 : s1.textInv :=
      textInv_of_extension (getOrCreateCell_extension s pos (cid, s1) hg) h
    simp only [hg]
    by_cases hf : List.head? text = some 61
    · rw [if_pos hf]
      rcases hp : Ast.parseFormula (List.drop 1 text) with e1 | f
      · simp only [hp]
        exact hx1
      · simp only [hp]
        have hfold := setCell_fold_extension f.GetReferencedCells (([], s1), none) s1
          (placeholderExtension_refl s1)
        split
        · rename_i outs s2 heq
          rw [heq] at hfold
          have hx2 : s2.textInv := textInv_of_extension hfold hx1
          by_cases hc : cid ∈ s2.transitiveReferencedCells outs
          · rw [if_pos hc]
            exact hx2
          · rw [if_neg hc]
            have hx3 : (s2.invalidateCacheFrom cid).textInv :=
              textInv_of_tf_agree (fun j => tfAt_invalidateCacheFrom s2 cid j) hx2
            exact textInv_setFormulaOf _ cid f outs hx3
        · rename_i x outs s2 e2 heq
          rw [heq] at hfold
          exact textInv_of_extension hfold hx1
    · rw [if_neg hf]
      have hx3 : (s1.invalidateCacheFrom cid).textInv :=
        textInv_of_tf_agree (fun j => tfAt_invalidateCacheFrom s1 cid j) hx1
      exact textInv_setPlainTextOf _ cid text hx3

end Sheet

namespace Sheet

/-- Installing a formula together with its re-derived text keeps the
invariant. -/
theorem textInv_updateCell_retext (s : Sheet) (id : Nat) (t : Ast.Tree) (h : s.textInv) :
    (s.updateCell id (fun cc => { cc with formula := some t, text := 61 :: t.GetExpression })).textInv := by
  intro id' c' t' hs hft
  by_cases hid : id' = id
  · subst hid
    rw [storeGet_updateCell_self] at hs
    cases h0 : s.storeGet id' with
    | none => rw [h0] at hs; cases hs
    | some c0 =>
      rw [h0] at hs
      simp only [Option.map_some', Option.some.injEq] at hs
      have htext : c'.text = 61 :: t.GetExpression := by rw [← hs]
      have hform : c'.formula = some t := by rw [← hs]
      rw [hform] at hft
      have htt : t = t' := by injection hft
      rw [htext, htt]
  · rw [storeGet_updateCell_ne _ _ _ _ hid] at hs
    exact h id' c' t' hs hft

/-- Replacing a formula while keeping the old text keeps the invariant,
provided the new formula rebuilds to the same expression. -/
theorem textInv_updateCell_reformula (s : Sheet) (id : Nat) (t : Ast.Tree)
    (hexpr : ∀ c0, s.storeGet id = some c0 → c0.text = 61 :: t.GetExpression)
    (h : s.textInv) :
    (s.updateCell id (fun cc => { cc with formula := some t })).textInv := by
  intro id' c' t' hs hft
  by_cases hid : id' = id
  · subst hid
    rw [storeGet_updateCell_self] at hs
    cases h0 : s.storeGet id' with
    | none => rw [h0] at hs; cases hs
    | some c0 =>
      rw [h0] at hs
      simp only [Option.map_some', Option.some.injEq] at hs
      have htext : c'.text = c0.text := by rw [← hs]
      have hform : c'.formula = some t := by rw [← hs]
      rw [hform] at hft
      have htt : t = t' := by injection hft
      rw [htext, hexpr c0 h0, htt]
  · rw [storeGet_updateCell_ne _ _ _ _ hid] at hs
    exact h id' c' t' hs hft

/-- `Cell::HandleDeletedRows` keeps the invariant: on `NothingChanged`
the expression is unchanged, otherwise the text is re-derived. -/
theorem textInv_cellHandleDeletedRows (s : Sheet) (id : Nat) (first count : Int)
    (h : s.textInv) : (s.cellHandleDeletedRows id first count).1.textInv := by
  unfold cellHandleDeletedRows
  split
  · exact h
  · rename_i x1 c hg
    split
    · exact h
    · rename_i x2 f hf
      cases hre : f.HandleDeletedRows first count with
      | mk t1 res =>
        have hr1 : (f.HandleDeletedRows first count).1 = t1 := by rw [hre]
        have hr2 : (f.HandleDeletedRows first count).2 = res := by rw [hre]
        cases res with
        | NothingChanged =>
          refine textInv_updateCell_reformula s id t1 ?_ h
          intro c0 h0
          have hcc : c = c0 := by
            have hx : some c = some c0 := hg.symm.trans h0
            injection hx
          rw [← hcc, ← hr1, Ast.Tree.handleDeletedRows_expr f first count hr2]
          exact h id c f hg hf
        | ReferencesRenamedOnly => exact textInv_updateCell_retext s id t1 h
        | ReferencesChanged => exact textInv_updateCell_retext s id t1 h

theorem textInv_cellHandleDeletedCols (s : Sheet) (id : Nat) (first count : Int)
    (h : s.textInv) : (s.cellHandleDeletedCols id first count).1.textInv := by
  unfold cellHandleDeletedCols
  split
  · exact h
  · rename_i x1 c hg
    split
    · exact h
    · rename_i x2 f hf
      cases hre : f.HandleDeletedCols first count with
      | mk t1 res =>
        have hr1 : (f.HandleDeletedCols first count).1 = t1 := by rw [hre]
        have hr2 : (f.HandleDeletedCols first count).2 = res := by rw [hre]
        cases res with
        | NothingChanged =>
          refine textInv_updateCell_reformula s id t1 ?_ h
          intro c0 h0
          have hcc : c = c0 := by
            have hx : some c = some c0 := hg.symm.trans h0
            injection hx
          rw [← hcc, ← hr1, Ast.Tree.handleDeletedCols_expr f first count hr2]
          exact h id c f hg hf
        | ReferencesRenamedOnly => exact textInv_updateCell_retext s id t1 h
        | ReferencesChanged => exact textInv_updateCell_retext s id t1 h

theorem textInv_cellHandleInsertedRows (s : Sheet) (id : Nat) (before count : Int)
    (h : s.textInv) : (s.cellHandleInsertedRows id before count).textInv := by
  unfold cellHandleInsertedRows
  split
  · exact h
  · rename_i x1 c hg
    split
    · exact h
    · rename_i x2 f hf
      cases hre : f.HandleInsertedRows before count with
      | mk t1 res =>
        have hr1 : (f.HandleInsertedRows before count).1 = t1 := by rw [hre]
        have hr2 : (f.HandleInsertedRows before count).2 = res := by rw [hre]
        cases res with
        | ReferencesRenamedOnly => exact textInv_updateCell_retext s id t1 h
        | NothingChanged =>
          refine textInv_updateCell_reformula s id t1 ?_ h
          intro c0 h0
          have hcc : c = c0 := by
            have hx : some c = some c0 := hg.symm.trans h0
            injection hx
          rw [← hcc, ← hr1, Ast.Tree.handleInsertedRows_expr f before count
            (fun hh => by rw [hr2] at hh; cases hh)]
          exact h id c f hg hf
        | ReferencesChanged =>
          refine textInv_updateCell_reformula s id t1 ?_ h
          intro c0 h0
          have hcc : c = c0 := by
            have hx : some c = some c0 := hg.symm.trans h0
            injection hx
          rw [← hcc, ← hr1, Ast.Tree.handleInsertedRows_expr f before count
            (fun hh => by rw [hr2] at hh; cases hh)]
          exact h id c f hg hf

theorem textInv_cellHandleInsertedCols (s : Sheet) (id : Nat) (before count : Int)
    (h : s.textInv) : (s.cellHandleInsertedCols id before count).textInv := by
  unfold cellHandleInsertedCols
  split
  · exact h
  · rename_i x1 c hg
    split
    · exact h
    · rename_i x2 f hf
      cases hre : f.HandleInsertedCols before count with
      | mk t1 res =>
        have hr1 : (f.HandleInsertedCols before count).1 = t1 := by rw [hre]
        have hr2 : (f.HandleInsertedCols before count).2 = res := by rw [hre]
        cases res with
        | ReferencesRenamedOnly => exact textInv_updateCell_retext s id t1 h
        | NothingChanged =>
          refine textInv_updateCell_reformula s id t1 ?_ h
          intro c0 h0
          have hcc : c = c0 := by
            have hx : some c = some c0 := hg.symm.trans h0
            injection hx
          rw [← hcc, ← hr1, Ast.Tree.handleInsertedCols_expr f before count
            (fun hh => by rw [hr2] at hh; cases hh)]
          exact h id c f hg hf
        | ReferencesChanged =>
          refine textInv_updateCell_reformula s id t1 ?_ h
          intro c0 h0
          have hcc : c = c0 := by
            have hx : some c = some c0 := hg.symm.trans h0
            injection hx
          rw [← hcc, ← hr1, Ast.Tree.handleInsertedCols_expr f before count
            (fun hh => by rw [hr2] at hh; cases hh)]
          exact h id c f hg hf

theorem textInv_handleDeletedRowsAt (s : Sheet) (pos : Position) (first count : Int)
    (h : s.textInv) : (s.handleDeletedRowsAt pos first count).1.textInv := by
  unfold handleDeletedRowsAt
  split
  · exact h
  · split
    · exact h
    · split
      · exact h
      · rename_i id hgg
        have h1 := textInv_cellHandleDeletedRows s id first count h
        cases hre : s.cellHandleDeletedRows id first count with
        | mk s' b =>
          rw [hre] at h1
          cases b with
          | true => exact textInv_of_tf_agree (fun j => tfAt_invalidateCacheFrom s' id j) h1
          | false => exact h1

theorem textInv_handleDeletedColsAt (s : Sheet) (pos : Position) (first count : Int)
    (h : s.textInv) : (s.handleDeletedColsAt pos first count).1.textInv := by
  unfold handleDeletedColsAt
  split
  · exact h
  · split
    · exact h
    · split
      · exact h
      · rename_i id hgg
        have h1 := textInv_cellHandleDeletedCols s id first count h
        cases hre : s.cellHandleDeletedCols id first count with
        | mk s' b =>
          rw [hre] at h1
          cases b with
          | true => exact textInv_of_tf_agree (fun j => tfAt_invalidateCacheFrom s' id j) h1
          | false => exact h1

theorem textInv_handleInsertedRowsAt (s : Sheet) (pos : Position) (before count : Int)
    (h : s.textInv) : (s.handleInsertedRowsAt pos before count).1.textInv := by
  unfold handleInsertedRowsAt
  split
  · exact h
  · split
    · exact h
    · split
      · exact h
      · rename_i id hgg
        exact textInv_cellHandleInsertedRows s id before count h

theorem textInv_handleInsertedColsAt (s : Sheet) (pos : Position) (before count : Int)
    (h : s.textInv) : (s.handleInsertedColsAt pos before count).1.textInv := by
  unfold handleInsertedColsAt
  split
  · exact h
  · split
    · exact h
    · split
      · exact h
      · rename_i id hgg
        exact textInv_cellHandleInsertedCols s id before count h

end Sheet

theorem textInv_foldSteps {α : Type} (f : Sheet → α → Sheet × Option Exc)
    (hf : ∀ (s : Sheet) (a : α), s.textInv → (f s a).1.textInv) :
    ∀ (l : List α) (s : Sheet), s.textInv → (foldSteps f s l).1.textInv := by
  intro l
  induction l with
  | nil => intro s h; exact h
  | cons a rest ih =>
    intro s h
    cases hfa : f s a with
    | mk s' exc =>
      have h' : s'.textInv := by
        have h0 := hf s a h
        rw [hfa] at h0
        exact h0
      cases exc with
      | none =>
        simp only [foldSteps, hfa]
        exact ih s' h'
      | some e =>
        simp only [foldSteps, hfa]
        exact h'

namespace Sheet

theorem textInv_insertRows (s : Sheet) (before count : Int) (h : s.textInv) :
    (s.insertRows before count).1.textInv := by
  unfold insertRows
  split
  · exact h
  · split
    · exact h
    · have h1 := textInv_foldSteps (fun sh p => sh.handleInsertedRowsAt p before count)
        (fun sh p hh => textInv_handleInsertedRowsAt sh p before count hh)
        (posGrid (intRange 0 s.Rows) (intRange 0 s.Cols)) s h
      split
      · rename_i s1 e heq
        rw [heq] at h1
        exact h1
      · rename_i s1 heq
        rw [heq] at h1
        exact h1

theorem textInv_insertCols (s : Sheet) (before count : Int) (h : s.textInv) :
    (s.insertCols before count).1.textInv := by
  unfold insertCols
  split
  · exact h
  · split
    · exact h
    · have h1 := textInv_foldSteps (fun sh p => sh.handleInsertedColsAt p before count)
        (fun sh p hh => textInv_handleInsertedColsAt sh p before count hh)
        (posGrid (intRange 0 s.Rows) (intRange 0 s.Cols)) s h
      split
      · rename_i s1 e heq
        rw [heq] at h1
        exact h1
      · rename_i s1 heq
        rw [heq] at h1
        exact h1

theorem textInv_deleteRows_go (s : Sheet) (first count lastv : Int) (h : s.textInv) :
    Sheet.textInv (match foldSteps (fun sh p => sh.deleteCell p) s
        (posGrid (intRange first lastv) (intRange 0 s.Cols)) with
      | (s1, some e) => (s1, some e)
      | (s1, none) =>
        match foldSteps (fun sh p => sh.handleDeletedRowsAt p first count) s1
          (posGrid (intRange 0 first ++ intRange lastv s.Rows) (intRange 0 s.Cols)) with
        | (s2, some e) => (s2, some e)
        | (s2, none) =>
          ({ s2 with grid := (s2.grid.take first.toNat ++ s2.grid.drop lastv.toNat) },
            none)).1 := by
  have h1 := textInv_foldSteps (fun sh p => sh.deleteCell p)
    (fun sh p hh => textInv_deleteCell sh p hh)
    (posGrid (intRange first lastv) (intRange 0 s.Cols)) s h
  split
  · rename_i s1 e heq
    rw [heq] at h1
    exact h1
  · rename_i s1 heq
    rw [heq] at h1
    have h2 := textInv_foldSteps (fun sh p => sh.handleDeletedRowsAt p first count)
      (fun sh p hh => textInv_handleDeletedRowsAt sh p first count hh)
      (posGrid (intRange 0 first ++ intRange lastv s.Rows) (intRange 0 s.Cols)) s1 h1
    split
    · rename_i s2 e heq2
      rw [heq2] at h2
      exact h2
    · rename_i s2 heq2
      rw [heq2] at h2
      exact h2

set_option maxHeartbeats 1000000 in
theorem textInv_deleteRows (s : Sheet) (first count : Int) (h : s.textInv) :
    (s.deleteRows first count).1.textInv := by
  unfold deleteRows
  split
  · exact h
  · exact textInv_deleteRows_go s first count (min s.Rows (first + count)) h

theorem textInv_deleteCols_go (s : Sheet) (first count lastv : Int) (h : s.textInv) :
    Sheet.textInv (match foldSteps (fun sh p => sh.deleteCell p) s
        (posGrid (intRange 0 s.Rows) (intRange first lastv)) with
      | (s1, some e) => (s1, some e)
      | (s1, none) =>
        match foldSteps (fun sh p => sh.handleDeletedColsAt p first count) s1
          (posGrid (intRange 0 s.Rows) (intRange 0 first)) with
        | (s2, some e) => (s2, some e)
        | (s2, none) =>
          match foldSteps (fun sh p => sh.handleDeletedColsAt p first count) s2
            (posGrid (intRange 0 s.Rows) (intRange lastv s.Cols)) with
          | (s3, some e) => (s3, some e)
          | (s3, none) =>
            ({ s3 with grid := (s3.grid.map
                (fun (r : List (Option Nat)) => r.take first.toNat ++ r.drop lastv.toNat)) },
              none)).1 := by
  have h1 := textInv_foldSteps (fun sh p => sh.deleteCell p)
    (fun sh p hh => textInv_deleteCell sh p hh)
    (posGrid (intRange 0 s.Rows) (intRange first lastv)) s h
  split
  · rename_i s1 e heq
    rw [heq] at h1
    exact h1
  · rename_i s1 heq
    rw [heq] at h1
    have h2 := textInv_foldSteps (fun sh p => sh.handleDeletedColsAt p first count)
      (fun sh p hh => textInv_handleDeletedColsAt sh p first count hh)
      (posGrid (intRange 0 s.Rows) (intRange 0 first)) s1 h1
    split
    · rename_i s2 e heq2
      rw [heq2] at h2
      exact h2
    · rename_i s2 heq2
      rw [heq2] at h2
      have h3 := textInv_foldSteps (fun sh p => sh.handleDeletedColsAt p first count)
        (fun sh p hh => textInv_handleDeletedColsAt sh p first count hh)
        (posGrid (intRange 0 s.Rows) (intRange lastv s.Cols)) s2 h2
      split
      · rename_i s3 e heq3
        rw [heq3] at h3
        exact h3
      · rename_i s3 heq3
        rw [heq3] at h3
        exact h3

set_option maxHeartbeats 1000000 in
theorem textInv_deleteCols (s : Sheet) (first count : Int) (h : s.textInv) :
    (s.deleteCols first count).1.textInv := by
  unfold deleteCols
  split
  · exact h
  · exact textInv_deleteCols_go s first count (min s.Cols (first + count)) h

end Sheet

/-- Claim C2: in every state reachable by the public `ISheet` operations,
every cell that holds a formula has text equal to `'='` followed by the
formula's rebuilt canonical expression — `SetCell` stores the rebuilt
form, and the structural edits re-derive the text whenever the formula
reports renamed or changed references. -/
theorem C2_formula_text_invariant (s : Sheet) (h : Reachable s) : s.textInv := by
  induction h with
  | init =>
    intro id c t hs hf
    cases hs
  | setCell pos text _ ih => exact Sheet.textInv_setCell _ pos text ih
  | clearCell pos _ ih => exact Sheet.textInv_clearCell _ pos ih
  | insertRows before count _ ih => exact Sheet.textInv_insertRows _ before count ih
  | insertCols before count _ ih => exact Sheet.textInv_insertCols _ before count ih
  | deleteRows first count _ ih => exact Sheet.textInv_deleteRows _ first count ih
  | deleteCols first count _ ih => exact Sheet.textInv_deleteCols _ first count ih
  | getValue fuel cid _ ih => exact Sheet.textInv_getValueAux fuel _ cid ih

/-- Witness for C2 on the concrete reachable state after
`SetCell(A1, "=B2+1")` on a fresh sheet. -/
theorem C2_formula_text_invariant_witness :
    Sheet.textInv (Sheet.setCell emptySheet ⟨0, 0⟩ (strOf (r"=B2+1"))).1 :=
  C2_formula_text_invariant _ (Reachable.setCell ⟨0, 0⟩ (strOf (r"=B2+1")) Reachable.init)

/-! ### Claim C9: ordered-map and slot-store lemmas. -/

namespace Ast

theorem lookupKey_eraseKey_ne {α : Type} (k k' : Int) (h : k ≠ k') :
    ∀ m : List (Int × α), lookupKey k (eraseKey k' m) = lookupKey k m := by
  intro m
  induction m with
  | nil => rfl
  | cons e rest ih =>
    rcases e with ⟨k0, v0⟩
    by_cases h0 : k' = k0
    · subst h0
      have he : eraseKey k' ((k', v0) :: rest) = rest := by simp [eraseKey]
      rw [he]
      simp only [lookupKey, if_neg h]
    · simp only [eraseKey, if_neg h0, lookupKey]
      by_cases h1 : k = k0
      · rw [if_pos h1, if_pos h1]
      · rw [if_neg h1, if_neg h1]
        exact ih

theorem mem_keysOf_of_lookup {α : Type} (k : Int) (v : α) :
    ∀ m, lookupKey k m = some v → k ∈ keysOf m := by
  intro m
  induction m with
  | nil => intro h; cases h
  | cons e rest ih =>
    rcases e with ⟨k0, v0⟩
    intro h
    simp only [lookupKey] at h
    by_cases h1 : k = k0
    · subst h1
      simp [keysOf]
    · rw [if_neg h1] at h
      have := ih h
      simp only [keysOf, List.map_cons, List.mem_cons]
      right
      simpa [keysOf] using this

theorem lookup_eq_none_iff {α : Type} (k : Int) :
    ∀ m : List (Int × α), lookupKey k m = none ↔ k ∉ keysOf m := by
  intro m
  induction m with
  | nil => simp [lookupKey, keysOf]
  | cons e rest ih =>
    rcases e with ⟨k0, v0⟩
    simp only [lookupKey, keysOf, List.map_cons, List.mem_cons]
    by_cases h1 : k = k0
    · subst h1
      simp
    · rw [if_neg h1]
      simp only [keysOf] at ih
      rw [ih]
      constructor
      · intro hn hor
        rcases hor with h0 | hr
        · exact h1 h0
        · exact hn hr
      · intro hn hr
        exact hn (Or.inr hr)

theorem lookup_mem {α : Type} (k : Int) (v : α) :
    ∀ m, lookupKey k m = some v → (k, v) ∈ m := by
  intro m
  induction m with
  | nil => intro h; cases h
  | cons e rest ih =>
    rcases e with ⟨k0, v0⟩
    intro h
    simp only [lookupKey] at h
    by_cases h1 : k = k0
    · subst h1
      rw [if_pos rfl] at h
      have hv : v0 = v := by injection h
      subst hv
      exact List.mem_cons_self _ _
    · rw [if_neg h1] at h
      exact List.mem_cons_of_mem _ (ih h)

theorem lookupKey_insertSorted_ne {α : Type} (k'' k : Int) (v : α) (h : k'' ≠ k) :
    ∀ m, lookupKey k'' (insertSorted k v m) = lookupKey k'' m := by
  intro m
  induction m with
  | nil => simp [insertSorted, lookupKey, if_neg h]
  | cons e rest ih =>
    rcases e with ⟨k0, v0⟩
    simp only [insertSorted]
    by_cases h1 : k < k0
    · rw [if_pos h1]
      simp only [lookupKey, if_neg h]
    · rw [if_neg h1]
      by_cases h2 : k = k0
      · rw [if_pos h2]
      · rw [if_neg h2]
        simp only [lookupKey]
        by_cases h3 : k'' = k0
        · rw [if_pos h3, if_pos h3]
        · rw [if_neg h3, if_neg h3]
          exact ih

theorem mem_keysOf_insertSorted {α : Type} (k b : Int) (v : α) :
    ∀ m, b ∈ keysOf (insertSorted k v m) → b = k ∨ b ∈ keysOf m := by
  intro m
  induction m with
  | nil =>
    intro h
    simp only [insertSorted, keysOf, List.map_cons, List.map_nil, List.mem_singleton] at h
    exact Or.inl h
  | cons e rest ih =>
    rcases e with ⟨k0, v0⟩
    intro h
    simp only [insertSorted] at h
    by_cases h1 : k < k0
    · rw [if_pos h1] at h
      simp only [keysOf, List.map_cons, List.mem_cons] at h ⊢
      tauto
    · rw [if_neg h1] at h
      by_cases h2 : k = k0
      · rw [if_pos h2] at h
        exact Or.inr h
      · rw [if_neg h2] at h
        simp only [keysOf, List.map_cons, List.mem_cons] at h ⊢
        rcases h with h0 | hr
        · tauto
        · rcases ih hr with hk | hm
          · exact Or.inl hk
          · exact Or.inr (Or.inr hm)

theorem insertSorted_of_mem {α : Type} (k : Int) (v : α) :
    ∀ m, List.Pairwise (· < ·) (keysOf m) → k ∈ keysOf m → insertSorted k v m = m := by
  intro m
  induction m with
  | nil =>
    intro _ h
    simp [keysOf] at h
  | cons e rest ih =>
    rcases e with ⟨k0, v0⟩
    intro hp hm
    have hp' : List.Pairwise (· < ·) (k0 :: keysOf rest) := by simpa [keysOf] using hp
    obtain ⟨hhead, htail⟩ := List.pairwise_cons.mp hp'
    have hm' : k = k0 ∨ k ∈ keysOf rest := by simpa [keysOf] using hm
    simp only [insertSorted]
    rcases hm' with h0 | hrest
    · subst h0
      rw [if_neg (lt_irrefl k), if_pos rfl]
    · have hk0 : k0 < k := hhead k hrest
      rw [if_neg (by omega), if_neg (by omega), ih htail hrest]

theorem pairwise_keysOf_eraseKey {α : Type} (k : Int) :
    ∀ m : List (Int × α), List.Pairwise (· < ·) (keysOf m) →
      List.Pairwise (· < ·) (keysOf (eraseKey k m)) := by
  have hsub : ∀ m : List (Int × α), (keysOf (eraseKey k m)).Sublist (keysOf m) := by
    intro m
    induction m with
    | nil => exact List.Sublist.refl _
    | cons e rest ih =>
      rcases e with ⟨k0, v0⟩
      by_cases h0 : k = k0
      · simp only [eraseKey, if_pos h0]
        exact List.Sublist.cons _ (List.Sublist.refl _)
      · simp only [eraseKey, if_neg h0, keysOf, List.map_cons]
        exact List.Sublist.cons₂ _ ih
  intro m hp
  exact List.Pairwise.sublist (hsub m) hp

theorem pairwise_keysOf_insertSorted {α : Type} (k : Int) (v : α) :
    ∀ m : List (Int × α), List.Pairwise (· < ·) (keysOf m) →
      List.Pairwise (· < ·) (keysOf (insertSorted k v m)) := by
  intro m
  induction m with
  | nil =>
    intro _
    simp [insertSorted, keysOf]
  | cons e rest ih =>
    rcases e with ⟨k0, v0⟩
    intro hp
    have hp' : List.Pairwise (· < ·) (k0 :: keysOf rest) := by simpa [keysOf] using hp
    obtain ⟨hhead, htail⟩ := List.pairwise_cons.mp hp'
    simp only [insertSorted]
    by_cases h1 : k < k0
    · rw [if_pos h1]
      show List.Pairwise (· < ·) (k :: k0 :: keysOf rest)
      refine List.pairwise_cons.mpr ⟨?_, hp'⟩
      intro b hb
      rcases List.mem_cons.mp hb with hb0 | hbr
      · omega
      · have := hhead b hbr
        omega
    · rw [if_neg h1]
      by_cases h2 : k = k0
      · rw [if_pos h2]
        exact hp
      · rw [if_neg h2]
        show List.Pairwise (· < ·) (k0 :: keysOf (insertSorted k v rest))
        refine List.pairwise_cons.mpr ⟨?_, ih htail⟩
        intro b hb
        rcases mem_keysOf_insertSorted k b v rest hb with hbk | hbm
        · omega
        · exact hhead b hbm

theorem slotGet_slotSet_ne (s : SlotStore) (i j : Nat) (v : Option Position) (h : j ≠ i) :
    slotGet (slotSet s i v) j = slotGet s j := by
  unfold slotGet slotSet
  rw [List.getElem?_set_ne (fun hh => h hh.symm)]

theorem slotGet_slotSet_self (s : SlotStore) (i : Nat) (v : Option Position)
    (h : i < s.length) : slotGet (slotSet s i v) i = v := by
  unfold slotGet slotSet
  rw [List.getElem?_set_self']
  obtain ⟨x, hx⟩ : ∃ x, s[i]? = some x := ⟨_, List.getElem?_eq_getElem h⟩
  rw [hx]
  rfl

theorem lt_length_of_slotGet_isSome (s : SlotStore) (i : Nat)
    (h : (slotGet s i).isSome = true) : i < s.length := by
  by_contra hh
  have hn : s[i]? = none := List.getElem?_eq_none (by omega)
  unfold slotGet at h
  rw [hn] at h
  cases h

theorem mem_allIds {k : Int} {inner : InnerMap} {i : Nat} :
    ∀ m, (k, inner) ∈ m → i ∈ inner.map Prod.snd → i ∈ allIds m := by
  intro m
  induction m with
  | nil => intro h; cases h
  | cons e rest ih =>
    intro hm hi
    rcases List.mem_cons.mp hm with he | hr
    · subst he
      simp only [allIds, List.mem_append]
      exact Or.inl hi
    · simp only [allIds, List.mem_append]
      exact Or.inr (ih hr hi)

theorem allIds_disjoint {k1 k2 : Int} {in1 in2 : InnerMap} {i : Nat} :
    ∀ m, (allIds m).Nodup → (k1, in1) ∈ m → (k2, in2) ∈ m → k1 ≠ k2 →
      i ∈ in1.map Prod.snd → i ∈ in2.map Prod.snd → False := by
  intro m
  induction m with
  | nil => intro _ h; cases h
  | cons e rest ih =>
    intro hnd h1 h2 hne hi1 hi2
    have hnd' : (e.2.map Prod.snd ++ allIds rest).Nodup := hnd
    rw [List.nodup_append] at hnd'
    rcases List.mem_cons.mp h1 with he1 | hr1
    · rcases List.mem_cons.mp h2 with he2 | hr2
      · have hp : (k1, in1) = (k2, in2) := he1.trans he2.symm
        have hk : k1 = k2 := congrArg Prod.fst hp
        exact hne hk
      · have hi2' : i ∈ allIds rest := mem_allIds rest hr2 hi2
        have hi1' : i ∈ e.2.map Prod.snd := by
          rw [← he1]
          exact hi1
        exact hnd'.2.2 hi1' hi2'
    · rcases List.mem_cons.mp h2 with he2 | hr2
      · have hi1' : i ∈ allIds rest := mem_allIds rest hr1 hi1
        have hi2' : i ∈ e.2.map Prod.snd := by
          rw [← he2]
          exact hi2
        exact hnd'.2.2 hi2' hi1'
      · exact ih hnd'.2.1 hr1 hr2 hne hi1 hi2

theorem allIds_nodup_head {e : Int × InnerMap} {rest : ParamMap}
    (h : (allIds (e :: rest)).Nodup) :
    (e.2.map Prod.snd).Nodup ∧ (allIds rest).Nodup ∧
      (e.2.map Prod.snd).Disjoint (allIds rest) := by
  have h' : (e.2.map Prod.snd ++ allIds rest).Nodup := h
  rw [List.nodup_append] at h'
  exact h'

theorem lookup_isSome_of_mem {α : Type} (k : Int) (m : List (Int × α))
    (hm : k ∈ keysOf m) : ∃ v, lookupKey k m = some v := by
  cases hq : lookupKey k m with
  | none => exact absurd hm ((lookup_eq_none_iff k m).mp hq)
  | some v => exact ⟨v, rfl⟩

theorem nullifyInnerAll_fst_agree (j : Nat) :
    ∀ (inner : InnerMap) (s : SlotStore) (c : Nat),
    (∀ e ∈ inner, e.2 ≠ j) → slotGet (nullifyInnerAll s c inner).1 j = slotGet s j := by
  intro inner
  induction inner with
  | nil => intro s c _; rfl
  | cons e rest ih =>
    rcases e with ⟨a, id⟩
    intro s c hne
    show slotGet (nullifyInnerAll (slotSet s id none) (c + 1) rest).1 j = _
    rw [ih (slotSet s id none) (c + 1) (fun e he => hne e (List.mem_cons_of_mem _ he))]
    exact slotGet_slotSet_ne s id j none
      (fun hh => hne (a, id) (List.mem_cons_self _ _) hh.symm)

/-- The rename loop on an inner map all of whose slots are live: it
renames (and counts) every entry and preserves which slots are live. -/
theorem renameInnerRows_live (r : Int) :
    ∀ (inner : InnerMap) (s : SlotStore) (u : Nat),
    (∀ e ∈ inner, (slotGet s e.2).isSome = true) →
    (renameInnerRows r inner s u).2 = u + inner.length ∧
    (∀ j, (slotGet (renameInnerRows r inner s u).1 j).isSome = (slotGet s j).isSome) := by
  intro inner
  induction inner with
  | nil => intro s u _; exact ⟨by simp [renameInnerRows], fun j => rfl⟩
  | cons e rest ih =>
    rcases e with ⟨a, id⟩
    intro s u hlive
    have hid : (slotGet s id).isSome = true := hlive (a, id) (List.mem_cons_self _ _)
    obtain ⟨p, hp⟩ : ∃ p, slotGet s id = some p := by
      cases hq : slotGet s id with
      | none => rw [hq] at hid; cases hid
      | some p => exact ⟨p, rfl⟩
    have hlen := lt_length_of_slotGet_isSome s id hid
    have hpt : ∀ j, (slotGet (slotSet s id (some ⟨r, p.col⟩)) j).isSome
        = (slotGet s j).isSome := by
      intro j
      by_cases hj : j = id
      · subst hj
        rw [slotGet_slotSet_self s j _ hlen, hp]
        rfl
      · rw [slotGet_slotSet_ne s id j _ hj]
    have hrest : ∀ e ∈ rest, (slotGet (slotSet s id (some ⟨r, p.col⟩)) e.2).isSome = true := by
      intro e he
      rw [hpt e.2]
      exact hlive e (List.mem_cons_of_mem _ he)
    obtain ⟨hcnt, hpt2⟩ := ih (slotSet s id (some ⟨r, p.col⟩)) (u + 1) hrest
    refine ⟨?_, ?_⟩
    · simp only [renameInnerRows, hp]
      rw [hcnt]
      simp only [List.length_cons]
      omega
    · intro j
      simp only [renameInnerRows, hp]
      rw [hpt2 j, hpt j]

/-- The row re-keying phase on rows all of whose slots are live: the
renamed count is the total number of entries, and liveness of every slot
is unchanged.  Shifted-key collisions (`insertSorted` dropping a node)
change the map but never the count. -/
theorem rowsUpdPhase_live (shift : Int) :
    ∀ (ks : List Int) (m : ParamMap) (s : SlotStore) (u : Nat),
    ks.Nodup →
    List.Pairwise (· < ·) (keysOf m) →
    (∀ k ∈ ks, k ∈ keysOf m) →
    (∀ k ∈ ks, ∀ e ∈ (lookupKey k m).getD [], (slotGet s e.2).isSome = true) →
    (rowsUpdPhase shift ks m s u).2.2
        = u + (ks.map (fun k => ((lookupKey k m).getD []).length)).sum ∧
    (∀ j, (slotGet (rowsUpdPhase shift ks m s u).2.1 j).isSome = (slotGet s j).isSome) := by
  intro ks
  induction ks with
  | nil => intro m s u _ _ _ _; exact ⟨by simp [rowsUpdPhase], fun j => rfl⟩
  | cons k ks ih =>
    intro m s u hnd hsort hmem hlive
    obtain ⟨hk_notin, hnd'⟩ := List.nodup_cons.mp hnd
    obtain ⟨hcnt1, hpt1⟩ := renameInnerRows_live (k + shift) ((lookupKey k m).getD []) s u
      (hlive k (List.mem_cons_self _ _))
    have hsort_e : List.Pairwise (· < ·) (keysOf (eraseKey k m)) :=
      pairwise_keysOf_eraseKey k m hsort
    have hsort' : List.Pairwise (· < ·) (keysOf (insertSorted (k + shift)
        ((lookupKey k m).getD []) (eraseKey k m))) :=
      pairwise_keysOf_insertSorted _ _ _ hsort_e
    have hlook : ∀ k'' ∈ ks, lookupKey k'' (insertSorted (k + shift)
        ((lookupKey k m).getD []) (eraseKey k m)) = lookupKey k'' m := by
      intro k'' hk''
      have hkne : k'' ≠ k := fun hh => hk_notin (hh ▸ hk'')
      by_cases hcol : k + shift = k''
      · have hmem'' : k'' ∈ keysOf (eraseKey k m) := by
          by_contra hno
          have h0 := (lookup_eq_none_iff k'' (eraseKey k m)).mpr hno
          rw [lookupKey_eraseKey_ne k'' k hkne m] at h0
          exact (lookup_eq_none_iff k'' m).mp h0 (hmem k'' (List.mem_cons_of_mem _ hk''))
        rw [hcol, insertSorted_of_mem k'' _ (eraseKey k m) hsort_e hmem'']
        exact lookupKey_eraseKey_ne k'' k hkne m
      · rw [lookupKey_insertSorted_ne k'' (k + shift) _ (fun hh => hcol hh.symm) (eraseKey k m)]
        exact lookupKey_eraseKey_ne k'' k hkne m
    have hmem' : ∀ k'' ∈ ks, k'' ∈ keysOf (insertSorted (k + shift)
        ((lookupKey k m).getD []) (eraseKey k m)) := by
      intro k'' hk''
      by_contra hno
      have h0 := (lookup_eq_none_iff k'' _).mpr hno
      rw [hlook k'' hk''] at h0
      exact (lookup_eq_none_iff k'' m).mp h0 (hmem k'' (List.mem_cons_of_mem _ hk''))
    have hlive' : ∀ k'' ∈ ks, ∀ e ∈ (lookupKey k'' (insertSorted (k + shift)
        ((lookupKey k m).getD []) (eraseKey k m))).getD [],
        (slotGet (renameInnerRows (k + shift) ((lookupKey k m).getD []) s u).1 e.2).isSome
          = true := by
      intro k'' hk'' e he
      rw [hlook k'' hk''] at he
      rw [hpt1 e.2]
      exact hlive k'' (List.mem_cons_of_mem _ hk'') e he
    obtain ⟨hcnt2, hpt2⟩ := ih (insertSorted (k + shift) ((lookupKey k m).getD [])
        (eraseKey k m))
      (renameInnerRows (k + shift) ((lookupKey k m).getD []) s u).1
      (renameInnerRows (k + shift) ((lookupKey k m).getD []) s u).2
      hnd' hsort' hmem' hlive'
    refine ⟨?_, ?_⟩
    · show (rowsUpdPhase shift ks (insertSorted (k + shift) ((lookupKey k m).getD [])
          (eraseKey k m))
          (renameInnerRows (k + shift) ((lookupKey k m).getD []) s u).1
          (renameInnerRows (k + shift) ((lookupKey k m).getD []) s u).2).2.2 = _
      rw [hcnt2, hcnt1]
      have hmapeq : (ks.map (fun k'' => ((lookupKey k'' (insertSorted (k + shift)
          ((lookupKey k m).getD []) (eraseKey k m))).getD []).length))
          = ks.map (fun k'' => ((lookupKey k'' m).getD []).length) :=
        List.map_congr_left (fun k'' hk'' => by rw [hlook k'' hk''])
      rw [hmapeq]
      simp only [List.map_cons, List.sum_cons]
      omega
    · intro j
      show (slotGet (rowsUpdPhase shift ks (insertSorted (k + shift) ((lookupKey k m).getD [])
          (eraseKey k m))
          (renameInnerRows (k + shift) ((lookupKey k m).getD []) s u).1
          (renameInnerRows (k + shift) ((lookupKey k m).getD []) s u).2).2.1 j).isSome = _
      rw [hpt2 j, hpt1 j]

/-- The row delete phase: the count is the total number of entries of
the deleted rows; other rows keep their inner maps, other slots their
values, and the outer map stays sorted. -/
theorem rowsDelPhase_props :
    ∀ (ks : List Int) (m : ParamMap) (s : SlotStore) (d : Nat),
    ks.Nodup →
    (rowsDelPhase ks m s d).2.2
        = d + (ks.map (fun k => ((lookupKey k m).getD []).length)).sum ∧
    (∀ k', k' ∉ ks → lookupKey k' (rowsDelPhase ks m s d).1 = lookupKey k' m) ∧
    (∀ j, (∀ k ∈ ks, ∀ e ∈ (lookupKey k m).getD [], e.2 ≠ j) →
      slotGet (rowsDelPhase ks m s d).2.1 j = slotGet s j) ∧
    (List.Pairwise (· < ·) (keysOf m) →
      List.Pairwise (· < ·) (keysOf (rowsDelPhase ks m s d).1)) := by
  intro ks
  induction ks with
  | nil =>
    intro m s d _
    exact ⟨by simp [rowsDelPhase], fun k' _ => rfl, fun j _ => rfl, fun hp => hp⟩
  | cons k ks ih =>
    intro m s d hnd
    obtain ⟨hk_notin, hnd'⟩ := List.nodup_cons.mp hnd
    have hconv : rowsDelPhase (k :: ks) m s d = rowsDelPhase ks (eraseKey k m)
        (nullifyInnerAll s d ((lookupKey k m).getD [])).1
        (nullifyInnerAll s d ((lookupKey k m).getD [])).2 := rfl
    obtain ⟨hcnt, hlook, hstore, hsort⟩ := ih (eraseKey k m)
        (nullifyInnerAll s d ((lookupKey k m).getD [])).1
        (nullifyInnerAll s d ((lookupKey k m).getD [])).2 hnd'
    refine ⟨?_, ?_, ?_, ?_⟩
    · rw [hconv, hcnt, nullifyInnerAll_snd]
      have hmapeq : ks.map (fun k'' => ((lookupKey k'' (eraseKey k m)).getD []).length)
          = ks.map (fun k'' => ((lookupKey k'' m).getD []).length) :=
        List.map_congr_left (fun k'' hk'' => by
          rw [lookupKey_eraseKey_ne k'' k (fun hh => hk_notin (hh ▸ hk'')) m])
      rw [hmapeq]
      simp only [List.map_cons, List.sum_cons]
      omega
    · intro k' hk'
      rw [hconv, hlook k' (fun hh => hk' (List.mem_cons_of_mem _ hh))]
      exact lookupKey_eraseKey_ne k' k (fun hh => hk' (hh ▸ List.mem_cons_self _ _)) m
    · intro j hj
      rw [hconv]
      rw [hstore j (fun k'' hk'' e he => by
        rw [lookupKey_eraseKey_ne k'' k (fun hh => hk_notin (hh ▸ hk'')) m] at he
        exact hj k'' (List.mem_cons_of_mem _ hk'') e he)]
      exact nullifyInnerAll_fst_agree j ((lookupKey k m).getD []) s d
        (hj k (List.mem_cons_self _ _))
    · intro hp
      rw [hconv]
      exact hsort (pairwise_keysOf_eraseKey k m hp)

/-- `HandleDeletedRows` on a sorted, alias-free, fully-live cache: the
deleted count is the number of entries in rows `[start, start+count)`
and the renamed count the number of entries in rows `≥ start+count`. -/
theorem handleDeletedRows_counts (c : CellParamCache) (start count : Int)
    (hsort : List.Pairwise (· < ·) (keysOf c.map))
    (hnd : (allIds c.map).Nodup)
    (hlive : ∀ i ∈ allIds c.map, (slotGet c.slots i).isSome = true) :
    (handleDeletedRows c start count).2 =
      ((((keysOf c.map).filter (fun k => start ≤ k ∧ k < start + count)).map
          (fun k => ((lookupKey k c.map).getD []).length)).sum,
       (((keysOf c.map).filter (fun k => start + count ≤ k)).map
          (fun k => ((lookupKey k c.map).getD []).length)).sum) := by
  have hknd : (keysOf c.map).Nodup := hsort.imp ne_of_lt
  have hKDnd : ((((keysOf c.map).filter (fun k => start ≤ k ∧ k < start + count)).reverse) : List Int).Nodup := List.nodup_reverse.mpr (hknd.filter _)
  have hKUnd : ((((keysOf c.map).filter (fun k => start + count ≤ k)).reverse) : List Int).Nodup := List.nodup_reverse.mpr (hknd.filter _)
  obtain ⟨hcnt_d, hlook_d, hstore_d, hsort_d⟩ := rowsDelPhase_props
    (((keysOf c.map).filter (fun k => start ≤ k ∧ k < start + count)).reverse) c.map c.slots 0 hKDnd
  have hnotin : ∀ k ∈ (((keysOf c.map).filter (fun k => start + count ≤ k)).reverse), k ∉ (((keysOf c.map).filter (fun k => start ≤ k ∧ k < start + count)).reverse) := by
    intro k hku hkd
    rw [List.mem_reverse, List.mem_filter] at hku hkd
    have h1 := hku.2
    have h2 := hkd.2
    simp only [decide_eq_true_eq] at h1 h2
    omega
  have hlook_u : ∀ k ∈ (((keysOf c.map).filter (fun k => start + count ≤ k)).reverse), lookupKey k (rowsDelPhase (((keysOf c.map).filter (fun k => start ≤ k ∧ k < start + count)).reverse) c.map c.slots 0).1 = lookupKey k c.map :=
    fun k hk => hlook_d k (hnotin k hk)
  have hmem_u : ∀ k ∈ (((keysOf c.map).filter (fun k => start + count ≤ k)).reverse), k ∈ keysOf (rowsDelPhase (((keysOf c.map).filter (fun k => start ≤ k ∧ k < start + count)).reverse) c.map c.slots 0).1 := by
    intro k hk
    have hk0 : k ∈ keysOf c.map := (List.mem_filter.mp (List.mem_reverse.mp hk)).1
    by_contra hno
    have h0 := (lookup_eq_none_iff k _).mpr hno
    rw [hlook_u k hk] at h0
    exact (lookup_eq_none_iff k c.map).mp h0 hk0
  have hlive_u : ∀ k ∈ (((keysOf c.map).filter (fun k => start + count ≤ k)).reverse), ∀ e ∈ (lookupKey k (rowsDelPhase (((keysOf c.map).filter (fun k => start ≤ k ∧ k < start + count)).reverse) c.map c.slots 0).1).getD [],
      (slotGet (rowsDelPhase (((keysOf c.map).filter (fun k => start ≤ k ∧ k < start + count)).reverse) c.map c.slots 0).2.1 e.2).isSome = true := by
    intro k hk e he
    rw [hlook_u k hk] at he
    have hk0 : k ∈ keysOf c.map := (List.mem_filter.mp (List.mem_reverse.mp hk)).1
    obtain ⟨innerk, hinnerk⟩ := lookup_isSome_of_mem k c.map hk0
    rw [hinnerk] at he
    have hmemk : (k, innerk) ∈ c.map := lookup_mem k innerk c.map hinnerk
    have hi_all : e.2 ∈ allIds c.map :=
      mem_allIds c.map hmemk (List.mem_map_of_mem Prod.snd he)
    have hstore_eq : slotGet (rowsDelPhase (((keysOf c.map).filter (fun k => start ≤ k ∧ k < start + count)).reverse) c.map c.slots 0).2.1 e.2 = slotGet c.slots e.2 := by
      apply hstore_d e.2
      intro k' hk' e' he'
      have hk'0 : k' ∈ keysOf c.map := (List.mem_filter.mp (List.mem_reverse.mp hk')).1
      obtain ⟨innerk', hinnerk'⟩ := lookup_isSome_of_mem k' c.map hk'0
      rw [hinnerk'] at he'
      have hmemk' : (k', innerk') ∈ c.map := lookup_mem k' innerk' c.map hinnerk'
      have hkk' : k' ≠ k := by
        have h1 := (List.mem_filter.mp (List.mem_reverse.mp hk')).2
        have h2 := (List.mem_filter.mp (List.mem_reverse.mp hk)).2
        simp only [decide_eq_true_eq] at h1 h2
        omega
      intro hj
      exact allIds_disjoint c.map hnd hmemk' hmemk hkk'
        (List.mem_map_of_mem Prod.snd he')
        (by rw [hj]; exact List.mem_map_of_mem Prod.snd he)
    rw [hstore_eq]
    exact hlive e.2 hi_all
  obtain ⟨hcnt_u, hpt_u⟩ := rowsUpdPhase_live (-count) (((keysOf c.map).filter (fun k => start + count ≤ k)).reverse) (rowsDelPhase (((keysOf c.map).filter (fun k => start ≤ k ∧ k < start + count)).reverse) c.map c.slots 0).1 (rowsDelPhase (((keysOf c.map).filter (fun k => start ≤ k ∧ k < start + count)).reverse) c.map c.slots 0).2.1 0
    hKUnd (hsort_d hsort) hmem_u hlive_u
  have hconv : (handleDeletedRows c start count).2
      = ((rowsDelPhase (((keysOf c.map).filter (fun k => start ≤ k ∧ k < start + count)).reverse) c.map c.slots 0).2.2,
         (rowsUpdPhase (-count) (((keysOf c.map).filter (fun k => start + count ≤ k)).reverse) (rowsDelPhase (((keysOf c.map).filter (fun k => start ≤ k ∧ k < start + count)).reverse) c.map c.slots 0).1 (rowsDelPhase (((keysOf c.map).filter (fun k => start ≤ k ∧ k < start + count)).reverse) c.map c.slots 0).2.1 0).2.2) := rfl
  rw [hconv, hcnt_d, hcnt_u]
  have hmap_u : (((keysOf c.map).filter (fun k => start + count ≤ k)).reverse).map (fun k => ((lookupKey k (rowsDelPhase (((keysOf c.map).filter (fun k => start ≤ k ∧ k < start + count)).reverse) c.map c.slots 0).1).getD []).length)
      = (((keysOf c.map).filter (fun k => start + count ≤ k)).reverse).map (fun k => ((lookupKey k c.map).getD []).length) :=
    List.map_congr_left (fun k hk => by rw [hlook_u k hk])
  rw [hmap_u]
  simp only [List.map_reverse, List.sum_reverse, Nat.zero_add]

theorem eraseKey_sublist {α : Type} (k : Int) :
    ∀ m : List (Int × α), (eraseKey k m).Sublist m := by
  intro m
  induction m with
  | nil => exact List.Sublist.refl _
  | cons e rest ih =>
    rcases e with ⟨k0, v0⟩
    by_cases h0 : k = k0
    · simp only [eraseKey, if_pos h0]
      exact List.Sublist.cons _ (List.Sublist.refl _)
    · simp only [eraseKey, if_neg h0]
      exact List.Sublist.cons₂ _ ih

theorem inner_ids_distinct {k1 k2 : Int} {id1 id2 : Nat} :
    ∀ inner : InnerMap, (inner.map Prod.snd).Nodup →
      (k1, id1) ∈ inner → (k2, id2) ∈ inner → k1 ≠ k2 → id1 ≠ id2 := by
  intro inner
  induction inner with
  | nil => intro _ h; cases h
  | cons e rest ih =>
    intro hnd h1 h2 hne
    obtain ⟨hhead, hrest⟩ := List.nodup_cons.mp hnd
    rcases List.mem_cons.mp h1 with he1 | hr1
    · rcases List.mem_cons.mp h2 with he2 | hr2
      · have hp : (k1, id1) = (k2, id2) := he1.trans he2.symm
        exact absurd (congrArg Prod.fst hp) hne
      · intro hij
        have he2' : id1 = e.2 := congrArg Prod.snd he1
        have hm : id2 ∈ rest.map Prod.snd := List.mem_map_of_mem Prod.snd hr2
        rw [← hij, he2'] at hm
        exact hhead hm
    · rcases List.mem_cons.mp h2 with he2 | hr2
      · intro hij
        have he2' : id2 = e.2 := congrArg Prod.snd he2
        have hm : id1 ∈ rest.map Prod.snd := List.mem_map_of_mem Prod.snd hr1
        rw [hij, he2'] at hm
        exact hhead hm
      · exact ih hrest hr1 hr2 hne

theorem filter_fst_length {α : Type} (l : List (Int × α)) (p : Int → Bool) :
    (l.filter (fun e => p e.1)).length = ((l.map Prod.fst).filter p).length := by
  induction l with
  | nil => rfl
  | cons e rest ih =>
    by_cases h : p e.1
    · simp [List.filter_cons, h, ih]
    · simp [List.filter_cons, h, ih]

theorem innerCountP_eq_keys (P : Int → Bool) (inner : InnerMap) :
    innerCountP P inner = ((keysOf inner).filter P).length := by
  unfold innerCountP keysOf
  exact filter_fst_length inner P

/-- The column delete phase on keys whose slots are live: one count per
key; other keys, other slots and sortedness are untouched. -/
theorem colsDelPhase_props :
    ∀ (ks : List Int) (inner : InnerMap) (s : SlotStore) (d : Nat),
    ks.Nodup →
    (inner.map Prod.snd).Nodup →
    (∀ k ∈ ks, k ∈ keysOf inner) →
    (∀ k ∈ ks, ∀ id, lookupKey k inner = some id → (slotGet s id).isSome = true) →
    (colsDelPhase ks inner s d).2.2 = d + ks.length ∧
    (∀ k', k' ∉ ks → lookupKey k' (colsDelPhase ks inner s d).1 = lookupKey k' inner) ∧
    (∀ j, (∀ k ∈ ks, ∀ id, lookupKey k inner = some id → id ≠ j) →
      slotGet (colsDelPhase ks inner s d).2.1 j = slotGet s j) ∧
    (List.Pairwise (· < ·) (keysOf inner) →
      List.Pairwise (· < ·) (keysOf (colsDelPhase ks inner s d).1)) := by
  intro ks
  induction ks with
  | nil =>
    intro inner s d _ _ _ _
    exact ⟨by simp [colsDelPhase], fun k' _ => rfl, fun j _ => rfl, fun hp => hp⟩
  | cons k ks ih =>
    intro inner s d hnd hids hmem hlive
    obtain ⟨hk_notin, hnd'⟩ := List.nodup_cons.mp hnd
    obtain ⟨id, hid⟩ := lookup_isSome_of_mem k inner (hmem k (List.mem_cons_self _ _))
    have hlv := hlive k (List.mem_cons_self _ _) id hid
    obtain ⟨p, hps⟩ : ∃ p, slotGet s id = some p := by
      cases hq : slotGet s id with
      | none => rw [hq] at hlv; cases hlv
      | some p => exact ⟨p, rfl⟩
    have hids' : ((eraseKey k inner).map Prod.snd).Nodup :=
      List.Nodup.sublist (List.Sublist.map _ (eraseKey_sublist k inner)) hids
    have hlookpres : ∀ k'' ∈ ks, lookupKey k'' (eraseKey k inner) = lookupKey k'' inner :=
      fun k'' hk'' => lookupKey_eraseKey_ne k'' k (fun hh => hk_notin (hh ▸ hk'')) inner
    have hmem' : ∀ k'' ∈ ks, k'' ∈ keysOf (eraseKey k inner) := by
      intro k'' hk''
      by_contra hno
      have h0 := (lookup_eq_none_iff k'' _).mpr hno
      rw [hlookpres k'' hk''] at h0
      exact (lookup_eq_none_iff k'' inner).mp h0 (hmem k'' (List.mem_cons_of_mem _ hk''))
    have hlive' : ∀ k'' ∈ ks, ∀ id'', lookupKey k'' (eraseKey k inner) = some id'' →
        (slotGet (slotSet s id none) id'').isSome = true := by
      intro k'' hk'' id'' hid''
      rw [hlookpres k'' hk''] at hid''
      have hne_id : id ≠ id'' := inner_ids_distinct inner hids (lookup_mem k id inner hid)
        (lookup_mem k'' id'' inner hid'') (fun hh => hk_notin (hh ▸ hk''))
      rw [slotGet_slotSet_ne s id id'' none (fun hh => hne_id hh.symm)]
      exact hlive k'' (List.mem_cons_of_mem _ hk'') id'' hid''
    obtain ⟨hcnt, hlook, hstore, hsorted⟩ := ih (eraseKey k inner) (slotSet s id none) (d + 1)
      hnd' hids' hmem' hlive'
    refine ⟨?_, ?_, ?_, ?_⟩
    · simp only [colsDelPhase, hid, hps]
      rw [hcnt]
      simp only [List.length_cons]
      omega
    · intro k' hk'
      simp only [colsDelPhase, hid, hps]
      rw [hlook k' (fun hh => hk' (List.mem_cons_of_mem _ hh))]
      exact lookupKey_eraseKey_ne k' k (fun hh => hk' (hh ▸ List.mem_cons_self _ _)) inner
    · intro j hj
      simp only [colsDelPhase, hid, hps]
      rw [hstore j (fun k'' hk'' id'' hid'' => by
        rw [hlookpres k'' hk''] at hid''
        exact hj k'' (List.mem_cons_of_mem _ hk'') id'' hid'')]
      exact slotGet_slotSet_ne s id j none
        (fun hh => (hj k (List.mem_cons_self _ _) id hid) hh.symm)
    · intro hp
      simp only [colsDelPhase, hid, hps]
      exact hsorted (pairwise_keysOf_eraseKey k inner hp)

/-- The column re-keying phase on keys whose slots are live: one rename
per key, and the liveness of every slot is unchanged. -/
theorem colsUpdPhase_allLive (shift : Int) :
    ∀ (ks : List Int) (inner : InnerMap) (s : SlotStore) (u : Nat),
    ks.Nodup →
    List.Pairwise (· < ·) (keysOf inner) →
    (∀ k ∈ ks, k ∈ keysOf inner) →
    (∀ k ∈ ks, ∀ id, lookupKey k inner = some id → (slotGet s id).isSome = true) →
    (colsUpdPhase shift ks inner s u).2.2 = u + ks.length ∧
    (∀ j, (slotGet (colsUpdPhase shift ks inner s u).2.1 j).isSome
      = (slotGet s j).isSome) := by
  intro ks
  induction ks with
  | nil => intro inner s u _ _ _ _; exact ⟨by simp [colsUpdPhase], fun j => rfl⟩
  | cons k ks ih =>
    intro inner s u hnd hsort hmem hlive
    obtain ⟨hk_notin, hnd'⟩ := List.nodup_cons.mp hnd
    obtain ⟨id, hid⟩ := lookup_isSome_of_mem k inner (hmem k (List.mem_cons_self _ _))
    have hlv := hlive k (List.mem_cons_self _ _) id hid
    obtain ⟨p, hps⟩ : ∃ p, slotGet s id = some p := by
      cases hq : slotGet s id with
      | none => rw [hq] at hlv; cases hlv
      | some p => exact ⟨p, rfl⟩
    have hlen := lt_length_of_slotGet_isSome s id hlv
    have hpt : ∀ j, (slotGet (slotSet s id (some ⟨p.row, k + shift⟩)) j).isSome
        = (slotGet s j).isSome := by
      intro j
      by_cases hj : j = id
      · subst hj
        rw [slotGet_slotSet_self s j _ hlen, hps]
        rfl
      · rw [slotGet_slotSet_ne s id j _ hj]
    have hsort_e := pairwise_keysOf_eraseKey k inner hsort
    have hsort' := pairwise_keysOf_insertSorted (k + shift) id (eraseKey k inner) hsort_e
    have hlook : ∀ k'' ∈ ks, lookupKey k'' (insertSorted (k + shift) id (eraseKey k inner))
        = lookupKey k'' inner := by
      intro k'' hk''
      have hkne : k'' ≠ k := fun hh => hk_notin (hh ▸ hk'')
      by_cases hcol : k + shift = k''
      · have hmem'' : k'' ∈ keysOf (eraseKey k inner) := by
          by_contra hno
          have h0 := (lookup_eq_none_iff k'' _).mpr hno
          rw [lookupKey_eraseKey_ne k'' k hkne inner] at h0
          exact (lookup_eq_none_iff k'' inner).mp h0 (hmem k'' (List.mem_cons_of_mem _ hk''))
        rw [hcol, insertSorted_of_mem k'' _ _ hsort_e hmem'']
        exact lookupKey_eraseKey_ne k'' k hkne inner
      · rw [lookupKey_insertSorted_ne k'' (k + shift) _ (fun hh => hcol hh.symm) _]
        exact lookupKey_eraseKey_ne k'' k hkne inner
    have hmem' : ∀ k'' ∈ ks, k'' ∈ keysOf (insertSorted (k + shift) id (eraseKey k inner)) := by
      intro k'' hk''
      by_contra hno
      have h0 := (lookup_eq_none_iff k'' _).mpr hno
      rw [hlook k'' hk''] at h0
      exact (lookup_eq_none_iff k'' inner).mp h0 (hmem k'' (List.mem_cons_of_mem _ hk''))
    have hlive' : ∀ k'' ∈ ks, ∀ id'',
        lookupKey k'' (insertSorted (k + shift) id (eraseKey k inner)) = some id'' →
        (slotGet (slotSet s id (some ⟨p.row, k + shift⟩)) id'').isSome = true := by
      intro k'' hk'' id'' hid''
      rw [hlook k'' hk''] at hid''
      rw [hpt id'']
      exact hlive k'' (List.mem_cons_of_mem _ hk'') id'' hid''
    obtain ⟨hcnt, hptr⟩ := ih (insertSorted (k + shift) id (eraseKey k inner))
      (slotSet s id (some ⟨p.row, k + shift⟩)) (u + 1) hnd' hsort' hmem' hlive'
    refine ⟨?_, ?_⟩
    · simp only [colsUpdPhase, hid, hps]
      rw [hcnt]
      simp only [List.length_cons]
      omega
    · intro j
      simp only [colsUpdPhase, hid, hps]
      rw [hptr j, hpt j]

/-- One row of `HandleDeletedCols` on a sorted, alias-free, fully-live
inner map: the delete count is the number of in-range keys, the rename
count the number of keys `≥ start+count`, and slots not referenced by
the row keep their liveness. -/
theorem handleDeletedColsRow_counts (start count : Int) (inner : InnerMap) (s : SlotStore)
    (d u : Nat)
    (hsort : List.Pairwise (· < ·) (keysOf inner))
    (hids : (inner.map Prod.snd).Nodup)
    (hlive : ∀ e ∈ inner, (slotGet s e.2).isSome = true) :
    (handleDeletedColsRow start count inner s d u).2.2.1
        = d + ((keysOf inner).filter (fun k => start ≤ k ∧ k < start + count)).length ∧
    (handleDeletedColsRow start count inner s d u).2.2.2
        = u + ((keysOf inner).filter (fun k => start + count ≤ k)).length ∧
    (∀ j, (∀ e ∈ inner, e.2 ≠ j) →
      (slotGet (handleDeletedColsRow start count inner s d u).2.1 j).isSome
        = (slotGet s j).isSome) := by
  have hknd : (keysOf inner).Nodup := hsort.imp ne_of_lt
  have hKDnd : ((((keysOf inner).filter (fun k => start ≤ k ∧ k < start + count)).reverse) : List Int).Nodup := List.nodup_reverse.mpr (hknd.filter _)
  have hKUnd : ((((keysOf inner).filter (fun k => start + count ≤ k)).reverse) : List Int).Nodup := List.nodup_reverse.mpr (hknd.filter _)
  have hmemKD : ∀ k ∈ (((keysOf inner).filter (fun k => start ≤ k ∧ k < start + count)).reverse), k ∈ keysOf inner :=
    fun k hk => (List.mem_filter.mp (List.mem_reverse.mp hk)).1
  have hliveKD : ∀ k ∈ (((keysOf inner).filter (fun k => start ≤ k ∧ k < start + count)).reverse), ∀ id, lookupKey k inner = some id →
      (slotGet s id).isSome = true :=
    fun k hk id hid => hlive (k, id) (lookup_mem k id inner hid)
  obtain ⟨hcnt_d, hlook_d, hstore_d, hsort_d⟩ :=
    colsDelPhase_props (((keysOf inner).filter (fun k => start ≤ k ∧ k < start + count)).reverse) inner s d hKDnd hids hmemKD hliveKD
  have hnotin : ∀ k ∈ (((keysOf inner).filter (fun k => start + count ≤ k)).reverse), k ∉ (((keysOf inner).filter (fun k => start ≤ k ∧ k < start + count)).reverse) := by
    intro k hku hkd
    rw [List.mem_reverse, List.mem_filter] at hku hkd
    have h1 := hku.2
    have h2 := hkd.2
    simp only [decide_eq_true_eq] at h1 h2
    omega
  have hlook_u : ∀ k ∈ (((keysOf inner).filter (fun k => start + count ≤ k)).reverse), lookupKey k (colsDelPhase (((keysOf inner).filter (fun k => start ≤ k ∧ k < start + count)).reverse) inner s d).1 = lookupKey k inner :=
    fun k hk => hlook_d k (hnotin k hk)
  have hmem_u : ∀ k ∈ (((keysOf inner).filter (fun k => start + count ≤ k)).reverse), k ∈ keysOf (colsDelPhase (((keysOf inner).filter (fun k => start ≤ k ∧ k < start + count)).reverse) inner s d).1 := by
    intro k hk
    have hk0 : k ∈ keysOf inner := (List.mem_filter.mp (List.mem_reverse.mp hk)).1
    by_contra hno
    have h0 := (lookup_eq_none_iff k _).mpr hno
    rw [hlook_u k hk] at h0
    exact (lookup_eq_none_iff k inner).mp h0 hk0
  have hlive_u : ∀ k ∈ (((keysOf inner).filter (fun k => start + count ≤ k)).reverse), ∀ id, lookupKey k (colsDelPhase (((keysOf inner).filter (fun k => start ≤ k ∧ k < start + count)).reverse) inner s d).1 = some id →
      (slotGet (colsDelPhase (((keysOf inner).filter (fun k => start ≤ k ∧ k < start + count)).reverse) inner s d).2.1 id).isSome = true := by
    intro k hk id hid
    rw [hlook_u k hk] at hid
    have hag : slotGet (colsDelPhase (((keysOf inner).filter (fun k => start ≤ k ∧ k < start + count)).reverse) inner s d).2.1 id = slotGet s id := by
      apply hstore_d id
      intro k' hk' id' hid'
      have hkk' : k' ≠ k := by
        have h1 := (List.mem_filter.mp (List.mem_reverse.mp hk')).2
        have h2 := (List.mem_filter.mp (List.mem_reverse.mp hk)).2
        simp only [decide_eq_true_eq] at h1 h2
        omega
      exact inner_ids_distinct inner hids (lookup_mem k' id' inner hid')
        (lookup_mem k id inner hid) hkk'
    rw [hag]
    exact hlive (k, id) (lookup_mem k id inner hid)
  obtain ⟨hcnt_u, hpt_u⟩ := colsUpdPhase_allLive (-count) (((keysOf inner).filter (fun k => start + count ≤ k)).reverse) (colsDelPhase (((keysOf inner).filter (fun k => start ≤ k ∧ k < start + count)).reverse) inner s d).1 (colsDelPhase (((keysOf inner).filter (fun k => start ≤ k ∧ k < start + count)).reverse) inner s d).2.1 u
    hKUnd (hsort_d hsort) hmem_u hlive_u
  refine ⟨?_, ?_, ?_⟩
  · show (colsDelPhase (((keysOf inner).filter (fun k => start ≤ k ∧ k < start + count)).reverse) inner s d).2.2 = _
    rw [hcnt_d]
    simp only [List.length_reverse]
  · show (colsUpdPhase (-count) (((keysOf inner).filter (fun k => start + count ≤ k)).reverse) (colsDelPhase (((keysOf inner).filter (fun k => start ≤ k ∧ k < start + count)).reverse) inner s d).1 (colsDelPhase (((keysOf inner).filter (fun k => start ≤ k ∧ k < start + count)).reverse) inner s d).2.1 u).2.2 = _
    rw [hcnt_u]
    simp only [List.length_reverse]
  · intro j hj
    show (slotGet (colsUpdPhase (-count) (((keysOf inner).filter (fun k => start + count ≤ k)).reverse) (colsDelPhase (((keysOf inner).filter (fun k => start ≤ k ∧ k < start + count)).reverse) inner s d).1 (colsDelPhase (((keysOf inner).filter (fun k => start ≤ k ∧ k < start + count)).reverse) inner s d).2.1 u).2.1 j).isSome = _
    rw [hpt_u j]
    have hag : slotGet (colsDelPhase (((keysOf inner).filter (fun k => start ≤ k ∧ k < start + count)).reverse) inner s d).2.1 j = slotGet s j := by
      apply hstore_d j
      intro k' hk' id' hid'
      exact hj (k', id') (lookup_mem k' id' inner hid')
    rw [hag]

/-- The outer loop of `HandleDeletedCols` on a well-formed, fully-live
map: the two counters accumulate the per-row entry counts. -/
theorem handleDeletedColsGo_counts (start count : Int) :
    ∀ (m : ParamMap) (s : SlotStore) (d u : Nat),
    (∀ e ∈ m, List.Pairwise (· < ·) (keysOf e.2)) →
    (allIds m).Nodup →
    (∀ i ∈ allIds m, (slotGet s i).isSome = true) →
    (handleDeletedColsGo start count m s d u).2.2.1
        = d + totalCount (fun k => start ≤ k ∧ k < start + count) m ∧
    (handleDeletedColsGo start count m s d u).2.2.2
        = u + totalCount (fun k => start + count ≤ k) m := by
  intro m
  induction m with
  | nil =>
    intro s d u _ _ _
    exact ⟨by simp [handleDeletedColsGo, totalCount], by simp [handleDeletedColsGo, totalCount]⟩
  | cons e rest ih =>
    rcases e with ⟨rk, inner⟩
    intro s d u hsorts hnd hlive
    obtain ⟨hids_head, hnd_rest, hdisj⟩ := allIds_nodup_head hnd
    have hlive_head : ∀ e ∈ inner, (slotGet s e.2).isSome = true := by
      intro e he
      refine hlive e.2 ?_
      show e.2 ∈ allIds ((rk, inner) :: rest)
      simp only [allIds, List.mem_append]
      exact Or.inl (List.mem_map_of_mem Prod.snd he)
    obtain ⟨hrow_d, hrow_u, hrow_pt⟩ := handleDeletedColsRow_counts start count inner s d u
      (hsorts (rk, inner) (List.mem_cons_self _ _)) hids_head hlive_head
    have hlive_rest : ∀ i ∈ allIds rest,
        (slotGet (handleDeletedColsRow start count inner s d u).2.1 i).isSome = true := by
      intro i hi
      rw [hrow_pt i (fun e he hei => hdisj
        (by rw [← hei]; exact List.mem_map_of_mem Prod.snd he) hi)]
      refine hlive i ?_
      show i ∈ allIds ((rk, inner) :: rest)
      simp only [allIds, List.mem_append]
      exact Or.inr hi
    obtain ⟨hgo_d, hgo_u⟩ := ih (handleDeletedColsRow start count inner s d u).2.1
      (handleDeletedColsRow start count inner s d u).2.2.1
      (handleDeletedColsRow start count inner s d u).2.2.2
      (fun e he => hsorts e (List.mem_cons_of_mem _ he)) hnd_rest hlive_rest
    constructor
    · show (handleDeletedColsGo start count rest
          (handleDeletedColsRow start count inner s d u).2.1
          (handleDeletedColsRow start count inner s d u).2.2.1
          (handleDeletedColsRow start count inner s d u).2.2.2).2.2.1 = _
      rw [hgo_d, hrow_d]
      have htc : totalCount (fun k => start ≤ k ∧ k < start + count) ((rk, inner) :: rest)
          = innerCountP (fun k => start ≤ k ∧ k < start + count) inner
            + totalCount (fun k => start ≤ k ∧ k < start + count) rest := by
        simp [totalCount]
      rw [htc, innerCountP_eq_keys]
      omega
    · show (handleDeletedColsGo start count rest
          (handleDeletedColsRow start count inner s d u).2.1
          (handleDeletedColsRow start count inner s d u).2.2.1
          (handleDeletedColsRow start count inner s d u).2.2.2).2.2.2 = _
      rw [hgo_u, hrow_u]
      have htc : totalCount (fun k => start + count ≤ k) ((rk, inner) :: rest)
          = innerCountP (fun k => start + count ≤ k) inner
            + totalCount (fun k => start + count ≤ k) rest := by
        simp [totalCount]
      rw [htc, innerCountP_eq_keys]
      omega

/-- `HandleDeletedCols` on a well-formed, fully-live cache: the deleted
count is the number of entries with column in `[start, start+count)`,
the renamed count the number with column `≥ start+count`. -/
theorem handleDeletedCols_counts (c : CellParamCache) (start count : Int)
    (hsorts : ∀ e ∈ c.map, List.Pairwise (· < ·) (keysOf e.2))
    (hnd : (allIds c.map).Nodup)
    (hlive : ∀ i ∈ allIds c.map, (slotGet c.slots i).isSome = true) :
    (handleDeletedCols c start count).2 =
      (totalCount (fun k => start ≤ k ∧ k < start + count) c.map,
       totalCount (fun k => start + count ≤ k) c.map) := by
  obtain ⟨hd, hu⟩ := handleDeletedColsGo_counts start count c.map c.slots 0 0 hsorts hnd hlive
  have hconv : (handleDeletedCols c start count).2
      = ((handleDeletedColsGo start count c.map c.slots 0 0).2.2.1,
         (handleDeletedColsGo start count c.map c.slots 0 0).2.2.2) := rfl
  rw [hconv, hd, hu]
  simp

theorem mem_insertKeySorted {a k : Int} : ∀ l, a ∈ insertKeySorted k l ↔ a = k ∨ a ∈ l := by
  intro l
  induction l with
  | nil => simp [insertKeySorted]
  | cons k0 rest ih =>
    simp only [insertKeySorted]
    by_cases h1 : k < k0
    · rw [if_pos h1]
      simp only [List.mem_cons]
    · rw [if_neg h1]
      by_cases h2 : k = k0
      · rw [if_pos h2]
        subst h2
        simp only [List.mem_cons]
        tauto
      · rw [if_neg h2]
        simp only [List.mem_cons, ih]
        tauto

theorem pairwise_insertKeySorted (k : Int) :
    ∀ l, List.Pairwise (· < ·) l → List.Pairwise (· < ·) (insertKeySorted k l) := by
  intro l
  induction l with
  | nil => intro _; simp [insertKeySorted]
  | cons k0 rest ih =>
    intro hp
    obtain ⟨hhead, htail⟩ := List.pairwise_cons.mp hp
    simp only [insertKeySorted]
    by_cases h1 : k < k0
    · rw [if_pos h1]
      refine List.pairwise_cons.mpr ⟨?_, hp⟩
      intro b hb
      rcases List.mem_cons.mp hb with h | h
      · omega
      · have := hhead b h
        omega
    · rw [if_neg h1]
      by_cases h2 : k = k0
      · rw [if_pos h2]
        exact hp
      · rw [if_neg h2]
        refine List.pairwise_cons.mpr ⟨?_, ih htail⟩
        intro b hb
        rcases (mem_insertKeySorted rest).mp hb with h | h
        · omega
        · exact hhead b h

theorem pairwise_innerFold :
    ∀ (inner : InnerMap) (acc : List Int), List.Pairwise (· < ·) acc →
      List.Pairwise (· < ·) (inner.foldl (fun a ci => insertKeySorted ci.1 a) acc) := by
  intro inner
  induction inner with
  | nil => intro acc h; exact h
  | cons ci rest ih =>
    intro acc h
    exact ih _ (pairwise_insertKeySorted ci.1 acc h)

theorem mem_innerFold_of_mem :
    ∀ (inner : InnerMap) (acc : List Int) (a : Int), a ∈ acc →
      a ∈ inner.foldl (fun a ci => insertKeySorted ci.1 a) acc := by
  intro inner
  induction inner with
  | nil => intro acc a h; exact h
  | cons ci rest ih =>
    intro acc a h
    exact ih _ a ((mem_insertKeySorted acc).mpr (Or.inr h))

theorem mem_innerFold_of_entry :
    ∀ (inner : InnerMap) (acc : List Int) (ci : Int × Nat), ci ∈ inner →
      ci.1 ∈ inner.foldl (fun a ci => insertKeySorted ci.1 a) acc := by
  intro inner
  induction inner with
  | nil => intro acc ci h; cases h
  | cons c0 rest ih =>
    intro acc ci h
    rcases List.mem_cons.mp h with he | hr
    · subst he
      exact mem_innerFold_of_mem rest _ ci.1 ((mem_insertKeySorted acc).mpr (Or.inl rfl))
    · exact ih _ ci hr

theorem pairwise_colFold :
    ∀ (m : ParamMap) (acc : List Int), List.Pairwise (· < ·) acc →
      List.Pairwise (· < ·) (m.foldl (fun acc ri => ri.2.foldl
        (fun a ci => insertKeySorted ci.1 a) acc) acc) := by
  intro m
  induction m with
  | nil => intro acc h; exact h
  | cons ri rest ih =>
    intro acc h
    exact ih _ (pairwise_innerFold ri.2 acc h)

theorem mem_colFold_of_mem :
    ∀ (m : ParamMap) (acc : List Int) (a : Int), a ∈ acc →
      a ∈ m.foldl (fun acc ri => ri.2.foldl (fun a ci => insertKeySorted ci.1 a) acc) acc := by
  intro m
  induction m with
  | nil => intro acc a h; exact h
  | cons ri rest ih =>
    intro acc a h
    exact ih _ a (mem_innerFold_of_mem ri.2 acc a h)

theorem mem_colFold_of_entry :
    ∀ (m : ParamMap) (acc : List Int) (ri : Int × InnerMap) (ci : Int × Nat),
      ri ∈ m → ci ∈ ri.2 →
      ci.1 ∈ m.foldl (fun acc ri => ri.2.foldl (fun a ci => insertKeySorted ci.1 a) acc) acc := by
  intro m
  induction m with
  | nil => intro acc ri ci h; cases h
  | cons r0 rest ih =>
    intro acc ri ci hri hci
    rcases List.mem_cons.mp hri with he | hr
    · subst he
      exact mem_colFold_of_mem rest _ ci.1 (mem_innerFold_of_entry ri.2 acc ci hci)
    · exact ih _ ri ci hr hci

theorem colKeysSorted_sorted (m : ParamMap) :
    List.Pairwise (· < ·) (colKeysSorted m) := by
  unfold colKeysSorted
  exact pairwise_colFold m [] List.Pairwise.nil

theorem mem_colKeysSorted {m : ParamMap} {ri : Int × InnerMap} {ci : Int × Nat}
    (hri : ri ∈ m) (hci : ci ∈ ri.2) : ci.1 ∈ colKeysSorted m := by
  unfold colKeysSorted
  exact mem_colFold_of_entry m [] ri ci hri hci

theorem keysOf_map_pair {α : Type} (F : Int → α) :
    ∀ K : List Int, keysOf (K.map (fun k => (k, F k))) = K := by
  intro K
  induction K with
  | nil => rfl
  | cons k rest ih =>
    simp only [List.map_cons, List.map_map, keysOf] at ih ⊢
    rw [ih]

theorem keysOf_transposeMap (m : ParamMap) : keysOf (transposeMap m) = colKeysSorted m := by
  unfold transposeMap
  exact keysOf_map_pair _ (colKeysSorted m)

theorem lookup_map_keys (F : Int → InnerMap) (ck : Int) :
    ∀ K : List Int, ck ∈ K → lookupKey ck (K.map (fun k => (k, F k))) = some (F ck) := by
  intro K
  induction K with
  | nil => intro h; cases h
  | cons k0 rest ih =>
    intro h
    simp only [List.map_cons, lookupKey]
    by_cases h0 : ck = k0
    · subst h0
      rw [if_pos rfl]
    · rw [if_neg h0]
      exact ih ((List.mem_cons.mp h).resolve_left h0)

theorem length_filterMap_lookup (ck : Int) (m : ParamMap) :
    (m.filterMap (fun ri => (lookupKey ck ri.2).map (fun id => (ri.1, id)))).length
      = m.countP (fun ri => (lookupKey ck ri.2).isSome) := by
  induction m with
  | nil => rfl
  | cons ri rest ih =>
    cases hq : lookupKey ck ri.2 with
    | none => simp [List.filterMap_cons, hq, List.countP_cons, ih]
    | some id => simp [List.filterMap_cons, hq, List.countP_cons, ih]

theorem lookup_isSome_eq_mem {α : Type} (a : Int) (m : List (Int × α)) :
    (lookupKey a m).isSome = decide (a ∈ keysOf m) := by
  cases hq : lookupKey a m with
  | none => simp [(lookup_eq_none_iff a m).mp hq]
  | some v => simp [mem_keysOf_of_lookup a v m hq]

theorem count_filter_subset (K S : List Int) (p : Int → Bool) (hK : K.Nodup) (hS : S.Nodup)
    (hsub : ∀ a ∈ S, a ∈ K) :
    (K.filter (fun a => p a && decide (a ∈ S))).length = (S.filter p).length := by
  rw [← List.toFinset_card_of_nodup (hK.filter _), ← List.toFinset_card_of_nodup (hS.filter _)]
  congr 1
  ext a
  simp only [List.toFinset_filter, Finset.mem_filter, List.mem_toFinset, Bool.and_eq_true,
    decide_eq_true_eq]
  constructor
  · rintro ⟨_, hp, ha⟩
    exact ⟨ha, hp⟩
  · rintro ⟨ha, hp⟩
    exact ⟨hsub a ha, hp, ha⟩

theorem sum_filter_map (f : Int → Nat) (P : Int → Bool) :
    ∀ l : List Int, ((l.filter P).map f).sum = (l.map (fun a => if P a then f a else 0)).sum := by
  intro l
  induction l with
  | nil => rfl
  | cons a rest ih =>
    simp only [List.filter_cons]
    by_cases h : P a
    · simp [h, ih]
    · simp [h, ih]

theorem sum_count_swap (q : Int → (Int × InnerMap) → Bool) :
    ∀ (Kf : List Int) (m : ParamMap),
    (Kf.map (fun ck => m.countP (fun ri => q ck ri))).sum
      = (m.map (fun ri => (Kf.filter (fun ck => q ck ri)).length)).sum := by
  intro Kf
  induction Kf with
  | nil =>
    intro m
    simp only [List.map_nil, List.sum_nil]
    have hz : ∀ m' : ParamMap,
        (m'.map (fun ri => (([] : List Int).filter (fun ck => q ck ri)).length)).sum = 0 := by
      intro m'
      induction m' with
      | nil => rfl
      | cons ri rest ih => simp [ih]
    exact (hz m).symm
  | cons ck rest ih =>
    intro m
    simp only [List.map_cons, List.sum_cons, ih]
    have hpt : ∀ m' : ParamMap,
        (m'.map (fun ri => ((ck :: rest).filter (fun c => q c ri)).length)).sum
          = m'.countP (fun ri => q ck ri)
            + (m'.map (fun ri => (rest.filter (fun c => q c ri)).length)).sum := by
      intro m'
      induction m' with
      | nil => rfl
      | cons ri0 rest' ih' =>
        simp only [List.map_cons, List.sum_cons, List.countP_cons, ih']
        simp only [List.filter_cons]
        by_cases hq : q ck ri0 = true
        · simp only [hq, if_true, List.length_cons]
          omega
        · rw [if_neg hq, if_neg hq]
          omega
    rw [hpt m]

/-- The rows-side sum over the transposed map equals the column-filtered
entry count of the original map. -/
theorem transpose_sum (m : ParamMap) (P : Int → Bool)
    (hrows : ∀ e ∈ m, (keysOf e.2).Nodup) :
    (((keysOf (transposeMap m)).filter P).map
        (fun k => ((lookupKey k (transposeMap m)).getD []).length)).sum
      = totalCount P m := by
  have hKnd : (colKeysSorted m).Nodup := (colKeysSorted_sorted m).imp ne_of_lt
  rw [keysOf_transposeMap]
  -- evaluate the lookups over the filtered keys
  have hlook : ∀ k ∈ (colKeysSorted m).filter P,
      ((lookupKey k (transposeMap m)).getD []).length
        = m.countP (fun ri => (lookupKey k ri.2).isSome) := by
    intro k hk
    have hkK : k ∈ colKeysSorted m := (List.mem_filter.mp hk).1
    have := lookup_map_keys
      (fun ck => m.filterMap (fun ri => (lookupKey ck ri.2).map (fun id => (ri.1, id)))) k
      (colKeysSorted m) hkK
    unfold transposeMap
    rw [this]
    exact length_filterMap_lookup k m
  rw [List.map_congr_left hlook]
  rw [sum_filter_map (fun k => m.countP (fun ri => (lookupKey k ri.2).isSome)) P
    (colKeysSorted m)]
  -- turn the conditional into a conjunctive count
  have hcond : ∀ k, (if P k then m.countP (fun ri => (lookupKey k ri.2).isSome) else 0)
      = m.countP (fun ri => P k && (lookupKey k ri.2).isSome) := by
    intro k
    by_cases h : P k
    · simp [h]
    · have h' : P k = false := by
        cases hv : P k
        · rfl
        · exact absurd hv h
      simp [h']
  rw [List.map_congr_left (fun k _ => hcond k)]
  rw [sum_count_swap (fun ck ri => P ck && (lookupKey ck ri.2).isSome) (colKeysSorted m) m]
  -- per-row: the filtered key count is the row's own filtered key count
  unfold totalCount
  refine congrArg List.sum (List.map_congr_left ?_)
  intro ri hri
  have hfe : (colKeysSorted m).filter (fun ck => P ck && (lookupKey ck ri.2).isSome)
      = (colKeysSorted m).filter (fun ck => P ck && decide (ck ∈ keysOf ri.2)) :=
    List.filter_congr (fun ck _ => by rw [lookup_isSome_eq_mem])
  rw [hfe, innerCountP_eq_keys]
  refine count_filter_subset (colKeysSorted m) (keysOf ri.2) P hKnd (hrows ri hri) ?_
  intro a ha
  obtain ⟨ci, hci, hcia⟩ := List.mem_map.mp ha
  rw [← hcia]
  exact mem_colKeysSorted hri hci

end Ast

/-- Claim C9: HandleDeletedCols is not literally the transpose conjugate of
HandleDeletedRows — `C9_counterexample` shows the resulting cache maps can
differ (shifted keys colliding with surviving keys) and even the returned
count pairs can differ when a slot is already deleted (rows counts every
entry, cols only entries with a live slot).  What does hold: on any
well-formed cache (sorted outer and inner keys, pairwise-distinct slot ids
that are all live, with the transposed cache also well-formed),
HandleDeletedCols and transpose-then-HandleDeletedRows return the same
(deleted_count, renamed_count) pair. -/
theorem C9_amended_counts (c : Ast.CellParamCache) (start count : Int)
    (h1 : Ast.CacheWF c) (h2 : Ast.CacheWF (Ast.transposeCache c)) :
    (Ast.handleDeletedCols c start count).2
      = (Ast.handleDeletedRows (Ast.transposeCache c) start count).2 := by
  obtain ⟨hs1, hs2, hnd1, hlive1⟩ := h1
  obtain ⟨ts1, ts2, tnd, tlive⟩ := h2
  rw [Ast.handleDeletedCols_counts c start count hs2 hnd1 hlive1]
  rw [Ast.handleDeletedRows_counts (Ast.transposeCache c) start count ts1 tnd tlive]
  have hm : (Ast.transposeCache c).map = Ast.transposeMap c.map := rfl
  rw [hm]
  have hrows : ∀ e ∈ c.map, (keysOf e.2).Nodup := fun e he => (hs2 e he).imp ne_of_lt
  have e1 := Ast.transpose_sum c.map (fun k => decide (start ≤ k ∧ k < start + count)) hrows
  have e2 := Ast.transpose_sum c.map (fun k => decide (start + count ≤ k)) hrows
  rw [e1, e2]

/-- Witness for C9: the two-entry cache `c9cache` is well formed, its
transpose is well formed, and deleting one column produces the same count
pair as transposing and deleting one row. -/
theorem C9_amended_counts_witness :
    Ast.CacheWF Ast.c9cache ∧ Ast.CacheWF (Ast.transposeCache Ast.c9cache) ∧
    (Ast.handleDeletedCols Ast.c9cache 0 1).2
      = (Ast.handleDeletedRows (Ast.transposeCache Ast.c9cache) 0 1).2 :=
  ⟨by decide, by decide, C9_amended_counts Ast.c9cache 0 1 (by decide) (by decide)⟩

end Spreadsheet
